import Mathlib

/-!
# Verification of the extraction + RAG core (Khesir/Thesisv2)

Shallow embedding of the Python source under `src/` and proofs of the
frozen claims about it.  Python strings are modelled as `List Char`,
Python dicts as association lists in insertion order, machine floats whose
uses are exact (lengths divided by 4, integer token sums) as exact
arithmetic.  Every definition is translated from the source file named in
its doc comment.
-/

set_option maxHeartbeats 1600000

namespace Thesis

/-- Python truthiness of an optional string (`None` and `""` are falsy).
Used wherever the source writes `if new.get('field')` on a string field. -/
def truthyS : Option String → Bool
  | none => false
  | some s => s ≠ ""

/-- Python truthiness of an optional list (`None` and `[]` are falsy). -/
def truthyL {α : Type} : Option (List α) → Bool
  | none => false
  | some l => !l.isEmpty

/-! ## Data model: `ExtractionResult` and `ChunkExtractionResult`
from `src/finder_system/llm_extractor/llm_interface.py` (dataclasses). -/

/-- `ExtractionResult` dataclass: standardized result of one
`extract_from_text` call (`llm_interface.py`, lines 10-19).
The `data` payload is left abstract (`Option Dict` in Python); claims
only inspect `success`, `usage`, `error` and `provider`. -/
structure ExtractionResult (Data : Type) where
  success : Bool
  data : Option Data := none
  error : Option String := none
  provider : Option String := none
  model : Option String := none
  usageIn : Nat := 0
  usageOut : Nat := 0
  deriving Repr, DecidableEq

/-- `ChunkExtractionResult` dataclass (`llm_interface.py`, lines 22-31). -/
structure ChunkExtractionResult (Data : Type) where
  success : Bool
  data : Option Data := none
  chunk_results : Option (List (Nat × Data × Nat × Nat)) := none
  total_chunks_processed : Nat := 0
  total_usage : Option (Nat × Nat) := none
  provider : Option String := none
  error : Option String := none
  deriving Repr, DecidableEq

/-- A chunk as passed to the adapters: `{'chunk_id', 'text', ...}`.
`text` stays abstract here; the per-chunk extraction outcome is supplied
by the `extractText` oracle standing for the provider's API round trip. -/
structure InChunk (Text : Type) where
  chunk_id : Nat
  text : Text
  deriving Repr, DecidableEq

/-! ## Adapter batch extraction (C6)

`GeminiAdapter.extract_from_chunks` (`gemini_adapter.py` 316-388),
`OllamaAdapter.extract_from_chunks` (`ollama_adapter.py` 172-236) and
`ClaudeAdapter.extract_from_chunks` (`claude_adapter.py` 150-226) share
one skeleton: iterate chunks, keep the successful extractions, sum usage,
fail iff no chunk succeeded.  Claude additionally collects the error
strings of failed chunks and reports the last one.  The per-chunk call
`self.extract_from_text(chunk_text)` is an API round trip; it is the
oracle parameter `extractText`. -/

/-- Shared loop of all three adapters: fold the chunks, appending
`(chunk_id, data, usage)` for each successful extraction and the error
text for each failed one, while summing usage of successful ones. -/
def chunkLoop {Text Data : Type} (extractText : Text → ExtractionResult Data) :
    List (InChunk Text) →
    List (Nat × Data × Nat × Nat) × List String × Nat × Nat
  | [] => ([], [], 0, 0)
  | c :: rest =>
    let r := extractText c.text
    let (results, errors, tin, tout) := chunkLoop extractText rest
    match r.success, r.data with
    | true, some d =>
      ((c.chunk_id, d, r.usageIn, r.usageOut) :: results, errors,
        r.usageIn + tin, r.usageOut + tout)
    | true, none =>
      -- `success=True` always carries `data` in the source adapters;
      -- kept total here: a success without data contributes no payload.
      (results, errors, r.usageIn + tin, r.usageOut + tout)
    | false, _ =>
      (results,
        ("chunk " ++ toString c.chunk_id ++ ": " ++ (r.error.getD "None")) :: errors,
        tin, tout)

/-- `GeminiAdapter.extract_from_chunks` / `OllamaAdapter.extract_from_chunks`
(`gemini_adapter.py` 316-388): combined or per-chunk results; failure
exactly when `results` is empty.  `combine` stands for
`self._combine_chunk_results`; `availError` is the provider-specific
"not configured" message. -/
def adapterExtractFromChunks {Text Data : Type}
    (providerName availError : String) (available : Bool)
    (extractText : Text → ExtractionResult Data)
    (combine : List (Nat × Data × Nat × Nat) → Data)
    (chunks : List (InChunk Text)) (combineResults : Bool) :
    ChunkExtractionResult Data :=
  if !available then
    { success := false, error := some availError, provider := some providerName }
  else
    let (results, _, tin, tout) := chunkLoop extractText chunks
    if results.isEmpty then
      { success := false
        error := some "Failed to extract data from any chunks"
        provider := some providerName }
    else if combineResults then
      { success := true
        data := some (combine results)
        total_chunks_processed := results.length
        total_usage := some (tin, tout)
        provider := some providerName }
    else
      { success := true
        chunk_results := some results
        total_chunks_processed := results.length
        total_usage := some (tin, tout)
        provider := some providerName }

/-- `ClaudeAdapter.extract_from_chunks` (`claude_adapter.py` 150-226):
same skeleton, but the zero-success failure message carries the error of
the last failed chunk. -/
def claudeExtractFromChunks {Text Data : Type} (available : Bool)
    (extractText : Text → ExtractionResult Data)
    (combine : List (Nat × Data × Nat × Nat) → Data)
    (chunks : List (InChunk Text)) (combineResults : Bool) :
    ChunkExtractionResult Data :=
  if !available then
    { success := false, error := some "Claude API not configured"
      provider := some "claude" }
  else
    let (results, errors, tin, tout) := chunkLoop extractText chunks
    if results.isEmpty then
      let lastError := (errors.getLast?).getD "Unknown error"
      { success := false
        error := some ("Failed to extract data from any chunks. " ++ lastError)
        provider := some "claude" }
    else if combineResults then
      { success := true
        data := some (combine results)
        total_chunks_processed := results.length
        total_usage := some (tin, tout)
        provider := some "claude" }
    else
      { success := true
        chunk_results := some results
        total_chunks_processed := results.length
        total_usage := some (tin, tout)
        provider := some "claude" }

/-- Number of chunks whose per-chunk extraction succeeds (with payload,
as the source adapters always produce on success). -/
def successCount {Text Data : Type} (extractText : Text → ExtractionResult Data)
    (chunks : List (InChunk Text)) : Nat :=
  (chunks.filter (fun c => (extractText c.text).success &&
    (extractText c.text).data.isSome)).length

theorem chunkLoop_results_length {Text Data : Type}
    (extractText : Text → ExtractionResult Data) (chunks : List (InChunk Text)) :
    (chunkLoop extractText chunks).1.length = successCount extractText chunks := by
  induction chunks with
  | nil => rfl
  | cons c rest ih =>
    simp only [chunkLoop, successCount, List.filter] at *
    rcases hs : (extractText c.text).success with _ | _ <;>
      rcases hd : (extractText c.text).data with _ | d <;>
      simp_all [successCount, Option.isSome]

/-- C6: for every available adapter variant (Claude-shaped and
Gemini/Ollama-shaped batch loops), the batch result has `success = false`
exactly when zero chunks were successfully extracted, and otherwise
`success = true` with `total_chunks_processed` equal to the number of
successful chunks (failed chunks are dropped from the count). -/
theorem extract_from_chunks_success_iff {Text Data : Type}
    (providerName availError : String)
    (extractText : Text → ExtractionResult Data)
    (combine : List (Nat × Data × Nat × Nat) → Data)
    (chunks : List (InChunk Text)) (combineResults : Bool) :
    ((adapterExtractFromChunks providerName availError true extractText
        combine chunks combineResults).success
      = !(successCount extractText chunks == 0)
    ∧ (adapterExtractFromChunks providerName availError true extractText
        combine chunks combineResults).total_chunks_processed
      = successCount extractText chunks)
    ∧ ((claudeExtractFromChunks true extractText
        combine chunks combineResults).success
      = !(successCount extractText chunks == 0)
    ∧ (claudeExtractFromChunks true extractText
        combine chunks combineResults).total_chunks_processed
      = successCount extractText chunks) := by
  have hlen := chunkLoop_results_length extractText chunks
  rcases h : chunkLoop extractText chunks with ⟨results, errors, tin, tout⟩
  rw [h] at hlen
  simp only at hlen
  constructor <;> constructor <;>
    · simp only [adapterExtractFromChunks, claudeExtractFromChunks,
        Bool.not_true, Bool.false_eq_true, if_false, h]
      rcases hr : results with _ | ⟨r, rest⟩ <;>
        subst hr <;>
        rcases hc : combineResults with _ | _ <;>
        simp_all [List.isEmpty] <;>
        omega

/-! ## LLMOrchestrator (C1, C10)

From `src/finder_system/llm_orchestrator.py`.  A provider is an adapter
instance; its `is_available()` answer and the outcome of its
`extract_from_chunks` call (a returned `ChunkExtractionResult` or a
raised exception) are modelled as fixed data, matching the claims'
"always fails" / "always succeeds" providers and §4.2's stateless calls. -/

/-- Outcome of one `provider.extract_from_chunks(...)` call as seen by
the orchestrator's `try` block: a returned result or a raised exception
with message `msg` (`llm_orchestrator.py` 204-225). -/
inductive POutcome (D : Type) where
  | ret (r : ChunkExtractionResult D)
  | exn (msg : String)
  deriving DecidableEq

/-- An adapter in the orchestrator's pool. -/
structure Provider (D : Type) where
  name : String
  avail : Bool
  outcome : POutcome D
  deriving DecidableEq

/-- `ProviderStrategy` enum (`llm_orchestrator.py` 17-22). -/
inductive Strategy where
  | failover | round_robin | cost_optimized | performance
  deriving DecidableEq, Repr

/-- Mutable orchestrator state: `self.providers` and
`self.current_provider_index` (`llm_orchestrator.py` 45-47). -/
structure OrchState (D : Type) where
  providers : List (Provider D)
  strategy : Strategy
  cursor : Nat
  deriving DecidableEq

/-- `get_available_providers` (`llm_orchestrator.py` 115-122). -/
def getAvailableProviders {D : Type} (st : OrchState D) : List (Provider D) :=
  st.providers.filter (·.avail)

/-- Inner double loop of the priority strategies (`llm_orchestrator.py`
148-162): first provider in `avail` whose name matches the earliest
entry of the priority list. -/
def findByPriority {D : Type} (prio : List String) (avail : List (Provider D)) :
    Option (Provider D) :=
  match prio with
  | [] => none
  | n :: rest =>
    match avail.find? (fun p => p.name = n) with
    | some p => some p
    | none => findByPriority rest avail

/-- `_get_next_provider` (`llm_orchestrator.py` 124-164).  Returns the
selected provider and the successor state (the round-robin cursor is the
only mutated field). -/
def getNextProvider {D : Type} [DecidableEq D] (st : OrchState D) :
    Option (Provider D) × OrchState D :=
  match getAvailableProviders st with
  | [] => (none, st)
  | a :: rest =>
    match st.strategy with
    | .failover => (some a, st)
    | .round_robin =>
      (some ((a :: rest).get
          ⟨st.cursor % (rest.length + 1), Nat.mod_lt _ (Nat.succ_pos _)⟩),
        { st with cursor := st.cursor + 1 })
    | .cost_optimized =>
      (some ((findByPriority ["ollama", "gemini", "claude"] (a :: rest)).getD a), st)
    | .performance =>
      (some ((findByPriority ["claude", "gemini", "ollama"] (a :: rest)).getD a), st)

/-- Python `f"...{x}..."` on an optional string: `None` prints as "None". -/
def pyStrOpt : Option String → String
  | none => "None"
  | some s => s

/-- The `ChunkExtractionResult` returned when the retry loop exits with
all attempts failed (`llm_orchestrator.py` 228-232). -/
def allFailed {D : Type} (lastError : Option String) : ChunkExtractionResult D :=
  { success := false
    error := some ("All providers failed. Last error: " ++ pyStrOpt lastError)
    provider := some "multiple" }

/-- Result of one orchestrated `extract_from_chunks` call, instrumented
with the ordered list of provider names attempted (the `print` trace of
`llm_orchestrator.py` line 202). -/
structure OrchResult (D : Type) where
  result : ChunkExtractionResult D
  state : OrchState D
  trace : List String
  deriving DecidableEq

/-- The `while attempts <= max_retries` loop of `extract_from_chunks`
(`llm_orchestrator.py` 196-225).  `fuel` is `max_retries + 1 - attempts`:
each non-returning iteration increments `attempts`.  On a returned failed
result under failover the provider is erased from the pool (line 216-217)
and the loop continues; under other strategies the loop breaks; on an
exception the pool is untouched and the loop continues. -/
def orchLoop {D : Type} [DecidableEq D] :
    Nat → OrchState D → Option String → List String → OrchResult D
  | 0, st, lastError, trace => ⟨allFailed lastError, st, trace⟩
  | fuel + 1, st, lastError, trace =>
    match getNextProvider st with
    | (none, st') => ⟨allFailed lastError, st', trace⟩
    | (some p, st') =>
      match p.outcome with
      | .ret r =>
        if r.success then ⟨r, st', trace ++ [p.name]⟩
        else
          if st'.strategy = .failover then
            orchLoop fuel { st' with providers := st'.providers.erase p }
              r.error (trace ++ [p.name])
          else ⟨allFailed r.error, st', trace ++ [p.name]⟩
      | .exn m => orchLoop fuel st' (some m) (trace ++ [p.name])

/-- `LLMOrchestrator.extract_from_chunks` (`llm_orchestrator.py`
166-232): hard failure when no provider is available at entry, else the
retry loop with `max_retries + 1` attempts. -/
def orchestratorExtract {D : Type} [DecidableEq D] (st : OrchState D)
    (maxRetries : Nat) : OrchResult D :=
  if (getAvailableProviders st).isEmpty then
    ⟨{ success := false
       error := some "No LLM providers available. Please configure at least one provider."
       provider := some "none" }, st, []⟩
  else orchLoop (maxRetries + 1) st none []

/-- A sequence of `extract_from_chunks` calls on the same orchestrator
instance, threading the mutated state; collects each call's attempt
trace. -/
def runCalls {D : Type} [DecidableEq D] (st : OrchState D) :
    List Nat → List (List String)
  | [] => []
  | mr :: rest =>
    let r := orchestratorExtract st mr
    r.trace :: runCalls r.state rest

theorem findByPriority_mem {D : Type} (prio : List String)
    (avail : List (Provider D)) (p : Provider D)
    (h : findByPriority prio avail = some p) : p ∈ avail := by
  induction prio with
  | nil => simp [findByPriority] at h
  | cons n rest ih =>
    simp only [findByPriority] at h
    rcases hf : avail.find? (fun q => decide (q.name = n)) with _ | q
    · rw [hf] at h
      exact ih h
    · rw [hf] at h
      cases h
      exact List.mem_of_find?_eq_some hf

theorem getNextProvider_mem {D : Type} [DecidableEq D] (st : OrchState D)
    (p : Provider D) (h : (getNextProvider st).1 = some p) :
    p ∈ st.providers ∧ p.avail = true := by
  suffices hs : p ∈ getAvailableProviders st by
    have := List.mem_filter.mp hs
    exact ⟨this.1, by simpa using this.2⟩
  unfold getNextProvider at h
  rcases ha : getAvailableProviders st with _ | ⟨a, rest⟩ <;> rw [ha] at h
  · simp at h
  · rcases hst : st.strategy <;> simp only [hst] at h
    · cases h
      exact List.mem_cons_self _ _
    · cases h
      exact List.get_mem _ _ _
    · rcases hf : findByPriority ["ollama", "gemini", "claude"] (a :: rest)
        with _ | q <;> rw [hf] at h <;> cases h
      · exact List.mem_cons_self _ _
      · exact findByPriority_mem _ _ _ hf
    · rcases hf : findByPriority ["claude", "gemini", "ollama"] (a :: rest)
        with _ | q <;> rw [hf] at h <;> cases h
      · exact List.mem_cons_self _ _
      · exact findByPriority_mem _ _ _ hf

theorem getNextProvider_state {D : Type} [DecidableEq D] (st : OrchState D) :
    (getNextProvider st).2.providers = st.providers ∧
    (getNextProvider st).2.strategy = st.strategy := by
  unfold getNextProvider
  split
  · simp
  · split <;> simp

theorem orchLoop_providers_sublist {D : Type} [DecidableEq D] :
    ∀ (fuel : Nat) (st : OrchState D) (le : Option String) (tr : List String),
    (orchLoop fuel st le tr).state.providers.Sublist st.providers := by
  intro fuel
  induction fuel with
  | zero => intro st le tr; exact List.Sublist.refl _
  | succ fuel ih =>
    intro st le tr
    simp only [orchLoop]
    split
    · next st' heq =>
      have hprov : st'.providers = st.providers := by
        have := (getNextProvider_state st).1
        rw [heq] at this
        exact this
      show st'.providers.Sublist st.providers
      rw [hprov]
    · next p st' heq =>
      have hprov : st'.providers = st.providers := by
        have := (getNextProvider_state st).1
        rw [heq] at this
        exact this
      have hsub : st'.providers.Sublist st.providers := by
        rw [hprov]
      have hsubE : (st'.providers.erase p).Sublist st.providers :=
        (List.erase_sublist p st'.providers).trans hsub
      split
      · next r hout =>
        by_cases hsucc : r.success = true
        · rw [if_pos hsucc]
          exact hsub
        · rw [if_neg hsucc]
          by_cases hstrat : st'.strategy = Strategy.failover
          · rw [if_pos hstrat]
            exact (ih _ _ _).trans hsubE
          · rw [if_neg hstrat]
            exact hsub
      · next m hout =>
        exact (ih _ _ _).trans hsub

theorem orchLoop_trace_names {D : Type} [DecidableEq D] :
    ∀ (fuel : Nat) (st : OrchState D) (le : Option String) (tr : List String)
    (n : String), n ∉ st.providers.map (·.name) → n ∉ tr →
    n ∉ (orchLoop fuel st le tr).trace := by
  intro fuel
  induction fuel with
  | zero => intro st le tr n _ htr; exact htr
  | succ fuel ih =>
    intro st le tr n hnames htr
    simp only [orchLoop]
    split
    · next st' heq =>
      exact htr
    · next p st' heq =>
      have hprov : st'.providers = st.providers := by
        have := (getNextProvider_state st).1
        rw [heq] at this
        exact this
      have hpmem : p ∈ st.providers :=
        (getNextProvider_mem st p (by rw [heq])).1
      have hnp : n ≠ p.name := by
        intro hcon
        exact hnames (hcon ▸ List.mem_map_of_mem (·.name) hpmem)
      have htr' : n ∉ tr ++ [p.name] := by
        intro hcon
        rcases List.mem_append.mp hcon with hl | hr
        · exact htr hl
        · exact hnp (List.mem_singleton.mp hr)
      have hnames' : n ∉ st'.providers.map (·.name) := by
        rw [hprov]
        exact hnames
      have hnamesE : n ∉ (st'.providers.erase p).map (·.name) := by
        intro hcon
        rcases List.mem_map.mp hcon with ⟨q, hq, hqn⟩
        have : q ∈ st'.providers := (List.erase_sublist p st'.providers).subset hq
        exact hnames' (hqn ▸ List.mem_map_of_mem (·.name) this)
      split
      · next r hout =>
        by_cases hsucc : r.success = true
        · rw [if_pos hsucc]
          exact htr'
        · rw [if_neg hsucc]
          by_cases hstrat : st'.strategy = Strategy.failover
          · rw [if_pos hstrat]
            exact ih _ _ _ _ hnamesE htr'
          · rw [if_neg hstrat]
            exact htr'
      · next m hout =>
        exact ih _ _ _ _ hnames' htr'

theorem orchestratorExtract_providers_sublist {D : Type} [DecidableEq D]
    (st : OrchState D) (mr : Nat) :
    (orchestratorExtract st mr).state.providers.Sublist st.providers := by
  unfold orchestratorExtract
  split
  · exact List.Sublist.refl _
  · exact orchLoop_providers_sublist _ _ _ _

theorem orchestratorExtract_trace_names {D : Type} [DecidableEq D]
    (st : OrchState D) (mr : Nat) (n : String)
    (h : n ∉ st.providers.map (·.name)) :
    n ∉ (orchestratorExtract st mr).trace := by
  unfold orchestratorExtract
  split
  · simp
  · exact orchLoop_trace_names _ _ _ _ _ h (by simp)

theorem getNextProvider_failover {D : Type} [DecidableEq D] (st : OrchState D)
    (p : Provider D) (rest : List (Provider D))
    (hstrat : st.strategy = Strategy.failover)
    (hav : getAvailableProviders st = p :: rest) :
    getNextProvider st = (some p, st) := by
  unfold getNextProvider
  rw [hav, hstrat]

theorem orchLoop_exn_failover {D : Type} [DecidableEq D] (st : OrchState D)
    (p : Provider D) (rest : List (Provider D)) (m : String)
    (hstrat : st.strategy = Strategy.failover)
    (hav : getAvailableProviders st = p :: rest)
    (hout : p.outcome = POutcome.exn m) :
    ∀ (fuel : Nat) (le : Option String) (tr : List String),
    orchLoop (fuel + 1) st le tr =
      ⟨allFailed (some m), st, tr ++ List.replicate (fuel + 1) p.name⟩ := by
  intro fuel
  induction fuel with
  | zero =>
    intro le tr
    simp only [orchLoop, getNextProvider_failover st p rest hstrat hav, hout]
    simp [List.replicate]
  | succ fuel ih =>
    intro le tr
    have hstep : orchLoop (fuel + 2) st le tr =
        orchLoop (fuel + 1) st (some m) (tr ++ [p.name]) := by
      simp only [orchLoop, getNextProvider_failover st p rest hstrat hav, hout]
    rw [hstep, ih (some m) (tr ++ [p.name])]
    simp [List.replicate_succ, List.append_assoc]

theorem orchLoop_ret_fail_removes {D : Type} [DecidableEq D]
    (fuel : Nat) (st : OrchState D) (le : Option String) (tr : List String)
    (p : Provider D) (r : ChunkExtractionResult D)
    (hstrat : st.strategy = Strategy.failover)
    (hnext : (getNextProvider st).1 = some p)
    (hout : p.outcome = POutcome.ret r) (hfail : r.success = false)
    (hcount : st.providers.count p = 1) :
    p ∉ (orchLoop (fuel + 1) st le tr).state.providers := by
  simp only [orchLoop]
  split
  · next st' heq =>
    rw [heq] at hnext
    simp at hnext
  · next q st' heq =>
    have hqp : q = p := by
      rw [heq] at hnext
      simpa using hnext
    subst hqp
    have hprov : st'.providers = st.providers := by
      have := (getNextProvider_state st).1
      rw [heq] at this
      exact this
    have hstrat' : st'.strategy = Strategy.failover := by
      have := (getNextProvider_state st).2
      rw [heq] at this
      rw [this, hstrat]
    split
    · next rr hout' =>
      rw [hout] at hout'
      injection hout' with hr
      rw [if_neg (by rw [← hr, hfail]; exact Bool.false_ne_true), if_pos hstrat']
      have hnotmem : q ∉ st'.providers.erase q := by
        rw [← List.count_eq_zero]
        rw [List.count_erase_self, hprov, hcount]
      intro hcon
      have hsub := orchLoop_providers_sublist fuel
        ⟨st'.providers.erase q, st'.strategy, st'.cursor⟩ rr.error (tr ++ [q.name])
      exact hnotmem (hsub.subset hcon)
    · next m hout' =>
      rw [hout] at hout'
      cases hout'

/-- A name absent from the pool is never attempted again by any sequence
of later `extract_from_chunks` calls on the same instance: the pool only
ever shrinks. -/
theorem runCalls_not_mem {D : Type} [DecidableEq D] (n : String) :
    ∀ (calls : List Nat) (st : OrchState D),
    n ∉ st.providers.map (·.name) → ∀ t ∈ runCalls st calls, n ∉ t := by
  intro calls
  induction calls with
  | nil => intro st _ t ht; simp [runCalls] at ht
  | cons mr rest ih =>
    intro st hn t ht
    simp only [runCalls, List.mem_cons] at ht
    rcases ht with ht | ht
    · exact ht ▸ orchestratorExtract_trace_names st mr n hn
    · refine ih _ ?_ t ht
      intro hcon
      rcases List.mem_map.mp hcon with ⟨q, hq, hqn⟩
      have : q ∈ st.providers :=
        (orchestratorExtract_providers_sublist st mr).subset hq
      exact hn (hqn ▸ List.mem_map_of_mem (·.name) this)

theorem orchLoop_step_ret_fail {D : Type} [DecidableEq D] (st : OrchState D)
    (p : Provider D) (rest : List (Provider D)) (r : ChunkExtractionResult D)
    (hstrat : st.strategy = Strategy.failover)
    (hav : getAvailableProviders st = p :: rest)
    (hout : p.outcome = POutcome.ret r) (hfail : r.success = false)
    (fuel : Nat) (le : Option String) (tr : List String) :
    orchLoop (fuel + 1) st le tr =
      orchLoop fuel ⟨st.providers.erase p, st.strategy, st.cursor⟩
        r.error (tr ++ [p.name]) := by
  simp only [orchLoop, getNextProvider_failover st p rest hstrat hav, hout]
  rw [if_neg (by rw [hfail]; exact Bool.false_ne_true), if_pos hstrat]

theorem orchLoop_step_ret_success {D : Type} [DecidableEq D] (st : OrchState D)
    (p : Provider D) (rest : List (Provider D)) (r : ChunkExtractionResult D)
    (hstrat : st.strategy = Strategy.failover)
    (hav : getAvailableProviders st = p :: rest)
    (hout : p.outcome = POutcome.ret r) (hsucc : r.success = true)
    (fuel : Nat) (le : Option String) (tr : List String) :
    orchLoop (fuel + 1) st le tr = ⟨r, st, tr ++ [p.name]⟩ := by
  simp only [orchLoop, getNextProvider_failover st p rest hstrat hav, hout]
  rw [if_pos hsucc]

/-- The spec's two-provider failover scenario: P1 always returns `r1`,
P2 always returns `r2`, both available, failover strategy. -/
def failoverPool {D : Type} (r1 r2 : ChunkExtractionResult D) : OrchState D :=
  ⟨[⟨"P1", true, POutcome.ret r1⟩, ⟨"P2", true, POutcome.ret r2⟩],
    Strategy.failover, 0⟩

/-- C1: under the failover strategy a provider whose batch result is
unsuccessful is removed from the pool for the remaining lifetime of the
instance.  For the pool [P1 (always fails), P2 (always succeeds)] the
call returns P2's successful result with provider "P2", attempts exactly
[P1, P2], leaves only P2 in the pool, and no later call on the same
instance ever attempts P1.  The final conjunct is the general removal
property for any failover state whose selected provider returns a failed
result. -/
theorem orchestrator_failover_permanent_removal {D : Type} [DecidableEq D]
    (r1 r2 : ChunkExtractionResult D)
    (h1 : r1.success = false) (h2 : r2.success = true)
    (hp : r2.provider = some "P2") :
    (orchestratorExtract (failoverPool r1 r2) 2).result = r2
    ∧ (orchestratorExtract (failoverPool r1 r2) 2).result.provider = some "P2"
    ∧ (orchestratorExtract (failoverPool r1 r2) 2).trace = ["P1", "P2"]
    ∧ (orchestratorExtract (failoverPool r1 r2) 2).state.providers
        = [⟨"P2", true, POutcome.ret r2⟩]
    ∧ (∀ (calls : List Nat) (t : List String),
        t ∈ runCalls (orchestratorExtract (failoverPool r1 r2) 2).state calls →
        "P1" ∉ t)
    ∧ (∀ (st : OrchState D) (p : Provider D) (r : ChunkExtractionResult D)
        (mr : Nat), st.strategy = Strategy.failover →
        (getNextProvider st).1 = some p → p.outcome = POutcome.ret r →
        r.success = false → st.providers.count p = 1 →
        p ∉ (orchestratorExtract st mr).state.providers) := by
  have hav : getAvailableProviders (failoverPool r1 r2) =
      [⟨"P1", true, POutcome.ret r1⟩, ⟨"P2", true, POutcome.ret r2⟩] := by
    simp [getAvailableProviders, failoverPool]
  have herase : (failoverPool r1 r2 : OrchState D).providers.erase
      ⟨"P1", true, POutcome.ret r1⟩ = [⟨"P2", true, POutcome.ret r2⟩] := by
    simp [failoverPool, List.erase_cons_head]
  have hrun : orchestratorExtract (failoverPool r1 r2) 2 =
      ⟨r2, ⟨[⟨"P2", true, POutcome.ret r2⟩], Strategy.failover, 0⟩,
        ["P1", "P2"]⟩ := by
    unfold orchestratorExtract
    rw [hav]
    simp only [List.isEmpty, if_false]
    rw [orchLoop_step_ret_fail (failoverPool r1 r2)
      ⟨"P1", true, POutcome.ret r1⟩ [⟨"P2", true, POutcome.ret r2⟩] r1
      rfl hav rfl h1 2 none []]
    rw [herase]
    exact orchLoop_step_ret_success
      (⟨[⟨"P2", true, POutcome.ret r2⟩], Strategy.failover, 0⟩ : OrchState D)
      ⟨"P2", true, POutcome.ret r2⟩ [] r2 rfl (by simp [getAvailableProviders])
      rfl h2 1 r1.error ["P1"]
  refine ⟨by rw [hrun], by rw [hrun]; exact hp, by rw [hrun], by rw [hrun], ?_, ?_⟩
  · intro calls t ht
    rw [hrun] at ht
    exact runCalls_not_mem "P1" calls _ (by simp) t ht
  · intro st p r mr hstrat hnext hout hfail hcount
    have hmem : p ∈ getAvailableProviders st := by
      have h := getNextProvider_mem st p hnext
      exact List.mem_filter.mpr ⟨h.1, by simp [h.2]⟩
    unfold orchestratorExtract
    rw [if_neg (by
      intro hcon
      rw [List.isEmpty_iff] at hcon
      rw [hcon] at hmem
      simp at hmem)]
    exact orchLoop_ret_fail_removes mr st none [] p r hstrat hnext hout hfail hcount

/-- Witness for C1 at concrete inputs: P1 returns a bare failure, P2 a
bare success tagged "P2"; `max_retries` for the later call is 2. -/
theorem orchestrator_failover_permanent_removal_witness :
    (orchestratorExtract (failoverPool
        ({ success := false } : ChunkExtractionResult Unit)
        { success := true, provider := some "P2" }) 2).result
      = { success := true, provider := some "P2" }
    ∧ (orchestratorExtract (failoverPool
        ({ success := false } : ChunkExtractionResult Unit)
        { success := true, provider := some "P2" }) 2).trace = ["P1", "P2"]
    ∧ "P1" ∉ (orchestratorExtract (orchestratorExtract (failoverPool
        ({ success := false } : ChunkExtractionResult Unit)
        { success := true, provider := some "P2" }) 2).state 2).trace := by
  have h := orchestrator_failover_permanent_removal
    ({ success := false } : ChunkExtractionResult Unit)
    { success := true, provider := some "P2" } rfl rfl rfl
  refine ⟨h.1, h.2.2.1, ?_⟩
  refine h.2.2.2.2.1 [2] _ ?_
  simp [runCalls]

theorem orchLoop_exn_provider_stays {D : Type} [DecidableEq D]
    (q : Provider D) (m2 : String) (hqout : q.outcome = POutcome.exn m2) :
    ∀ (fuel : Nat) (st2 : OrchState D) (le : Option String) (tr : List String),
    q ∈ st2.providers → q ∈ (orchLoop fuel st2 le tr).state.providers := by
  intro fuel
  induction fuel with
  | zero => intro st2 le tr hq; exact hq
  | succ fuel ih =>
    intro st2 le tr hq
    simp only [orchLoop]
    split
    · next st' heq =>
      have hprov : st'.providers = st2.providers := by
        have := (getNextProvider_state st2).1
        rw [heq] at this
        exact this
      show q ∈ st'.providers
      rw [hprov]
      exact hq
    · next p2 st' heq =>
      have hprov : st'.providers = st2.providers := by
        have := (getNextProvider_state st2).1
        rw [heq] at this
        exact this
      split
      · next rr hout2 =>
        by_cases hsucc : rr.success = true
        · rw [if_pos hsucc]
          show q ∈ st'.providers
          rw [hprov]
          exact hq
        · rw [if_neg hsucc]
          by_cases hstrat2 : st'.strategy = Strategy.failover
          · rw [if_pos hstrat2]
            refine ih _ _ _ ?_
            have hne : q ≠ p2 := by
              intro hcon
              rw [← hcon, hqout] at hout2
              cases hout2
            show q ∈ st'.providers.erase p2
            rw [hprov]
            exact (List.mem_erase_of_ne hne).mpr hq
          · rw [if_neg hstrat2]
            show q ∈ st'.providers
            rw [hprov]
            exact hq
      · next m3 hout2 =>
        refine ih _ _ _ ?_
        show q ∈ st'.providers
        rw [hprov]
        exact hq

/-- C10: a provider that raises an exception during an attempt is not
removed from the pool: with failover and a first available provider that
always raises, the call attempts that same provider on every one of its
`max_retries + 1` attempts, returns the all-failed result carrying the
exception message, leaves the state (pool and cursor) unchanged, and the
same provider is attempted again on every later call.  The final conjunct
is the general frame property: any exception-outcome provider stays in
the pool under every strategy. -/
theorem orchestrator_exception_keeps_provider {D : Type} [DecidableEq D]
    (st : OrchState D) (p : Provider D) (rest : List (Provider D)) (m : String)
    (mr : Nat) (hstrat : st.strategy = Strategy.failover)
    (hav : getAvailableProviders st = p :: rest)
    (hout : p.outcome = POutcome.exn m) :
    orchestratorExtract st mr =
      ⟨allFailed (some m), st, List.replicate (mr + 1) p.name⟩
    ∧ (∀ mr2 : Nat, (orchestratorExtract
        (orchestratorExtract st mr).state mr2).trace
        = List.replicate (mr2 + 1) p.name)
    ∧ (∀ (st2 : OrchState D) (q : Provider D) (m2 : String)
        (fuel : Nat) (le : Option String) (tr : List String),
        q ∈ st2.providers → q.outcome = POutcome.exn m2 →
        q ∈ (orchLoop fuel st2 le tr).state.providers) := by
  have hmain : ∀ mr1 : Nat, orchestratorExtract st mr1 =
      ⟨allFailed (some m), st, List.replicate (mr1 + 1) p.name⟩ := by
    intro mr1
    unfold orchestratorExtract
    rw [hav]
    simp only [List.isEmpty, if_false]
    have := orchLoop_exn_failover st p rest m hstrat hav hout mr1 none []
    rw [this]
    simp
  refine ⟨hmain mr, ?_, ?_⟩
  · intro mr2
    rw [hmain mr, hmain mr2]
  · intro st2 q m2 fuel le tr hq hqout
    exact orchLoop_exn_provider_stays q m2 hqout fuel st2 le tr hq

/-- Witness for C10: a single always-raising provider under failover,
`max_retries = 1`. -/
theorem orchestrator_exception_keeps_provider_witness :
    orchestratorExtract
        (⟨[⟨"P", true, POutcome.exn "boom"⟩], Strategy.failover, 0⟩ :
          OrchState Unit) 1 =
      ⟨allFailed (some "boom"),
        ⟨[⟨"P", true, POutcome.exn "boom"⟩], Strategy.failover, 0⟩,
        ["P", "P"]⟩
    ∧ (orchestratorExtract (orchestratorExtract
        (⟨[⟨"P", true, POutcome.exn "boom"⟩], Strategy.failover, 0⟩ :
          OrchState Unit) 1).state 0).trace = ["P"]
    ∧ (⟨"P", true, POutcome.exn "boom"⟩ : Provider Unit) ∈
        (orchLoop 3 (⟨[⟨"P", true, POutcome.exn "boom"⟩],
          Strategy.failover, 0⟩ : OrchState Unit) none []).state.providers := by
  have h := orchestrator_exception_keeps_provider
    (⟨[⟨"P", true, POutcome.exn "boom"⟩], Strategy.failover, 0⟩ : OrchState Unit)
    ⟨"P", true, POutcome.exn "boom"⟩ [] "boom" 1 rfl rfl rfl
  refine ⟨h.1, ?_, ?_⟩
  · have := h.2.1 0
    rw [this]
    rfl
  · exact h.2.2 _ _ "boom" 3 none [] (by simp) rfl

/-! ## ChunkAggregator: `merge_crop_data` and `_combine_chunk_results`
(C2, C3), from `src/finder_system/llm_extractor/llm_interface.py`
lines 127-286.

Crop records are the dicts built by `_combine_chunk_results`; dicts are
association lists in insertion order.  A JSON `null` list field and a
missing list field are both falsy in Python and are both modelled as
`[]`; string values model all scalar JSON values, with `""` standing for
falsy values.  `list(set(a + b))` dedups `a ++ b`; CPython's set
iteration order is hash-dependent, modelled here as keeping the first
occurrence of each element. -/

/-- `soil_requirements` group: `{'types': [], 'ph_range': None,
'drainage': None}`. -/
structure Soil where
  types : List String
  ph_range : Option String
  drainage : Option String
  deriving DecidableEq, Repr

/-- `climate_requirements` group. -/
structure Climate where
  temperature : Option String
  rainfall : Option String
  humidity : Option String
  conditions : List String
  deriving DecidableEq, Repr

/-- A value of the `nutrients` dict: per-nutrient info dicts
(`nitrogen`, ...) or the `other_nutrients` array. -/
inductive NVal where
  | ndict (entries : List (String × String))
  | nlist (items : List String)
  deriving DecidableEq, Repr

/-- A `pests_diseases` item (a dict, always truthy). -/
structure Pest where
  name : Option String
  type : Option String
  treatment : Option String
  deriving DecidableEq, Repr

/-- A `regional_data` item. -/
structure Region where
  region : Option String
  specific_info : Option String
  deriving DecidableEq, Repr

/-- A crop record / crop fragment as handled by
`_combine_chunk_results`. -/
structure CropRec where
  name : String
  scientific_name : Option String
  category : Option String
  soil_requirements : Option Soil
  climate_requirements : Option Climate
  nutrients : Option (List (String × NVal))
  planting_info : Option (List (String × String))
  farming_practices : List String
  pests_diseases : List Pest
  yield_info : Option (List (String × String))
  regional_data : List Region
  recommendations : List String
  deriving DecidableEq, Repr

/-- First-occurrence dedup with an explicit seen accumulator: the model
of `list(set(...))` content (order: first occurrence kept). -/
def pyDedupAux {α : Type} [DecidableEq α] : List α → List α → List α
  | [], _ => []
  | a :: rest, seen =>
    if a ∈ seen then pyDedupAux rest seen
    else a :: pyDedupAux rest (a :: seen)

def pyDedup {α : Type} [DecidableEq α] (l : List α) : List α := pyDedupAux l []

/-- `list(set(a + b))` (llm_interface.py lines 169, 188). -/
def pySetUnion (a b : List String) : List String := pyDedup (a ++ b)

/-- `d[k] = v` on a Python dict modelled as an insertion-ordered
association list: replace in place if the key exists, else append. -/
def dictSet {α : Type} (d : List (String × α)) (k : String) (v : α) :
    List (String × α) :=
  if d.any (fun p => p.1 == k) then
    d.map (fun p => if p.1 == k then (k, v) else p)
  else d ++ [(k, v)]

/-- `d.update(upd)` on Python dicts. -/
def dictUpdate {α : Type} (d upd : List (String × α)) : List (String × α) :=
  upd.foldl (fun acc kv => dictSet acc kv.1 kv.2) d

/-- Merge of the soil group (llm_interface.py lines 162-173), given the
new fragment's truthy soil dict `ns`. -/
def mergeSoil (eo : Option Soil) (ns : Soil) : Soil :=
  let er := eo.getD ⟨[], none, none⟩
  let er := if !ns.types.isEmpty then
      { er with types := pySetUnion er.types ns.types } else er
  let er := if truthyS ns.ph_range && !(truthyS er.ph_range) then
      { er with ph_range := ns.ph_range } else er
  if truthyS ns.drainage && !(truthyS er.drainage) then
    { er with drainage := ns.drainage } else er

/-- Merge of the climate group (llm_interface.py lines 175-188). -/
def mergeClimate (eo : Option Climate) (nc : Climate) : Climate :=
  let ec := eo.getD ⟨none, none, none, []⟩
  let ec := if truthyS nc.temperature && !(truthyS ec.temperature) then
      { ec with temperature := nc.temperature } else ec
  let ec := if truthyS nc.rainfall && !(truthyS ec.rainfall) then
      { ec with rainfall := nc.rainfall } else ec
  let ec := if truthyS nc.humidity && !(truthyS ec.humidity) then
      { ec with humidity := nc.humidity } else ec
  if !nc.conditions.isEmpty then
    { ec with conditions := pySetUnion ec.conditions nc.conditions } else ec

/-- One step of the nutrients merge (llm_interface.py lines 190-198):
insert a missing nutrient, or `dict.update` with the truthy entries when
both sides are dicts. -/
def mergeNutrient (d : List (String × NVal)) (k : String) (info : NVal) :
    List (String × NVal) :=
  if !(d.any (fun p => p.1 == k)) then d ++ [(k, info)]
  else
    d.map (fun p =>
      if p.1 == k then
        match p.2, info with
        | NVal.ndict oldE, NVal.ndict newE =>
          (p.1, NVal.ndict (dictUpdate oldE (newE.filter (fun kv => kv.2 ≠ ""))))
        | _, _ => p
      else p)

def mergeNutrients (eo : Option (List (String × NVal)))
    (nn : List (String × NVal)) : List (String × NVal) :=
  nn.foldl (fun acc kv => mergeNutrient acc kv.1 kv.2) (eo.getD [])

/-- List-field merge (llm_interface.py lines 200-207): append each truthy
item not already present, by value equality, preserving order. -/
def mergeListField {α : Type} [DecidableEq α] (truthyItem : α → Bool)
    (e n : List α) : List α :=
  if n.isEmpty then e
  else n.foldl
    (fun acc item =>
      if truthyItem item && !(acc.contains item) then acc ++ [item] else acc) e

/-- `regional_data` merge (llm_interface.py lines 221-227): no truthiness
check on items, only membership. -/
def mergeRegional (e n : List Region) : List Region :=
  if n.isEmpty then e
  else n.foldl (fun acc r => if acc.contains r then acc else acc ++ [r]) e

/-- `yield_info` / `planting_info` merge (llm_interface.py lines
209-219): `dict.update` with the truthy-valued entries of the new dict. -/
def mergeDictField (eo : Option (List (String × String)))
    (nd : List (String × String)) : List (String × String) :=
  dictUpdate (eo.getD []) (nd.filter (fun kv => kv.2 ≠ ""))

/-- `merge_crop_data` (llm_interface.py lines 152-229), functionally:
fold the new fragment `n` into the existing record `e`. -/
def merge_crop_data (e n : CropRec) : CropRec :=
  { e with
    scientific_name :=
      if truthyS n.scientific_name && !(truthyS e.scientific_name) then
        n.scientific_name else e.scientific_name
    category :=
      if truthyS n.category && !(truthyS e.category) then
        n.category else e.category
    soil_requirements :=
      match n.soil_requirements with
      | some ns => some (mergeSoil e.soil_requirements ns)
      | none => e.soil_requirements
    climate_requirements :=
      match n.climate_requirements with
      | some nc => some (mergeClimate e.climate_requirements nc)
      | none => e.climate_requirements
    nutrients :=
      if truthyL n.nutrients then
        some (mergeNutrients e.nutrients (n.nutrients.getD []))
      else e.nutrients
    farming_practices :=
      mergeListField (fun s => s ≠ "") e.farming_practices n.farming_practices
    pests_diseases :=
      mergeListField (fun _ => true) e.pests_diseases n.pests_diseases
    recommendations :=
      mergeListField (fun s => s ≠ "") e.recommendations n.recommendations
    yield_info :=
      if truthyL n.yield_info then
        some (mergeDictField e.yield_info (n.yield_info.getD []))
      else e.yield_info
    planting_info :=
      if truthyL n.planting_info then
        some (mergeDictField e.planting_info (n.planting_info.getD []))
      else e.planting_info
    regional_data := mergeRegional e.regional_data n.regional_data }

/-- Python `s.lstrip()` on a character list. -/
def pyLstrip (l : List Char) : List Char := l.dropWhile (·.isWhitespace)

/-- Python `s.strip()` on a character list. -/
def pyStrip (l : List Char) : List Char :=
  ((pyLstrip l).reverse.dropWhile (·.isWhitespace)).reverse

/-- Python `s.lower()` on a character list (ASCII-exact). -/
def pyLower (l : List Char) : List Char := l.map Char.toLower

/-- `normalize_crop_name` (llm_interface.py lines 146-150):
`name.lower().strip()`. -/
def normalize_crop_name (s : String) : String := ⟨pyStrip (pyLower s.data)⟩

/-- Seeding of a fresh `crops_dict` entry from a fragment
(llm_interface.py lines 245-260): group fields default when absent. -/
def initCrop (c : CropRec) : CropRec :=
  { c with
    soil_requirements := some (c.soil_requirements.getD ⟨[], none, none⟩)
    climate_requirements :=
      some (c.climate_requirements.getD ⟨none, none, none, []⟩)
    nutrients := some (c.nutrients.getD [])
    planting_info := some (c.planting_info.getD [])
    yield_info := some (c.yield_info.getD []) }

/-- The crop loop of `_combine_chunk_results` (llm_interface.py lines
231-263): fold fragments into the `crops_dict`, keyed by normalized
name, merging on repeated keys. -/
def combineCrops (frags : List CropRec) : List (String × CropRec) :=
  frags.foldl
    (fun acc c =>
      if c.name = "" then acc
      else
        let key := normalize_crop_name c.name
        if key = "" then acc
        else if acc.any (fun p => p.1 == key) then
          acc.map (fun p => if p.1 == key then (key, merge_crop_data p.2 c) else p)
        else acc ++ [(key, initCrop c)])
    []

/-- Keys of an association-list dict are pairwise distinct (always true
of a real Python dict). -/
def keysNodup {α : Type} (d : List (String × α)) : Prop :=
  (d.map Prod.fst).Nodup

instance keysNodupDec {α : Type} (d : List (String × α)) :
    Decidable (keysNodup d) :=
  inferInstanceAs (Decidable (d.map Prod.fst).Nodup)

theorem keysNodup_unique {α : Type} {l : List (String × α)}
    (h : keysNodup l) {k : String} {v : α} (hv : (k, v) ∈ l) :
    ∀ p ∈ l, p.1 = k → p = (k, v) := by
  induction l with
  | nil => simp at hv
  | cons a rest ih =>
    rcases List.nodup_cons.mp h with ⟨ha, hrest⟩
    intro p hp hpk
    rcases List.mem_cons.mp hv with hv1 | hv2 <;>
      rcases List.mem_cons.mp hp with hp1 | hp2
    · rw [hp1, ← hv1]
    · exfalso
      apply ha
      have hak : a.1 = k := by rw [← hv1]
      rw [hak, ← hpk]
      exact List.mem_map_of_mem Prod.fst hp2
    · exfalso
      apply ha
      rw [hp1] at hpk
      rw [hpk]
      exact List.mem_map_of_mem Prod.fst hv2
    · exact ih hrest hv2 p hp2 hpk

theorem dictSet_mem {α : Type} {d : List (String × α)} {k : String} {v : α}
    (hnd : keysNodup d) (hmem : (k, v) ∈ d) : dictSet d k v = d := by
  unfold dictSet
  rw [if_pos (by
    rw [List.any_eq_true]
    exact ⟨(k, v), hmem, by simp⟩)]
  have : ∀ p ∈ d, (if p.1 == k then (k, v) else p) = p := by
    intro p hp
    by_cases hpk : p.1 = k
    · rw [if_pos (by simpa using hpk)]
      exact (keysNodup_unique hnd hmem p hp hpk).symm
    · rw [if_neg (by simpa using hpk)]
  calc d.map (fun p => if p.1 == k then (k, v) else p)
      = d.map id := List.map_congr_left this
    _ = d := List.map_id d

theorem dictUpdate_sub {α : Type} {d : List (String × α)}
    (hnd : keysNodup d) :
    ∀ upd : List (String × α), (∀ kv ∈ upd, kv ∈ d) → dictUpdate d upd = d := by
  intro upd
  induction upd with
  | nil => intro _; rfl
  | cons kv rest ih =>
    intro hsub
    unfold dictUpdate at *
    simp only [List.foldl_cons]
    rw [dictSet_mem hnd (hsub kv (List.mem_cons_self kv rest))]
    exact ih (fun x hx => hsub x (List.mem_cons_of_mem kv hx))

theorem mergeDictField_self {d : List (String × String)} (hnd : keysNodup d) :
    mergeDictField (some d) d = d := by
  unfold mergeDictField
  exact dictUpdate_sub hnd _ (fun kv hkv => List.mem_of_mem_filter hkv)

theorem pyDedupAux_eq_self {α : Type} [DecidableEq α] :
    ∀ (l seen : List α), l.Nodup → (∀ x ∈ l, x ∉ seen) →
    pyDedupAux l seen = l := by
  intro l
  induction l with
  | nil => intro seen _ _; rfl
  | cons a rest ih =>
    intro seen hnd hdis
    rcases List.nodup_cons.mp hnd with ⟨ha, hrest⟩
    unfold pyDedupAux
    rw [if_neg (hdis a (List.mem_cons_self a rest))]
    rw [ih (a :: seen) hrest]
    intro x hx
    intro hcon
    rcases List.mem_cons.mp hcon with h1 | h2
    · exact ha (h1 ▸ hx)
    · exact hdis x (List.mem_cons_of_mem a hx) h2

theorem pyDedupAux_append {α : Type} [DecidableEq α] :
    ∀ (l l2 seen : List α), l.Nodup → (∀ x ∈ l, x ∉ seen) →
    ∃ seen2 : List α, pyDedupAux (l ++ l2) seen = l ++ pyDedupAux l2 seen2 ∧
      (∀ x ∈ l, x ∈ seen2) ∧ (∀ x ∈ seen, x ∈ seen2) := by
  intro l
  induction l with
  | nil =>
    intro l2 seen _ _
    exact ⟨seen, rfl, by simp, fun x hx => hx⟩
  | cons a rest ih =>
    intro l2 seen hnd hdis
    rcases List.nodup_cons.mp hnd with ⟨ha, hrest⟩
    have hdis' : ∀ x ∈ rest, x ∉ a :: seen := by
      intro x hx hcon
      rcases List.mem_cons.mp hcon with h1 | h2
      · exact ha (h1 ▸ hx)
      · exact hdis x (List.mem_cons_of_mem a hx) h2
    rcases ih l2 (a :: seen) hrest hdis' with ⟨seen2, heq, hsub1, hsub2⟩
    refine ⟨seen2, ?_, ?_, ?_⟩
    · show pyDedupAux (a :: (rest ++ l2)) seen = a :: (rest ++ pyDedupAux l2 seen2)
      conv_lhs => rw [pyDedupAux]
      rw [if_neg (hdis a (List.mem_cons_self a rest)), heq]
    · intro x hx
      rcases List.mem_cons.mp hx with h1 | h2
      · exact hsub2 x (h1 ▸ List.mem_cons_self a seen)
      · exact hsub1 x h2
    · intro x hx
      exact hsub2 x (List.mem_cons_of_mem a hx)

theorem pyDedupAux_all_seen {α : Type} [DecidableEq α] :
    ∀ (l seen : List α), (∀ x ∈ l, x ∈ seen) → pyDedupAux l seen = [] := by
  intro l
  induction l with
  | nil => intro seen _; rfl
  | cons a rest ih =>
    intro seen hsub
    unfold pyDedupAux
    rw [if_pos (hsub a (List.mem_cons_self a rest))]
    exact ih seen (fun x hx => hsub x (List.mem_cons_of_mem a hx))

theorem pySetUnion_self {l : List String} (h : l.Nodup) :
    pySetUnion l l = l := by
  unfold pySetUnion pyDedup
  rcases pyDedupAux_append l l [] h (by simp) with ⟨seen2, heq, hsub1, _⟩
  rw [heq, pyDedupAux_all_seen l seen2 hsub1, List.append_nil]

theorem mergeListField_self {α : Type} [DecidableEq α]
    (truthyItem : α → Bool) (e : List α) : mergeListField truthyItem e e = e := by
  unfold mergeListField
  by_cases he : e.isEmpty
  · rw [if_pos he]
  · rw [if_neg he]
    have : ∀ (items acc : List α), (∀ x ∈ items, x ∈ acc) →
        items.foldl (fun acc item =>
          if truthyItem item && !(acc.contains item) then acc ++ [item]
          else acc) acc = acc := by
      intro items
      induction items with
      | nil => intro acc _; rfl
      | cons a rest ih =>
        intro acc hsub
        simp only [List.foldl_cons]
        rw [if_neg (by
          simp only [Bool.and_eq_true, Bool.not_eq_true']
          rintro ⟨-, hmem⟩
          have hnot : a ∉ acc := by simpa using hmem
          exact hnot (hsub a (List.mem_cons_self a rest)))]
        exact ih acc (fun x hx => hsub x (List.mem_cons_of_mem a hx))
    exact this e e (fun x hx => hx)

theorem mergeRegional_self (e : List Region) : mergeRegional e e = e := by
  unfold mergeRegional
  by_cases he : e.isEmpty
  · rw [if_pos he]
  · rw [if_neg he]
    have : ∀ (items acc : List Region), (∀ x ∈ items, x ∈ acc) →
        items.foldl (fun acc r => if acc.contains r then acc else acc ++ [r])
          acc = acc := by
      intro items
      induction items with
      | nil => intro acc _; rfl
      | cons a rest ih =>
        intro acc hsub
        simp only [List.foldl_cons]
        rw [if_pos (by
          simpa using hsub a (List.mem_cons_self a rest))]
        exact ih acc (fun x hx => hsub x (List.mem_cons_of_mem a hx))
    exact this e e (fun x hx => hx)

theorem truthy_and_not_self (o : Option String) :
    (truthyS o && !(truthyS o)) = false := by
  rcases truthyS o with _ | _ <;> simp

theorem map_self {α : Type} (f : α → α) :
    ∀ l : List α, (∀ a ∈ l, f a = a) → l.map f = l := by
  intro l
  induction l with
  | nil => intro _; rfl
  | cons a t ih =>
    intro h
    simp only [List.map_cons]
    rw [h a (List.mem_cons_self a t), ih (fun x hx => h x (List.mem_cons_of_mem a hx))]

theorem mergeSoil_self {s : Soil} (h : s.types.Nodup) :
    mergeSoil (some s) s = s := by
  rcases s with ⟨types, ph, dr⟩
  simp only at h
  rcases types with _ | ⟨t, ts⟩ <;>
    rcases hph : truthyS ph with _ | _ <;>
    rcases hdr : truthyS dr with _ | _ <;>
    simp_all [mergeSoil, pySetUnion_self]

theorem mergeClimate_self {c : Climate} (h : c.conditions.Nodup) :
    mergeClimate (some c) c = c := by
  rcases c with ⟨temp, rain, hum, conds⟩
  simp only at h
  rcases conds with _ | ⟨x, xs⟩ <;>
    rcases htt : truthyS temp with _ | _ <;>
    rcases hr : truthyS rain with _ | _ <;>
    rcases hh : truthyS hum with _ | _ <;>
    simp_all [mergeClimate, pySetUnion_self]

theorem mergeNutrient_mem {l : List (String × NVal)} {k : String} {info : NVal}
    (houter : keysNodup l)
    (hinner : ∀ k2 es, (k2, NVal.ndict es) ∈ l → keysNodup es)
    (hmem : (k, info) ∈ l) : mergeNutrient l k info = l := by
  unfold mergeNutrient
  rw [if_neg (by
    simp only [Bool.not_eq_true', List.any_eq_false]
    intro hall
    have := hall (k, info) hmem
    simp at this)]
  refine map_self _ l ?_
  intro p hp
  by_cases hpk : p.1 = k
  · have hpe : p = (k, info) := keysNodup_unique houter hmem p hp hpk
    subst hpe
    rw [if_pos (by simp)]
    rcases info with es | items
    · show (k, NVal.ndict (dictUpdate es (es.filter (fun kv => kv.2 ≠ ""))))
        = (k, NVal.ndict es)
      have hes : keysNodup es := hinner k es hmem
      rw [dictUpdate_sub hes _ (fun kv hkv => List.mem_of_mem_filter hkv)]
    · rfl
  · rw [if_neg (by simpa using hpk)]

theorem mergeNutrients_self {l : List (String × NVal)}
    (houter : keysNodup l)
    (hinner : ∀ k2 es, (k2, NVal.ndict es) ∈ l → keysNodup es) :
    mergeNutrients (some l) l = l := by
  unfold mergeNutrients
  have : ∀ upd : List (String × NVal), (∀ kv ∈ upd, kv ∈ l) →
      upd.foldl (fun acc kv => mergeNutrient acc kv.1 kv.2) l = l := by
    intro upd
    induction upd with
    | nil => intro _; rfl
    | cons kv rest ih =>
      intro hsub
      simp only [List.foldl_cons]
      rw [mergeNutrient_mem houter hinner (hsub kv (List.mem_cons_self kv rest))]
      exact ih (fun x hx => hsub x (List.mem_cons_of_mem kv hx))
  exact this l (fun x hx => hx)

/-- Python-dict representability plus duplicate-freeness of the two
set-merged lists: the record shapes an actual `crops_dict` value can
take. -/
def pyWellFormed (r : CropRec) : Prop :=
  (∀ s, r.soil_requirements = some s → s.types.Nodup)
  ∧ (∀ c, r.climate_requirements = some c → c.conditions.Nodup)
  ∧ (∀ l, r.nutrients = some l → keysNodup l ∧
      ∀ k es, (k, NVal.ndict es) ∈ l → keysNodup es)
  ∧ (∀ d, r.planting_info = some d → keysNodup d)
  ∧ (∀ d, r.yield_info = some d → keysNodup d)

/-- C3 (amended): `merge_crop_data` is idempotent on every record whose
soil-type and climate-condition lists are duplicate-free and whose dict
fields have unique keys (all records representable as actual Python
values, up to the hash-dependent order of `list(set(...))`, which this
embedding fixes as first-occurrence order). -/
theorem merge_crop_data_idempotent (r : CropRec) (h : pyWellFormed r) :
    merge_crop_data r r = r := by
  obtain ⟨hs, hc, hn, hp, hy⟩ := h
  rcases r with ⟨nm, sci, cat, soil, clim, nut, plant, fp, pd, yi, rd, rec⟩
  simp only at hs hc hn hp hy
  unfold merge_crop_data
  simp only [CropRec.mk.injEq, truthy_and_not_self, Bool.false_eq_true,
    if_false, mergeListField_self, mergeRegional_self, and_true, true_and]
  refine ⟨?_, ?_, ?_, ?_, ?_⟩
  · rcases soil with _ | s
    · rfl
    · simp only
      rw [mergeSoil_self (hs s rfl)]
  · rcases clim with _ | c
    · rfl
    · simp only
      rw [mergeClimate_self (hc c rfl)]
  · rcases nut with _ | l
    · rfl
    · rcases l with _ | ⟨kv, kvs⟩
      · rfl
      · simp only [truthyL, List.isEmpty, Bool.not_false, if_true, Option.getD]
        rw [mergeNutrients_self (hn (kv :: kvs) rfl).1 (hn (kv :: kvs) rfl).2]
  · rcases plant with _ | d
    · rfl
    · rcases d with _ | ⟨kv, kvs⟩
      · rfl
      · simp only [truthyL, List.isEmpty, Bool.not_false, if_true, Option.getD]
        rw [mergeDictField_self (hp (kv :: kvs) rfl)]
  · rcases yi with _ | d
    · rfl
    · rcases d with _ | ⟨kv, kvs⟩
      · rfl
      · simp only [truthyL, List.isEmpty, Bool.not_false, if_true, Option.getD]
        rw [mergeDictField_self (hy (kv :: kvs) rfl)]

/-- A record whose soil-type list holds a duplicate entry. -/
def dupSoilCrop : CropRec :=
  { name := "Rice", scientific_name := none, category := none
    soil_requirements := some ⟨["loam", "loam"], none, none⟩
    climate_requirements := none, nutrients := none, planting_info := none
    farming_practices := [], pests_diseases := [], yield_info := none
    regional_data := [], recommendations := [] }

/-- C3 counterexample: merging a record with an identical copy of itself
is not always a no-op — `list(set(...))` dedups the soil-type list, so a
record with soil types `["loam", "loam"]` changes under self-merge. -/
theorem merge_crop_data_not_idempotent :
    merge_crop_data dupSoilCrop dupSoilCrop ≠ dupSoilCrop
    ∧ (merge_crop_data dupSoilCrop dupSoilCrop).soil_requirements
      = some ⟨["loam"], none, none⟩ := by
  constructor
  · decide
  · decide

/-- Witness for C3 (amended) at a concrete well-formed record. -/
theorem merge_crop_data_idempotent_witness :
    pyWellFormed
      { name := "Rice", scientific_name := some "Oryza sativa",
        category := some "cereal",
        soil_requirements := some ⟨["loam", "clay"], some "6-7", none⟩,
        climate_requirements := some ⟨some "warm", none, none, ["humid"]⟩,
        nutrients := some [("nitrogen", NVal.ndict [("rate", "120 kg/ha")])],
        planting_info := some [("season", "wet")],
        farming_practices := ["transplanting"], pests_diseases := [],
        yield_info := some [("average", "5 t/ha")], regional_data := [],
        recommendations := [] }
    ∧ merge_crop_data
      { name := "Rice", scientific_name := some "Oryza sativa",
        category := some "cereal",
        soil_requirements := some ⟨["loam", "clay"], some "6-7", none⟩,
        climate_requirements := some ⟨some "warm", none, none, ["humid"]⟩,
        nutrients := some [("nitrogen", NVal.ndict [("rate", "120 kg/ha")])],
        planting_info := some [("season", "wet")],
        farming_practices := ["transplanting"], pests_diseases := [],
        yield_info := some [("average", "5 t/ha")], regional_data := [],
        recommendations := [] }
      { name := "Rice", scientific_name := some "Oryza sativa",
        category := some "cereal",
        soil_requirements := some ⟨["loam", "clay"], some "6-7", none⟩,
        climate_requirements := some ⟨some "warm", none, none, ["humid"]⟩,
        nutrients := some [("nitrogen", NVal.ndict [("rate", "120 kg/ha")])],
        planting_info := some [("season", "wet")],
        farming_practices := ["transplanting"], pests_diseases := [],
        yield_info := some [("average", "5 t/ha")], regional_data := [],
        recommendations := [] }
    = { name := "Rice", scientific_name := some "Oryza sativa",
        category := some "cereal",
        soil_requirements := some ⟨["loam", "clay"], some "6-7", none⟩,
        climate_requirements := some ⟨some "warm", none, none, ["humid"]⟩,
        nutrients := some [("nitrogen", NVal.ndict [("rate", "120 kg/ha")])],
        planting_info := some [("season", "wet")],
        farming_practices := ["transplanting"], pests_diseases := [],
        yield_info := some [("average", "5 t/ha")], regional_data := [],
        recommendations := [] } := by
  have hwf : pyWellFormed
      { name := "Rice", scientific_name := some "Oryza sativa",
        category := some "cereal",
        soil_requirements := some ⟨["loam", "clay"], some "6-7", none⟩,
        climate_requirements := some ⟨some "warm", none, none, ["humid"]⟩,
        nutrients := some [("nitrogen", NVal.ndict [("rate", "120 kg/ha")])],
        planting_info := some [("season", "wet")],
        farming_practices := ["transplanting"], pests_diseases := [],
        yield_info := some [("average", "5 t/ha")], regional_data := [],
        recommendations := [] } := by
    refine ⟨?_, ?_, ?_, ?_, ?_⟩
    · intro s hs
      cases hs
      decide
    · intro c hc
      cases hc
      decide
    · intro l hl
      cases hl
      constructor
      · decide
      · intro k es hmem
        simp only [List.mem_singleton, Prod.mk.injEq, NVal.ndict.injEq] at hmem
        rw [hmem.2]
        decide
    · intro d hd
      cases hd
      decide
    · intro d hd
      cases hd
      decide
  exact ⟨hwf, merge_crop_data_idempotent _ hwf⟩

theorem mergeSoil_keeps (es ns : Soil) :
    (truthyS es.ph_range = true →
      (mergeSoil (some es) ns).ph_range = es.ph_range)
    ∧ (truthyS es.drainage = true →
      (mergeSoil (some es) ns).drainage = es.drainage) := by
  rcases es with ⟨t, ph, dr⟩
  unfold mergeSoil
  simp only [Option.getD]
  constructor <;> intro h <;> split_ifs <;> simp_all

theorem mergeClimate_keeps (ec nc : Climate) :
    (truthyS ec.temperature = true →
      (mergeClimate (some ec) nc).temperature = ec.temperature)
    ∧ (truthyS ec.rainfall = true →
      (mergeClimate (some ec) nc).rainfall = ec.rainfall)
    ∧ (truthyS ec.humidity = true →
      (mergeClimate (some ec) nc).humidity = ec.humidity) := by
  rcases ec with ⟨temp, rain, hum, conds⟩
  unfold mergeClimate
  simp only [Option.getD]
  refine ⟨?_, ?_, ?_⟩ <;> intro h <;> split_ifs <;> simp_all

/-- C2 (amended): in `merge_crop_data`, the first-non-null rule holds for
the top-level scalar fields (`scientific_name`, `category`) and for the
scalar sub-fields of the soil and climate groups (`ph_range`,
`drainage`, `temperature`, `rainfall`, `humidity`); it does NOT extend
to the `nutrients` / `planting_info` / `yield_info` groups, which merge
by `dict.update` (later truthy values overwrite, see the
counterexample). -/
theorem merge_crop_data_first_nonnull (e n : CropRec) :
    (truthyS e.scientific_name = true →
      (merge_crop_data e n).scientific_name = e.scientific_name)
    ∧ (truthyS e.category = true →
      (merge_crop_data e n).category = e.category)
    ∧ (∀ es, e.soil_requirements = some es → ∃ ms,
        (merge_crop_data e n).soil_requirements = some ms
        ∧ (truthyS es.ph_range = true → ms.ph_range = es.ph_range)
        ∧ (truthyS es.drainage = true → ms.drainage = es.drainage))
    ∧ (∀ ec, e.climate_requirements = some ec → ∃ mc,
        (merge_crop_data e n).climate_requirements = some mc
        ∧ (truthyS ec.temperature = true → mc.temperature = ec.temperature)
        ∧ (truthyS ec.rainfall = true → mc.rainfall = ec.rainfall)
        ∧ (truthyS ec.humidity = true → mc.humidity = ec.humidity)) := by
  refine ⟨?_, ?_, ?_, ?_⟩
  · intro h
    simp [merge_crop_data, h]
  · intro h
    simp [merge_crop_data, h]
  · intro es hes
    rcases hns : n.soil_requirements with _ | ns
    · exact ⟨es, by simp [merge_crop_data, hns, hes], fun _ => rfl, fun _ => rfl⟩
    · refine ⟨mergeSoil e.soil_requirements ns,
        by simp [merge_crop_data, hns], ?_, ?_⟩
      · rw [hes]
        exact (mergeSoil_keeps es ns).1
      · rw [hes]
        exact (mergeSoil_keeps es ns).2
  · intro ec hec
    rcases hnc : n.climate_requirements with _ | nc
    · exact ⟨ec, by simp [merge_crop_data, hnc, hec],
        fun _ => rfl, fun _ => rfl, fun _ => rfl⟩
    · refine ⟨mergeClimate e.climate_requirements nc,
        by simp [merge_crop_data, hnc], ?_, ?_, ?_⟩
      · rw [hec]
        exact (mergeClimate_keeps ec nc).1
      · rw [hec]
        exact (mergeClimate_keeps ec nc).2.1
      · rw [hec]
        exact (mergeClimate_keeps ec nc).2.2

/-- First fragment: sets `yield_info.average` to "1 t/ha". -/
def yieldCropA : CropRec :=
  { name := "Rice", scientific_name := some "Oryza sativa", category := none
    soil_requirements := none, climate_requirements := none
    nutrients := none, planting_info := none, farming_practices := []
    pests_diseases := [], yield_info := some [("average", "1 t/ha")]
    regional_data := [], recommendations := [] }

/-- Second fragment for the same crop: `yield_info.average` "2 t/ha". -/
def yieldCropB : CropRec :=
  { name := "Rice", scientific_name := none, category := none
    soil_requirements := none, climate_requirements := none
    nutrients := none, planting_info := none, farming_practices := []
    pests_diseases := [], yield_info := some [("average", "2 t/ha")]
    regional_data := [], recommendations := [] }

/-- C2 counterexample: for the `yield_info` group the first-non-null rule
fails — `existing['yield_info'].update(...)` overwrites the already-set
"average" with the later fragment's value, both in `merge_crop_data`
directly and through `_combine_chunk_results`' crop loop. -/
theorem merge_crop_data_yield_overwritten :
    yieldCropA.yield_info = some [("average", "1 t/ha")]
    ∧ (merge_crop_data yieldCropA yieldCropB).yield_info
        = some [("average", "2 t/ha")]
    ∧ (combineCrops [yieldCropA, yieldCropB]).map
        (fun p => (p.1, p.2.yield_info))
      = [("rice", some [("average", "2 t/ha")])] := by
  refine ⟨rfl, by decide, ?_⟩
  rfl

/-- Witness for C2 (amended) at concrete fragments: the scientific name
set by the first fragment survives the merge. -/
theorem merge_crop_data_first_nonnull_witness :
    truthyS yieldCropA.scientific_name = true
    ∧ (merge_crop_data yieldCropA yieldCropB).scientific_name
        = yieldCropA.scientific_name := by
  refine ⟨by decide, ?_⟩
  exact (merge_crop_data_first_nonnull yieldCropA yieldCropB).1 (by decide)

/-! ## CropStore keyword search (C7), from `src/chatbot/crop_store.py`
lines 381-405.

A store entry is one `(key, text)` pair of `self.crop_texts` in
insertion order together with `self.crop_index[key].get('name')`; a
result models the `{'crop': ..., 'score': ..., 'name': ...}` dict as
`(key, score, name)` (the `crop` payload is identified by its key, and
the integer-valued float score by a natural number). -/

/-- Python `s.split()` with no separator: split on whitespace runs,
discarding empty pieces. -/
def pySplitWsAux : List Char → List Char → List (List Char)
  | [], acc => if acc.isEmpty then [] else [acc.reverse]
  | c :: rest, acc =>
    if c.isWhitespace then
      if acc.isEmpty then pySplitWsAux rest []
      else acc.reverse :: pySplitWsAux rest []
    else pySplitWsAux rest (c :: acc)

def pySplitWs (l : List Char) : List (List Char) := pySplitWsAux l []

/-- Python `needle in hay` on strings: substring containment (an empty
needle is always contained). -/
def isSubstr (needle : List Char) : List Char → Bool
  | [] => needle.isEmpty
  | c :: rest => needle.isPrefixOf (c :: rest) || isSubstr needle rest

/-- Stable descending insertion by score: the inserted element goes
after every element with score ≥ its own — exactly the (unique) result
of Python's stable `list.sort(key=..., reverse=True)`. -/
def insertDesc {α : Type} (score : α → Nat) (x : α) : List α → List α
  | [] => [x]
  | y :: ys =>
    if score y ≥ score x then y :: insertDesc score x ys else x :: y :: ys

def pySortDescBy {α : Type} (score : α → Nat) (l : List α) : List α :=
  l.foldl (fun acc x => insertDesc score x acc) []

/-- Score of one entry: `sum(1 for term in query_terms if term in text)`
(crop_store.py line 396) — one per term occurrence in the split query,
duplicates included. -/
def keywordScore (query_terms : List (List Char)) (text : List Char) : Nat :=
  (query_terms.filter (fun term => isSubstr term text)).length

/-- `CropStore._keyword_search` (crop_store.py lines 381-405). -/
def keyword_search (store : List (String × List Char × Option String))
    (query : List Char) (top_k : Nat) :
    List (String × Nat × Option String) :=
  let query_terms := pySplitWs (pyLower query)
  let results := store.foldl
    (fun acc e =>
      let score := keywordScore query_terms e.2.1
      if score > 0 then acc ++ [(e.1, score, e.2.2)] else acc) []
  (pySortDescBy (fun r => r.2.1) results).take top_k

/-- Insertion into a list sorted by the strict key
(score descending, then original position ascending). -/
def insertKeyed (x : Nat × String × Nat × Option String) :
    List (Nat × String × Nat × Option String) →
    List (Nat × String × Nat × Option String)
  | [] => [x]
  | y :: ys =>
    if y.2.2.1 > x.2.2.1 ∨ (y.2.2.1 = x.2.2.1 ∧ y.1 < x.1) then
      y :: insertKeyed x ys
    else x :: y :: ys

/-- Modelled from the spec: §4.7's keyword fallback, scoring each entity
by the number of DISTINCT whitespace-delimited query terms occurring as
substrings of its searchable text, keeping positive scores, ordering by
score descending with ties in original insertion order (realised by the
strict key (score desc, position asc)), returning up to `top_k`. -/
def keywordSearchSpec (store : List (String × List Char × Option String))
    (query : List Char) (top_k : Nat) :
    List (String × Nat × Option String) :=
  let terms := pyDedup (pySplitWs (pyLower query))
  let scored := (store.map
    (fun e => (e.1, keywordScore terms e.2.1, e.2.2))).filter
    (fun r => r.2.1 > 0)
  let sorted := (scored.enum.foldl (fun acc x => insertKeyed x acc) []).map
    Prod.snd
  sorted.take top_k

/-- The spec's pipeline with the score corrected to count query-term
occurrences (duplicates included), as the code does. -/
def keywordSearchSpecMulti (store : List (String × List Char × Option String))
    (query : List Char) (top_k : Nat) :
    List (String × Nat × Option String) :=
  let terms := pySplitWs (pyLower query)
  let scored := (store.map
    (fun e => (e.1, keywordScore terms e.2.1, e.2.2))).filter
    (fun r => r.2.1 > 0)
  let sorted := (scored.enum.foldl (fun acc x => insertKeyed x acc) []).map
    Prod.snd
  sorted.take top_k

theorem keyword_fold_eq_filter (terms : List (List Char)) :
    ∀ (store : List (String × List Char × Option String))
    (acc : List (String × Nat × Option String)),
    store.foldl
      (fun acc e =>
        let score := keywordScore terms e.2.1
        if score > 0 then acc ++ [(e.1, score, e.2.2)] else acc) acc
    = acc ++ (store.map
        (fun e => (e.1, keywordScore terms e.2.1, e.2.2))).filter
        (fun r => r.2.1 > 0) := by
  intro store
  induction store with
  | nil => intro acc; simp
  | cons e rest ih =>
    intro acc
    simp only [List.foldl_cons, List.map_cons, List.filter_cons]
    by_cases hs : keywordScore terms e.2.1 > 0
    · rw [if_pos hs, ih]
      simp [hs]
    · rw [if_neg hs, ih]
      simp [hs]

theorem mem_insertKeyed {x y : Nat × String × Nat × Option String} :
    ∀ {l : List (Nat × String × Nat × Option String)},
    y ∈ insertKeyed x l → y = x ∨ y ∈ l := by
  intro l
  induction l with
  | nil =>
    intro h
    simp only [insertKeyed, List.mem_singleton] at h
    exact Or.inl h
  | cons z zs ih =>
    intro h
    simp only [insertKeyed] at h
    split_ifs at h
    · rcases List.mem_cons.mp h with h1 | h2
      · exact Or.inr (h1 ▸ List.mem_cons_self z zs)
      · rcases ih h2 with h3 | h4
        · exact Or.inl h3
        · exact Or.inr (List.mem_cons_of_mem z h4)
    · rcases List.mem_cons.mp h with h1 | h2
      · exact Or.inl h1
      · exact Or.inr h2

theorem insertKeyed_strip (x : Nat × String × Nat × Option String) :
    ∀ (l : List (Nat × String × Nat × Option String)),
    (∀ y ∈ l, y.1 < x.1) →
    (insertKeyed x l).map Prod.snd =
      insertDesc (fun r => r.2.1) x.2 (l.map Prod.snd) := by
  intro l
  induction l with
  | nil => intro _; rfl
  | cons y ys ih =>
    intro h
    simp only [insertKeyed, List.map_cons, insertDesc]
    by_cases hge : y.2.2.1 ≥ x.2.2.1
    · rw [if_pos (by
        rcases Nat.lt_or_ge x.2.2.1 y.2.2.1 with hlt | hge2
        · exact Or.inl hlt
        · exact Or.inr ⟨Nat.le_antisymm hge2 hge, h y (List.mem_cons_self y ys)⟩)]
      rw [if_pos hge]
      simp only [List.map_cons]
      rw [ih (fun z hz => h z (List.mem_cons_of_mem y hz))]
    · rw [if_neg (by
        rintro (hlt | ⟨heq, -⟩)
        · exact hge (Nat.le_of_lt hlt)
        · exact hge (Nat.le_of_eq heq.symm))]
      rw [if_neg hge]
      rfl

theorem sortKeyed_strip :
    ∀ (rs : List (String × Nat × Option String)) (i : Nat)
    (accK : List (Nat × String × Nat × Option String))
    (accD : List (String × Nat × Option String)),
    accD = accK.map Prod.snd → (∀ y ∈ accK, y.1 < i) →
    ((List.enumFrom i rs).foldl (fun acc x => insertKeyed x acc) accK).map
      Prod.snd
    = rs.foldl (fun acc x => insertDesc (fun r => r.2.1) x acc) accD := by
  intro rs
  induction rs with
  | nil => intro i accK accD hAcc _; simpa using hAcc.symm
  | cons r rest ih =>
    intro i accK accD hAcc hIdx
    simp only [List.enumFrom, List.foldl_cons]
    refine ih (i + 1) (insertKeyed (i, r) accK) _ ?_ ?_
    · rw [hAcc]
      exact (insertKeyed_strip (i, r) accK hIdx).symm
    · intro y hy
      rcases mem_insertKeyed hy with h1 | h2
      · rw [h1]
        exact Nat.lt_succ_self i
      · exact Nat.lt_succ_of_lt (hIdx y h2)

/-- C7 (amended): `_keyword_search` realises the spec's keyword-fallback
pipeline — positive-score filtering over the stored entries, descending
stable sort with ties in original insertion order, at most `top_k`
results — with the score counting query-term OCCURRENCES (a term
appearing twice in the whitespace-split query contributes twice), not
distinct terms. -/
theorem keyword_search_matches_spec
    (store : List (String × List Char × Option String))
    (query : List Char) (top_k : Nat) :
    keyword_search store query top_k =
      keywordSearchSpecMulti store query top_k := by
  unfold keyword_search keywordSearchSpecMulti pySortDescBy
  simp only []
  rw [keyword_fold_eq_filter, List.nil_append]
  congr 1
  rw [show (List.filter (fun r => decide (r.2.1 > 0))
      (store.map (fun e => (e.1, keywordScore (pySplitWs (pyLower query)) e.2.1,
        e.2.2)))).enum
    = List.enumFrom 0 (List.filter (fun r => decide (r.2.1 > 0))
      (store.map (fun e => (e.1, keywordScore (pySplitWs (pyLower query)) e.2.1,
        e.2.2)))) from rfl]
  rw [sortKeyed_strip _ 0 [] [] rfl (by simp)]

/-- C7 counterexample: with the duplicate-term query "rice rice" the
code's score is 2 (occurrences), while the spec's distinct-term score is
1, so the two pipelines disagree at this input. -/
theorem keyword_search_counts_duplicates :
    keyword_search [("rice", "rice field".data, some "Rice")]
      "rice rice".data 3 = [("rice", 2, some "Rice")]
    ∧ keywordSearchSpec [("rice", "rice field".data, some "Rice")]
      "rice rice".data 3 = [("rice", 1, some "Rice")]
    ∧ keyword_search [("rice", "rice field".data, some "Rice")]
        "rice rice".data 3
      ≠ keywordSearchSpec [("rice", "rice field".data, some "Rice")]
        "rice rice".data 3 := by
  refine ⟨by decide, by decide, by decide⟩

/-! ## CropStore vector search (C9), from `src/chatbot/crop_store.py`
lines 407-441.

Embeddings are exact-rational vectors.  `np.linalg.norm(v) == 0` holds
exactly when the sum of squares is zero, so the norm-guards are modelled
on `sumSq`.  A similarity value `dot/(‖q‖·‖e‖)` is represented by the
pair `(dot q e, sumSq q * sumSq e)` standing for
`dot / sqrt(sumSq q * sumSq e)`; `cosLe` decides the ≤ order of two such
values without leaving ℚ, and `0 < dot` decides positivity. -/

def sumSq (v : List ℚ) : ℚ := (v.map (fun x => x * x)).sum

def dotProd (a b : List ℚ) : ℚ := (List.zipWith (· * ·) a b).sum

/-- Decides `a.1/√a.2 ≤ b.1/√b.2` for pairs with positive second
component, by sign analysis and squaring. -/
def cosLe (a b : ℚ × ℚ) : Bool :=
  if a.1 < 0 ∧ 0 ≤ b.1 then true
  else if 0 ≤ a.1 ∧ b.1 < 0 then false
  else if 0 ≤ a.1 then decide (a.1 ^ 2 * b.2 ≤ b.1 ^ 2 * a.2)
  else decide (b.1 ^ 2 * a.2 ≤ a.1 ^ 2 * b.2)

/-- Stable descending insertion by similarity: the Python
`scores.sort(key=lambda x: x[1], reverse=True)`. -/
def insertDescSim (x : String × ℚ × ℚ) :
    List (String × ℚ × ℚ) → List (String × ℚ × ℚ)
  | [] => [x]
  | y :: ys => if cosLe x.2 y.2 then y :: insertDescSim x ys else x :: y :: ys

/-- `CropStore._vector_search` (crop_store.py lines 407-441): empty on a
zero-norm query; zero-norm entity embeddings skipped before the
division; cosine scores sorted descending; of the first `top_k`, those
with positive similarity returned with the crop's name. -/
def vector_search (embs : List (String × List ℚ))
    (names : String → Option String) (q : List ℚ) (top_k : Nat) :
    List (String × (ℚ × ℚ) × Option String) :=
  if sumSq q = 0 then []
  else
    let scores := embs.foldl
      (fun acc e =>
        if sumSq e.2 = 0 then acc
        else acc ++ [(e.1, (dotProd q e.2, sumSq q * sumSq e.2))]) []
    let sorted := scores.foldl (fun acc x => insertDescSim x acc) []
    (sorted.take top_k).foldl
      (fun acc s => if 0 < s.2.1 then acc ++ [(s.1, s.2, names s.1)] else acc) []

theorem sumSq_nonneg (v : List ℚ) : 0 ≤ sumSq v := by
  unfold sumSq
  induction v with
  | nil => simp
  | cons x xs ih =>
    simp only [List.map_cons, List.sum_cons]
    have := mul_self_nonneg x
    linarith

theorem scores_mem {embs : List (String × List ℚ)} {q : List ℚ} :
    ∀ (acc : List (String × ℚ × ℚ)) (r : String × ℚ × ℚ),
    r ∈ embs.foldl
      (fun acc e =>
        if sumSq e.2 = 0 then acc
        else acc ++ [(e.1, (dotProd q e.2, sumSq q * sumSq e.2))]) acc →
    r ∈ acc ∨ ∃ e, (r.1, e) ∈ embs ∧ sumSq e ≠ 0 ∧
      r.2 = (dotProd q e, sumSq q * sumSq e) := by
  induction embs with
  | nil => intro acc r hr; exact Or.inl hr
  | cons p rest ih =>
    intro acc r hr
    simp only [List.foldl_cons] at hr
    by_cases hz : sumSq p.2 = 0
    · rw [if_pos hz] at hr
      rcases ih acc r hr with h1 | ⟨e, he, hz2, hr2⟩
      · exact Or.inl h1
      · exact Or.inr ⟨e, List.mem_cons_of_mem p he, hz2, hr2⟩
    · rw [if_neg hz] at hr
      rcases ih _ r hr with h1 | ⟨e, he, hz2, hr2⟩
      · rcases List.mem_append.mp h1 with h2 | h3
        · exact Or.inl h2
        · rcases List.mem_singleton.mp h3 with h4
          refine Or.inr ⟨p.2, ?_, hz, by rw [h4]⟩
          rw [h4]
          exact List.mem_cons_self p rest
      · exact Or.inr ⟨e, List.mem_cons_of_mem p he, hz2, hr2⟩

theorem mem_insertDescSim {x r : String × ℚ × ℚ} :
    ∀ {l : List (String × ℚ × ℚ)},
    r ∈ insertDescSim x l → r = x ∨ r ∈ l := by
  intro l
  induction l with
  | nil =>
    intro h
    exact Or.inl (List.mem_singleton.mp h)
  | cons y ys ih =>
    intro h
    simp only [insertDescSim] at h
    split_ifs at h
    · rcases List.mem_cons.mp h with h1 | h2
      · exact Or.inr (h1 ▸ List.mem_cons_self y ys)
      · rcases ih h2 with h3 | h4
        · exact Or.inl h3
        · exact Or.inr (List.mem_cons_of_mem y h4)
    · rcases List.mem_cons.mp h with h1 | h2
      · exact Or.inl h1
      · exact Or.inr h2

theorem mem_sortSim {r : String × ℚ × ℚ} :
    ∀ (l acc : List (String × ℚ × ℚ)),
    r ∈ l.foldl (fun acc x => insertDescSim x acc) acc →
    r ∈ acc ∨ r ∈ l := by
  intro l
  induction l with
  | nil => intro acc h; exact Or.inl h
  | cons x xs ih =>
    intro acc h
    simp only [List.foldl_cons] at h
    rcases ih _ h with h1 | h2
    · rcases mem_insertDescSim h1 with h3 | h4
      · exact Or.inr (h3 ▸ List.mem_cons_self x xs)
      · exact Or.inl h4
    · exact Or.inr (List.mem_cons_of_mem x h2)

theorem mem_resultFold {names : String → Option String} :
    ∀ (l : List (String × ℚ × ℚ))
    (acc : List (String × (ℚ × ℚ) × Option String))
    (r : String × (ℚ × ℚ) × Option String),
    r ∈ l.foldl
      (fun acc s =>
        if 0 < s.2.1 then acc ++ [(s.1, s.2, names s.1)] else acc) acc →
    r ∈ acc ∨ ∃ s ∈ l, r = (s.1, s.2, names s.1) ∧ 0 < s.2.1 := by
  intro l
  induction l with
  | nil => intro acc r h; exact Or.inl h
  | cons s rest ih =>
    intro acc r h
    simp only [List.foldl_cons] at h
    by_cases hpos : 0 < s.2.1
    · rw [if_pos hpos] at h
      rcases ih _ r h with h1 | ⟨s2, hs2, hr2, hp2⟩
      · rcases List.mem_append.mp h1 with h2 | h3
        · exact Or.inl h2
        · exact Or.inr ⟨s, List.mem_cons_self s rest,
            List.mem_singleton.mp h3, hpos⟩
      · exact Or.inr ⟨s2, List.mem_cons_of_mem s hs2, hr2, hp2⟩
    · rw [if_neg hpos] at h
      rcases ih acc r h with h1 | ⟨s2, hs2, hr2, hp2⟩
      · exact Or.inl h1
      · exact Or.inr ⟨s2, List.mem_cons_of_mem s hs2, hr2, hp2⟩

/-- C9: the vector search is total and never divides by zero — a
zero-norm query returns the empty list, and every returned result was
built from a stored embedding with nonzero norm, so its similarity
denominator `sumSq q * sumSq e` is strictly positive (a well-defined
cosine value). -/
theorem vector_search_total (embs : List (String × List ℚ))
    (names : String → Option String) (q : List ℚ) (top_k : Nat) :
    (sumSq q = 0 → vector_search embs names q top_k = [])
    ∧ (∀ r ∈ vector_search embs names q top_k,
        0 < r.2.1.2 ∧ 0 < r.2.1.1 ∧ ∃ e, (r.1, e) ∈ embs ∧ sumSq e ≠ 0 ∧
          r.2.1 = (dotProd q e, sumSq q * sumSq e)) := by
  constructor
  · intro h
    unfold vector_search
    rw [if_pos h]
  · intro r hr
    unfold vector_search at hr
    by_cases hq : sumSq q = 0
    · rw [if_pos hq] at hr
      simp at hr
    · rw [if_neg hq] at hr
      simp only [] at hr
      rcases mem_resultFold _ _ r hr with h1 | ⟨s, hs, hr2, hpos⟩
      · simp at h1
      · have hs2 := List.take_subset top_k _ hs
        rcases mem_sortSim _ _ hs2 with h3 | h4
        · simp at h3
        · rcases scores_mem [] s h4 with h5 | ⟨e, he, hz, hs5⟩
          · simp at h5
          · have hden : 0 < sumSq q * sumSq e := by
              have h6 := sumSq_nonneg q
              have h7 := sumSq_nonneg e
              have h8 : 0 < sumSq q := lt_of_le_of_ne h6 (Ne.symm hq)
              have h9 : 0 < sumSq e := lt_of_le_of_ne h7 (Ne.symm hz)
              exact mul_pos h8 h9
            refine ⟨?_, ?_, e, ?_, hz, ?_⟩
            · rw [hr2]
              simpa [hs5] using hden
            · rw [hr2]
              simpa using hpos
            · rw [hr2]
              exact he
            · rw [hr2]
              simpa using hs5

/-- Witness for C9: a zero-norm query returns nothing; with query
`[1, 0]` and a store holding a zero vector and a unit vector, the only
result is the unit vector's crop with positive numerator and
denominator. -/
theorem vector_search_total_witness :
    vector_search [("zero", [0, 0]), ("a", [1, 0])] (fun _ => none)
      [0, 0] 3 = []
    ∧ (0 : ℚ) <
      ((vector_search [("zero", [0, 0]), ("a", [1, 0])] (fun _ => none)
        [1, 0] 3).headD ("", (0, 0), none)).2.1.2 := by
  constructor
  · exact (vector_search_total [("zero", [0, 0]), ("a", [1, 0])]
      (fun _ => none) [0, 0] 3).1 (by norm_num [sumSq])
  · have hres : vector_search [("zero", [0, 0]), ("a", [1, 0])]
        (fun _ => none) [1, 0] 3
        = [("a", ((1 : ℚ), (1 : ℚ)), (none : Option String))] := by
      norm_num [vector_search, sumSq, dotProd, insertDescSim, cosLe]
    have hmem : (("a", ((1 : ℚ), (1 : ℚ)), (none : Option String))) ∈
        vector_search [("zero", [0, 0]), ("a", [1, 0])] (fun _ => none)
          [1, 0] 3 := by
      rw [hres]
      exact List.mem_singleton.mpr rfl
    have h := ((vector_search_total [("zero", [0, 0]), ("a", [1, 0])]
      (fun _ => none) [1, 0] 3).2 _ hmem).1
    rw [hres]
    exact h

/-! ## RAGEngine.chat (C8), from `src/chatbot/rag_engine.py` lines
30-166 and `CropStore.get_crop_summary` (crop_store.py lines 483-586).

A crop record here is the dict built by `CropStore.load_all` (or the
`variety_record` dict chat builds from a variety document; the
`_format_*` field selections are applied, so `variety_docs` holds
already-formatted records).  `Option` fields model present-but-`None`
values, which render as "None" in f-strings; the `get(..., default)`
fallbacks for genuinely missing keys are unreachable for records built
by `load_all`/`chat`.  The three external effects are oracles: the
backend client's availability, the outcome of configuring a caller-
supplied API key, and the outcome of the generation call. -/

/-- `planting_info` / `growing_conditions` group. -/
structure Growing where
  season : Option String
  method : Option String
  spacing : Option String
  duration : Option String
  deriving DecidableEq, Repr

/-- `yield_information` group. -/
structure YieldI where
  average : Option String
  range : Option String
  unit : Option String
  deriving DecidableEq, Repr

/-- A crop record as indexed by `CropStore` and consumed by `chat`. -/
structure ChatCrop where
  name : Option String
  scientific_name : Option String
  category : Option String
  varieties : List String
  soil_requirements : Option Soil
  climate_requirements : Option Climate
  growing_conditions : Option Growing
  farming_practices : List String
  pests_diseases : List Pest
  recommendations : List String
  yield_information : Option YieldI
  regional_data : List Region
  variety_docs : List ChatCrop
  incomplete : Bool
  deriving Repr

/-- `CropStore.get_crop_summary` (crop_store.py lines 483-586): the
structured textual summary, section by section. -/
def get_crop_summary (crop : ChatCrop) : String :=
  let name := pyStrOpt crop.name
  let lines := ["## " ++ name]
  let lines := lines ++
    (if truthyS crop.scientific_name then
      ["Scientific name: " ++ pyStrOpt crop.scientific_name] else [])
  let lines := lines ++ ["Category: " ++ pyStrOpt crop.category]
  let lines := lines ++
    (match crop.soil_requirements with
     | none => []
     | some s =>
       if !s.types.isEmpty || truthyS s.ph_range then
         ["\n### Soil Requirements"]
         ++ (if !s.types.isEmpty then
              ["- Soil types: " ++ String.intercalate ", " s.types] else [])
         ++ (if truthyS s.ph_range then
              ["- pH range: " ++ pyStrOpt s.ph_range] else [])
         ++ (if truthyS s.drainage then
              ["- Drainage: " ++ pyStrOpt s.drainage] else [])
       else [])
  let lines := lines ++
    (match crop.climate_requirements with
     | none => []
     | some c =>
       if truthyS c.temperature || truthyS c.rainfall || truthyS c.humidity
           || !c.conditions.isEmpty then
         ["\n### Climate Requirements"]
         ++ (if truthyS c.temperature then
              ["- Temperature: " ++ pyStrOpt c.temperature] else [])
         ++ (if truthyS c.rainfall then
              ["- Rainfall: " ++ pyStrOpt c.rainfall] else [])
         ++ (if truthyS c.humidity then
              ["- Humidity: " ++ pyStrOpt c.humidity] else [])
         ++ (if !c.conditions.isEmpty then
              ["- Conditions: " ++ String.intercalate ", " c.conditions]
            else [])
       else [])
  let lines := lines ++
    (match crop.growing_conditions with
     | none => []
     | some g =>
       if truthyS g.season || truthyS g.method || truthyS g.spacing
           || truthyS g.duration then
         ["\n### Growing Information"]
         ++ (if truthyS g.season then
              ["- Season: " ++ pyStrOpt g.season] else [])
         ++ (if truthyS g.method then
              ["- Method: " ++ pyStrOpt g.method] else [])
         ++ (if truthyS g.spacing then
              ["- Spacing: " ++ pyStrOpt g.spacing] else [])
         ++ (if truthyS g.duration then
              ["- Duration: " ++ pyStrOpt g.duration] else [])
       else [])
  let lines := lines ++
    (match crop.yield_information with
     | none => []
     | some y =>
       if truthyS y.average || truthyS y.range || truthyS y.unit then
         ["\n### Yield Information"]
         ++ (if truthyS y.average then
              ["- Average: " ++ pyStrOpt y.average] else [])
         ++ (if truthyS y.range then
              ["- Range: " ++ pyStrOpt y.range] else [])
         ++ (if truthyS y.unit then
              ["- Unit: " ++ pyStrOpt y.unit] else [])
       else [])
  let lines := lines ++
    (if !crop.farming_practices.isEmpty then
      ["\n### Farming Practices"]
      ++ (crop.farming_practices.take 5).map (fun p => "- " ++ p)
    else [])
  let lines := lines ++
    (if !crop.pests_diseases.isEmpty then
      ["\n### Common Pests & Diseases"]
      ++ (crop.pests_diseases.take 5).map (fun pest =>
          if truthyS pest.type then
            "- " ++ pyStrOpt pest.name ++ " (" ++ pyStrOpt pest.type ++ ")"
          else "- " ++ pyStrOpt pest.name)
    else [])
  let lines := lines ++
    (if !crop.recommendations.isEmpty then
      ["\n### Recommendations"]
      ++ (crop.recommendations.take 5).map (fun r => "- " ++ r)
    else [])
  let lines := lines ++
    (if !crop.regional_data.isEmpty then
      ["\n### Regional Information"]
      ++ ((crop.regional_data.take 3).filterMap (fun region =>
          if truthyS region.region && truthyS region.specific_info then
            some ("- " ++ pyStrOpt region.region ++ ": "
              ++ pyStrOpt region.specific_info)
          else none))
    else [])
  let lines := lines ++
    (if crop.incomplete then
      ["\n*[Incomplete data - agricultural information without specific crop name]*"]
    else [])
  String.intercalate "\n" lines

/-- A `chat` response dict.  `llm_used = none` / `error = none` model
the KEY BEING ABSENT from the returned dict (no code path stores `None`
under those keys). -/
structure ChatResponse where
  answer : String
  crops_used : List (Option String)
  context : Option String
  llm_used : Option Bool
  error : Option String
  deriving Repr, DecidableEq

/-- The context-building loop of `chat` (rag_engine.py lines 60-105):
returns (context_parts, crops_used). -/
def buildContext (searchResults : List (ChatCrop × Option String)) :
    List String × List (Option String) :=
  searchResults.foldl
    (fun (acc : List String × List (Option String)) res =>
      let crop := res.1
      let parts := acc.1 ++
        ["# " ++ pyStrOpt crop.name ++ " (Main Information)\n"
          ++ get_crop_summary crop]
      let used := acc.2 ++ [res.2]
      if !crop.varieties.isEmpty then
        if !crop.variety_docs.isEmpty then
          let parts := parts ++ ["\n## Varieties of " ++ pyStrOpt crop.name ++ ":\n"]
          crop.variety_docs.foldl
            (fun (acc2 : List String × List (Option String)) vd =>
              (acc2.1 ++ ["### " ++ pyStrOpt vd.name ++ "\n"
                  ++ get_crop_summary vd ++ "\n"],
                acc2.2 ++ [vd.name]))
            (parts, used)
        else (parts, used)
      else (parts, used))
    ([], [])

/-- `RAGEngine.chat` (rag_engine.py lines 30-166).  `clientAvailable`
models `self.is_available()`; `configureResult` the attempt to build a
one-off client from a caller-supplied key; `genResult` the generation
call's outcome (returned text or exception message). -/
def chat (searchResults : List (ChatCrop × Option String))
    (include_context : Bool) (api_key : Option String)
    (clientAvailable : Bool) (configureResult : Except String Unit)
    (genResult : Except String String) : ChatResponse :=
  if searchResults.isEmpty then
    { answer := "I don't have information about that crop in my database. Please try asking about a different crop."
      crops_used := [], context := none, llm_used := none, error := none }
  else
    let built := buildContext searchResults
    let context := String.intercalate "\n\n---\n\n" built.1
    let crops_used := built.2
    let ctxField : Option String := if include_context then some context else none
    let invalidKey : Option String :=
      if truthyS api_key then
        match configureResult with
        | Except.error e => some e
        | Except.ok _ => none
      else none
    match invalidKey with
    | some e =>
      { answer := "Invalid API key provided: " ++ e
          ++ "\n\nPlease check your API key and try again."
        crops_used := crops_used, context := ctxField
        llm_used := some false, error := some ("Invalid API key: " ++ e) }
    | none =>
      if !(truthyS api_key) && !clientAvailable then
        { answer := "Here's what I found:\n\n" ++ context
          crops_used := crops_used, context := ctxField
          llm_used := some false, error := none }
      else
        match genResult with
        | Except.ok text =>
          { answer := text, crops_used := crops_used, context := ctxField
            llm_used := some true, error := none }
        | Except.error e =>
          let hint :=
            if isSubstr "quota".data (pyLower e.data)
                || isSubstr "rate limit".data (pyLower e.data) then
              "\n\nTip: The backend API key quota may be exhausted. Try providing your own API key in the request."
            else ""
          { answer := "Error generating response: " ++ e ++ hint
              ++ "\n\nHere's the raw data:\n\n" ++ context
            crops_used := crops_used, context := ctxField
            llm_used := none, error := some e }

/-- The fixed no-information response (rag_engine.py lines 52-57): note
it carries NO `llm_used` key. -/
def noInfoResponse : ChatResponse :=
  { answer := "I don't have information about that crop in my database. Please try asking about a different crop."
    crops_used := [], context := none, llm_used := none, error := none }

/-- C8 (amended): `chat` always returns `{answer, crops_used, context?}`;
when retrieval is empty the answer is the fixed no-information message
with an empty crop list; when no caller key is supplied and no backend
adapter is available the answer is the raw rendered context with
`llm_used = false`; but the `llm_used` key is NOT in every response — it
is absent exactly on the empty-retrieval path and on the
generation-exception path. -/
theorem chat_contract (sr : List (ChatCrop × Option String))
    (ic : Bool) (ak : Option String) (ca : Bool)
    (cr : Except String Unit) (gr : Except String String) :
    (sr = [] → chat sr ic ak ca cr gr = noInfoResponse)
    ∧ (sr ≠ [] → truthyS ak = false → ca = false →
        ((chat sr ic ak ca cr gr).answer
          = "Here's what I found:\n\n"
            ++ String.intercalate "\n\n---\n\n" (buildContext sr).1
        ∧ (chat sr ic ak ca cr gr).llm_used = some false
        ∧ (chat sr ic ak ca cr gr).context
          = (if ic then
              some (String.intercalate "\n\n---\n\n" (buildContext sr).1)
            else none)
        ∧ (chat sr ic ak ca cr gr).crops_used = (buildContext sr).2))
    ∧ ((chat sr ic ak ca cr gr).llm_used = none ↔
        (sr = [] ∨
          (((truthyS ak = true ∧ cr = Except.ok ())
            ∨ (truthyS ak = false ∧ ca = true))
          ∧ ∃ e, gr = Except.error e))) := by
  refine ⟨?_, ?_, ?_⟩
  · intro h
    subst h
    rfl
  · intro hne hak hca
    rcases sr with _ | ⟨r, rest⟩
    · exact absurd rfl hne
    · unfold chat
      rw [if_neg (by simp)]
      simp only [hak, hca, Bool.not_false, Bool.and_self, if_false, if_true]
      exact ⟨rfl, rfl, rfl, rfl⟩
  · rcases sr with _ | ⟨r, rest⟩
    · simp [chat, noInfoResponse]
    · unfold chat
      rw [if_neg (by simp)]
      rcases hak : truthyS ak with _ | _
      · rcases hca : ca with _ | _
        · simp [hak, hca]
        · rcases gr with e | t
          · simp [hak, hca]
          · simp [hak, hca]
      · rcases cr with e | u
        · simp [hak]
        · rcases gr with e2 | t
          · simp [hak]
          · simp [hak]

/-- A minimal crop record for concrete evaluation. -/
def plainCrop : ChatCrop :=
  { name := some "Rice", scientific_name := none, category := some "cereal"
    varieties := [], soil_requirements := none, climate_requirements := none
    growing_conditions := none, farming_practices := [], pests_diseases := []
    recommendations := [], yield_information := none, regional_data := []
    variety_docs := [], incomplete := false }

/-- C8 counterexample: two reachable responses carry no `llm_used` key at
all — the empty-retrieval response and the generation-failure response —
so "every response contains an llm_used flag" is false. -/
theorem chat_llm_used_absent :
    (chat [] true none true (Except.ok ()) (Except.ok "hi")).llm_used = none
    ∧ (chat [(plainCrop, some "Rice")] true none true (Except.ok ())
        (Except.error "boom")).llm_used = none
    ∧ (chat [(plainCrop, some "Rice")] true none true (Except.ok ())
        (Except.error "boom")).error = some "boom" := by
  exact ⟨rfl, rfl, rfl⟩

/-- Witness for C8 (amended) at concrete inputs: one crop retrieved, no
caller key, backend unavailable. -/
theorem chat_contract_witness :
    ([(plainCrop, some "Rice")] ≠ ([] : List (ChatCrop × Option String)))
    ∧ (chat [(plainCrop, some "Rice")] true none false (Except.ok ())
        (Except.ok "unused")).answer
      = "Here's what I found:\n\n"
        ++ String.intercalate "\n\n---\n\n"
          (buildContext [(plainCrop, some "Rice")]).1
    ∧ (chat [(plainCrop, some "Rice")] true none false (Except.ok ())
        (Except.ok "unused")).llm_used = some false := by
  have h := (chat_contract [(plainCrop, some "Rice")] true none false
    (Except.ok ()) (Except.ok "unused")).2.1 (by simp) rfl rfl
  exact ⟨by simp, h.1, h.2.1⟩

/-! ## TextProcessor.segment_text (C5), from
`src/finder_system/text_processor.py` lines 41-184.

Strings are `List Char`.  The float token estimates `len(x)/4` are exact
dyadic rationals, so every comparison `a/4 + b/4 > m` is modelled by the
exact `a + b > 4*m` on naturals. -/

/-- A chunk dict `{'chunk_id', 'text', 'token_count'}`. -/
structure PyChunk where
  chunk_id : Nat
  text : List Char
  token_count : Nat
  deriving DecidableEq, Repr

/-- `text.split('\n\n')`: leftmost, non-overlapping. -/
def splitParaAux : List Char → List Char → List (List Char)
  | [], acc => [acc.reverse]
  | '\n' :: '\n' :: rest, acc => acc.reverse :: splitParaAux rest []
  | c :: rest, acc => splitParaAux rest (c :: acc)

def pySplitParas (text : List Char) : List (List Char) := splitParaAux text []

/-- The lookbehind `(?<=[.!?])`: the previously consumed character (the
head of the reversed accumulator) is sentence-ending punctuation. -/
def sentenceEnd : List Char → Bool
  | p :: _ => p = '.' || p = '!' || p = '?'
  | [] => false

/-- `re.split(r'(?<=[.!?])\\s+', text)`: split at each maximal whitespace
run preceded by sentence-ending punctuation.  The Boolean flag is true
while consuming the matched whitespace run. -/
def splitSentencesAux : Bool → List Char → List Char → List (List Char)
  | _, [], acc => [acc.reverse]
  | true, c :: rest, acc =>
    if c.isWhitespace then splitSentencesAux true rest acc
    else splitSentencesAux false rest (c :: acc)
  | false, c :: rest, acc =>
    if c.isWhitespace && sentenceEnd acc then
      acc.reverse :: splitSentencesAux true rest []
    else splitSentencesAux false rest (c :: acc)

def pySplitSentences (text : List Char) : List (List Char) :=
  splitSentencesAux false text []

/-- Mutable segmentation state: accumulated chunk dicts, the running
`chunk_num`, and `current_chunk`. -/
structure SegState where
  chunks : List PyChunk
  num : Nat
  cur : List Char
  deriving Repr

/-- Close `current_chunk` into a chunk dict
(`{'chunk_id': n, 'text': cur.strip(), 'token_count': int(len(cur)/4)}`)
and reset it. -/
def closeCur (st : SegState) : SegState :=
  ⟨st.chunks ++ [⟨st.num, pyStrip st.cur, st.cur.length / 4⟩],
    st.num + 1, []⟩

/-- Body of the word loop (text_processor.py lines 152-163). -/
def wordStep (m4 : Nat) (st : SegState) (w : List Char) : SegState :=
  if st.cur.length + w.length + 1 > m4 ∧ st.cur ≠ [] then
    ⟨(closeCur st).chunks, (closeCur st).num, w⟩
  else
    ⟨st.chunks, st.num, if st.cur.isEmpty then w else st.cur ++ ' ' :: w⟩

/-- Body of the sentence loop (text_processor.py lines 136-175). -/
def sentenceStep (m : Nat) (st : SegState) (s : List Char) : SegState :=
  if s.length > m * 4 then
    (pySplitWs s).foldl (wordStep (m * 4))
      (if st.cur ≠ [] then closeCur st else st)
  else if st.cur.length + s.length + 1 > m * 4 ∧ st.cur ≠ [] then
    ⟨(closeCur st).chunks, (closeCur st).num, s⟩
  else
    ⟨st.chunks, st.num, if st.cur.isEmpty then s else st.cur ++ ' ' :: s⟩

/-- `TextProcessor._segment_by_sentences` (text_processor.py 117-184). -/
def segment_by_sentences (text : List Char) (m : Nat) : List PyChunk :=
  if ((pySplitSentences text).foldl (sentenceStep m) ⟨[], 0, []⟩).cur ≠ [] then
    (closeCur ((pySplitSentences text).foldl (sentenceStep m)
      ⟨[], 0, []⟩)).chunks
  else ((pySplitSentences text).foldl (sentenceStep m) ⟨[], 0, []⟩).chunks

/-- Body of the paragraph loop (text_processor.py lines 69-105);
sub-chunks of an oversized paragraph are renumbered sequentially. -/
def paragraphStep (m : Nat) (st : SegState) (p : List Char) : SegState :=
  if p.length > m * 4 then
    ⟨(if st.cur ≠ [] then closeCur st else st).chunks ++
        (segment_by_sentences p m).enum.map
          (fun ic => ⟨(if st.cur ≠ [] then closeCur st else st).num + ic.1,
            ic.2.text, ic.2.token_count⟩),
      (if st.cur ≠ [] then closeCur st else st).num
        + (segment_by_sentences p m).length,
      []⟩
  else if st.cur.length + p.length > m * 4 ∧ st.cur ≠ [] then
    ⟨(closeCur st).chunks, (closeCur st).num, p⟩
  else
    ⟨st.chunks, st.num,
      if st.cur.isEmpty then p else st.cur ++ '\n' :: '\n' :: p⟩

/-- `TextProcessor.segment_text` (text_processor.py lines 41-115). -/
def segment_text (text : List Char) (maxChunkSize : Nat) : List PyChunk :=
  if (pySplitParas text).length = 1 ∧ text.length > maxChunkSize * 4 then
    segment_by_sentences text maxChunkSize
  else if ((pySplitParas text).foldl (paragraphStep maxChunkSize)
      ⟨[], 0, []⟩).cur ≠ [] then
    (closeCur ((pySplitParas text).foldl (paragraphStep maxChunkSize)
      ⟨[], 0, []⟩)).chunks
  else ((pySplitParas text).foldl (paragraphStep maxChunkSize) ⟨[], 0, []⟩).chunks

/-- Whitespace-freeness: the chunk is a single whitespace-delimited
word. -/
def noWsL (l : List Char) : Bool := l.all (fun c => !c.isWhitespace)

/-- C5 counterexample: `segment_text "ab\n\ncd" 1` (budget 4 characters)
produces the single chunk "ab\n\ncd" of length 6 > 4, which contains
whitespace and consists of two words each within the budget — the
joining "\n\n" is not counted by the budget check. -/
theorem segment_text_exceeds_budget :
    segment_text "ab\n\ncd".data 1 = [⟨0, "ab\n\ncd".data, 1⟩]
    ∧ ("ab\n\ncd".data.length > 1 * 4 ∧ noWsL "ab\n\ncd".data = false)
    ∧ (pySplitWs "ab\n\ncd".data).length = 2
    ∧ (∀ w ∈ pySplitWs "ab\n\ncd".data, w.length ≤ 1 * 4) := by
  refine ⟨by decide, by decide, by decide, by decide⟩

theorem mem_dropWhile {α : Type} (p : α → Bool) :
    ∀ {l : List α} {x : α}, x ∈ l.dropWhile p → x ∈ l := by
  intro l
  induction l with
  | nil => intro x h; exact h
  | cons a rest ih =>
    intro x h
    rw [List.dropWhile_cons] at h
    split_ifs at h
    · exact List.mem_cons_of_mem a (ih h)
    · exact h

theorem mem_pyStrip {l : List Char} {x : Char} (h : x ∈ pyStrip l) : x ∈ l := by
  unfold pyStrip pyLstrip at h
  rw [List.mem_reverse] at h
  have h2 := mem_dropWhile _ h
  rw [List.mem_reverse] at h2
  exact mem_dropWhile _ h2

theorem pyStrip_length_le (l : List Char) : (pyStrip l).length ≤ l.length := by
  unfold pyStrip pyLstrip
  rw [List.length_reverse]
  calc ((l.dropWhile (·.isWhitespace)).reverse.dropWhile
        (·.isWhitespace)).length
      ≤ (l.dropWhile (·.isWhitespace)).reverse.length :=
        (List.dropWhile_sublist _).length_le
    _ = (l.dropWhile (·.isWhitespace)).length := List.length_reverse _
    _ ≤ l.length := (List.dropWhile_sublist _).length_le

theorem noWsL_subset {l l2 : List Char} (hsub : ∀ x ∈ l2, x ∈ l)
    (h : noWsL l = true) : noWsL l2 = true := by
  rw [noWsL, List.all_eq_true] at h ⊢
  exact fun x hx => h x (hsub x hx)

theorem pyStrip_noWs {l : List Char} (h : noWsL l = true) :
    noWsL (pyStrip l) = true :=
  noWsL_subset (fun _ hx => mem_pyStrip hx) h

theorem pySplitWsAux_noWs :
    ∀ (l acc : List Char), (∀ c ∈ acc, (!c.isWhitespace) = true) →
    ∀ w ∈ pySplitWsAux l acc, noWsL w = true := by
  intro l
  induction l with
  | nil =>
    intro acc hacc w hw
    unfold pySplitWsAux at hw
    split_ifs at hw
    · exact absurd hw (List.not_mem_nil w)
    · rw [List.mem_singleton] at hw
      rw [hw, noWsL, List.all_eq_true]
      intro x hx
      exact hacc x (List.mem_reverse.mp hx)
  | cons c rest ih =>
    intro acc hacc w hw
    unfold pySplitWsAux at hw
    split_ifs at hw with h1 h2
    · exact ih [] (by simp) w hw
    · rcases List.mem_cons.mp hw with h3 | h4
      · rw [h3, noWsL, List.all_eq_true]
        intro x hx
        exact hacc x (List.mem_reverse.mp hx)
      · exact ih [] (by simp) w h4
    · refine ih (c :: acc) ?_ w hw
      intro x hx
      rcases List.mem_cons.mp hx with h3 | h4
      · rw [h3]
        simp [h1]
      · exact hacc x h4

theorem pySplitWs_noWs (l : List Char) :
    ∀ w ∈ pySplitWs l, noWsL w = true :=
  pySplitWsAux_noWs l [] (by simp)

theorem mem_of_mem_enumFrom {α : Type} :
    ∀ {l : List α} {n : Nat} {x : Nat × α},
    x ∈ List.enumFrom n l → x.2 ∈ l := by
  intro l
  induction l with
  | nil => intro n x h; simp [List.enumFrom] at h
  | cons a rest ih =>
    intro n x h
    rcases List.mem_cons.mp h with h1 | h2
    · rw [h1]
      exact List.mem_cons_self a rest
    · exact List.mem_cons_of_mem a (ih h2)

/-- What C5 asserts of one chunk, with bound `b`. -/
def chunkOk (b : Nat) (c : PyChunk) : Prop :=
  c.text.length ≤ b ∨ noWsL c.text = true

/-- Loop invariant: accumulated chunks satisfy the bound, and the
running `current_chunk` does too (or is a single word). -/
def stateOk (b : Nat) (st : SegState) : Prop :=
  (∀ c ∈ st.chunks, chunkOk b c)
  ∧ (st.cur.length ≤ b ∨ noWsL st.cur = true)

theorem chunkOk_mono {b b2 : Nat} (h : b ≤ b2) {c : PyChunk}
    (hc : chunkOk b c) : chunkOk b2 c := by
  rcases hc with h1 | h2
  · exact Or.inl (h1.trans h)
  · exact Or.inr h2

theorem closeCur_ok {b : Nat} {st : SegState} (h : stateOk b st) :
    stateOk b (closeCur st) := by
  obtain ⟨hchunks, hcur⟩ := h
  refine ⟨?_, Or.inl (Nat.zero_le b)⟩
  intro c hc
  rcases List.mem_append.mp hc with h1 | h2
  · exact hchunks c h1
  · rw [List.mem_singleton.mp h2]
    rcases hcur with h3 | h4
    · exact Or.inl ((pyStrip_length_le st.cur).trans h3)
    · exact Or.inr (pyStrip_noWs h4)

theorem ite_closeCur_ok {b : Nat} {st : SegState} (h : stateOk b st) :
    stateOk b (if st.cur ≠ [] then closeCur st else st) := by
  split_ifs with h1
  · exact closeCur_ok h
  · exact h

theorem wordStep_ok {m4 : Nat} {st : SegState} {w : List Char}
    (hw : noWsL w = true) (h : stateOk m4 st) :
    stateOk m4 (wordStep m4 st w) := by
  unfold wordStep
  split_ifs with h1 h2
  · exact ⟨(closeCur_ok h).1, Or.inr hw⟩
  · exact ⟨h.1, Or.inr hw⟩
  · refine ⟨h.1, Or.inl ?_⟩
    have hne : st.cur ≠ [] := by
      intro hcon
      rw [hcon] at h2
      exact h2 rfl
    have harith : ¬(st.cur.length + w.length + 1 > m4) :=
      fun hgt => h1 ⟨hgt, hne⟩
    simp only [List.length_append, List.length_cons]
    omega

theorem wordsFold_ok {m4 : Nat} :
    ∀ (ws : List (List Char)) (st : SegState),
    (∀ w ∈ ws, noWsL w = true) → stateOk m4 st →
    stateOk m4 (ws.foldl (wordStep m4) st) := by
  intro ws
  induction ws with
  | nil => intro st _ h; exact h
  | cons w rest ih =>
    intro st hws h
    simp only [List.foldl_cons]
    exact ih _ (fun x hx => hws x (List.mem_cons_of_mem w hx))
      (wordStep_ok (hws w (List.mem_cons_self w rest)) h)

theorem sentenceStep_ok {m : Nat} {st : SegState} {s : List Char}
    (h : stateOk (m * 4) st) : stateOk (m * 4) (sentenceStep m st s) := by
  unfold sentenceStep
  by_cases h1 : s.length > m * 4
  · rw [if_pos h1]
    exact wordsFold_ok _ _ (pySplitWs_noWs s) (ite_closeCur_ok h)
  · rw [if_neg h1]
    by_cases h2 : st.cur.length + s.length + 1 > m * 4 ∧ st.cur ≠ []
    · rw [if_pos h2]
      refine ⟨(closeCur_ok h).1, Or.inl ?_⟩
      show s.length ≤ m * 4
      omega
    · rw [if_neg h2]
      refine ⟨h.1, ?_⟩
      by_cases hcur : st.cur.isEmpty
      · rw [if_pos hcur]
        refine Or.inl ?_
        show s.length ≤ m * 4
        omega
      · rw [if_neg hcur]
        refine Or.inl ?_
        have hne : st.cur ≠ [] := by
          intro hcon
          rw [hcon] at hcur
          exact hcur rfl
        have harith : ¬(st.cur.length + s.length + 1 > m * 4) :=
          fun hgt => h2 ⟨hgt, hne⟩
        show (st.cur ++ ' ' :: s).length ≤ m * 4
        simp only [List.length_append, List.length_cons]
        omega

theorem segment_by_sentences_ok (text : List Char) (m : Nat) :
    ∀ c ∈ segment_by_sentences text m, chunkOk (m * 4) c := by
  have hfold : stateOk (m * 4)
      ((pySplitSentences text).foldl (sentenceStep m) ⟨[], 0, []⟩) := by
    have hgen : ∀ (ss : List (List Char)) (st : SegState),
        stateOk (m * 4) st → stateOk (m * 4) (ss.foldl (sentenceStep m) st) := by
      intro ss
      induction ss with
      | nil => intro st h; exact h
      | cons s rest ih =>
        intro st h
        exact ih _ (sentenceStep_ok h)
    exact hgen _ _ ⟨by simp, Or.inl (by simp)⟩
  unfold segment_by_sentences
  split_ifs with h1
  · exact (closeCur_ok hfold).1
  · exact hfold.1

theorem paragraphStep_ok {m : Nat} {st : SegState} {p : List Char}
    (h : stateOk (m * 4 + 2) st) :
    stateOk (m * 4 + 2) (paragraphStep m st p) := by
  unfold paragraphStep
  by_cases h1 : p.length > m * 4
  · rw [if_pos h1]
    refine ⟨?_, Or.inl (Nat.zero_le _)⟩
    intro c hc
    rcases List.mem_append.mp hc with h4 | h5
    · exact (ite_closeCur_ok h).1 c h4
    · rcases List.mem_map.mp h5 with ⟨ic, hic, hceq⟩
      have h6 := segment_by_sentences_ok p m ic.2 (mem_of_mem_enumFrom hic)
      rw [← hceq]
      exact chunkOk_mono (by omega) h6
  · rw [if_neg h1]
    by_cases h2 : st.cur.length + p.length > m * 4 ∧ st.cur ≠ []
    · rw [if_pos h2]
      refine ⟨(closeCur_ok h).1, Or.inl ?_⟩
      show p.length ≤ m * 4 + 2
      omega
    · rw [if_neg h2]
      refine ⟨h.1, ?_⟩
      by_cases hcur : st.cur.isEmpty
      · rw [if_pos hcur]
        refine Or.inl ?_
        show p.length ≤ m * 4 + 2
        omega
      · rw [if_neg hcur]
        refine Or.inl ?_
        have hne : st.cur ≠ [] := by
          intro hcon
          rw [hcon] at hcur
          exact hcur rfl
        have harith : ¬(st.cur.length + p.length > m * 4) :=
          fun hgt => h2 ⟨hgt, hne⟩
        show (st.cur ++ '\n' :: '\n' :: p).length ≤ m * 4 + 2
        simp only [List.length_append, List.length_cons]
        omega

/-- C5 (amended): every chunk produced by `segment_text` has character
length at most `max_chunk_size * 4 + 2` — the `"\n\n"` inserted when
joining paragraphs is not counted by the budget check, so the spec's
`max_chunk_size * 4` can be exceeded by exactly those two characters —
except a chunk that is a single whitespace-free word, which may have any
length. -/
theorem segment_text_bound (text : List Char) (m : Nat) :
    ∀ c ∈ segment_text text m,
    c.text.length ≤ m * 4 + 2 ∨ noWsL c.text = true := by
  have hfold : stateOk (m * 4 + 2)
      ((pySplitParas text).foldl (paragraphStep m) ⟨[], 0, []⟩) := by
    have hgen : ∀ (ps : List (List Char)) (st : SegState),
        stateOk (m * 4 + 2) st →
        stateOk (m * 4 + 2) (ps.foldl (paragraphStep m) st) := by
      intro ps
      induction ps with
      | nil => intro st h; exact h
      | cons p rest ih =>
        intro st h
        exact ih _ (paragraphStep_ok h)
    exact hgen _ _ ⟨by simp, Or.inl (by simp)⟩
  unfold segment_text
  split_ifs with h1 h2
  · intro c hc
    exact chunkOk_mono (by omega) (segment_by_sentences_ok text m c hc)
  · exact (closeCur_ok hfold).1
  · exact hfold.1

/-- Witness for C5 (amended): the concrete two-paragraph input, with the
membership hypothesis discharged on the computed chunk. -/
theorem segment_text_bound_witness :
    (⟨0, "ab\n\ncd".data, 1⟩ : PyChunk) ∈ segment_text "ab\n\ncd".data 1
    ∧ ((⟨0, "ab\n\ncd".data, 1⟩ : PyChunk).text.length ≤ 1 * 4 + 2
      ∨ noWsL (⟨0, "ab\n\ncd".data, 1⟩ : PyChunk).text = true) := by
  refine ⟨by decide, ?_⟩
  exact segment_text_bound "ab\n\ncd".data 1 _ (by decide)

/-!
## C4: JSON repair pipeline (gemini_adapter.repair_json / safe_json_parse)

The repository repairs truncated LLM output by scanning for a balanced
object, appending missing closers from the open/close count delta, and
running a handful of comma-fixing regexes, then parses with json.loads.

The embedding models JSON values as `JVal` (integers only; floats are out
of scope of the claims), Python strings as `List Char`, and json.dumps
with its default separators.  json.loads is modelled by a fuel-based
recursive-descent parser `parseVal`/`loads` faithful to Python's json for
the inputs reachable in the theorems (integer numbers; \uXXXX escapes and
the strict-mode control-character check are outside the modelled
fragment).  repair_json's regex substitutions are modelled as leftmost
non-overlapping scans, exactly mirroring re.sub for these patterns.
-/

inductive JVal where
  | jnull : JVal
  | jbool : Bool → JVal
  | jnum : Int → JVal
  | jstr : List Char → JVal
  | jarr : List JVal → JVal
  | jobj : List (List Char × JVal) → JVal

/-- Decimal digits of a natural number, most significant first
(fuel-based so that it reduces in the kernel). -/
def natToCharsAux : Nat → Nat → List Char → List Char
  | 0, _, acc => acc
  | fuel + 1, n, acc =>
    if n < 10 then Char.ofNat (48 + n) :: acc
    else natToCharsAux fuel (n / 10) (Char.ofNat (48 + n % 10) :: acc)

def natToChars (n : Nat) : List Char := natToCharsAux (n + 1) n []

def intToChars : Int → List Char
  | .ofNat n => natToChars n
  | .negSucc m => '-' :: natToChars (m + 1)

/-- json.dumps escaping for the characters that stay one-byte escapes;
the `goodChar` class below avoids every escaped character, so this only
has to agree with Python there and on quote/backslash. -/
def escChar (c : Char) : List Char :=
  if c = '"' then ['\\', '"'] else if c = '\\' then ['\\', '\\'] else [c]

def escStr (s : List Char) : List Char := (s.map escChar).flatten

mutual
/-- json.dumps with the default separators (", " and ": "). -/
def dumps : JVal → List Char
  | .jnull => "null".data
  | .jbool true => "true".data
  | .jbool false => "false".data
  | .jnum n => intToChars n
  | .jstr s => '"' :: (escStr s ++ ['"'])
  | .jarr items => '[' :: (dumpsItems items ++ [']'])
  | .jobj fields => '\x7b' :: (dumpsFields fields ++ ['\x7d'])

def dumpsItems : List JVal → List Char
  | [] => []
  | [x] => dumps x
  | x :: y :: rest => dumps x ++ ',' :: ' ' :: dumpsItems (y :: rest)

def dumpsFields : List (List Char × JVal) → List Char
  | [] => []
  | [(k, v)] => '"' :: (escStr k ++ '"' :: ':' :: ' ' :: dumps v)
  | (k, v) :: f :: rest =>
      ('"' :: (escStr k ++ '"' :: ':' :: ' ' :: dumps v)) ++ ',' :: ' ' :: dumpsFields (f :: rest)
end

/-- Python str.strip / regex \s whitespace. -/
def isWsC (c : Char) : Bool :=
  c = ' ' || c = '\t' || c = '\n' || c = '\r' || c = '\x0b' || c = '\x0c'

def stripJ (l : List Char) : List Char :=
  ((l.dropWhile isWsC).reverse.dropWhile isWsC).reverse

/-- str.startswith, by direct recursion. -/
def isPre : List Char → List Char → Bool
  | [], _ => true
  | _ :: _, [] => false
  | a :: as, b :: bs => a = b && isPre as bs

/-- str.endswith. -/
def isSuf (p l : List Char) : Bool := isPre p.reverse l.reverse

/-- str.find for a nonempty pattern, as an index relative to `i`. -/
def findStrAux (p : List Char) : List Char → Nat → Option Nat
  | [], i => if isPre p ([] : List Char) then some i else none
  | l@(_ :: rest), i => if isPre p l then some i else findStrAux p rest (i + 1)

def stripFences (t : List Char) : List Char :=
  if isPre ("```json".data) t then t.drop 7
  else if isPre ("```".data) t then t.drop 3
  else t

def stripFenceEnd (t : List Char) : List Char :=
  if isSuf ("```".data) t then t.take (t.length - 3) else t

/-- The bracket-balance scan of repair_json (lines 46-68): index of the
brace closing the object, tracking in-string and escape state. -/
def scanGo : Int → Bool → Bool → Nat → List Char → Option Nat
  | _, _, _, _, [] => none
  | cnt, instr, esc, i, c :: rest =>
    if esc then scanGo cnt instr false (i + 1) rest
    else if c = '\\' then scanGo cnt instr true (i + 1) rest
    else if c = '"' then scanGo cnt (!instr) esc (i + 1) rest
    else if instr then scanGo cnt instr esc (i + 1) rest
    else if c = '\x7b' then scanGo (cnt + 1) instr esc (i + 1) rest
    else if c = '\x7d' then
      if cnt - 1 = 0 then some i else scanGo (cnt - 1) instr esc (i + 1) rest
    else scanGo cnt instr esc (i + 1) rest

/-- Append the closers inferred from the open/close count delta
(repair_json lines 75-81; a negative delta yields no closers, like
Python's `']' * negative`). -/
def closeUp (t : List Char) : List Char :=
  t ++ List.replicate (t.count '[' - t.count ']') ']'
    ++ List.replicate (t.count '\x7b' - t.count '\x7d') '\x7d'

/-- re.sub(r',\s*([}\]])', r'\1', ...): drop trailing commas. -/
def sub1Aux : Nat → List Char → List Char
  | 0, l => l
  | _ + 1, [] => []
  | fuel + 1, c :: rest =>
    if c = ',' then
      match rest.dropWhile isWsC with
      | b :: after =>
        if b = '\x7d' || b = ']' then b :: sub1Aux fuel after
        else c :: sub1Aux fuel rest
      | [] => c :: sub1Aux fuel rest
    else c :: sub1Aux fuel rest

def sub1 (l : List Char) : List Char := sub1Aux l.length l

/-- re.sub(r'}\s*{', '},{', ...). -/
def sub2Aux : Nat → List Char → List Char
  | 0, l => l
  | _ + 1, [] => []
  | fuel + 1, c :: rest =>
    if c = '\x7d' then
      match rest.dropWhile isWsC with
      | b :: after =>
        if b = '\x7b' then '\x7d' :: ',' :: '\x7b' :: sub2Aux fuel after
        else c :: sub2Aux fuel rest
      | [] => c :: sub2Aux fuel rest
    else c :: sub2Aux fuel rest

def sub2 (l : List Char) : List Char := sub2Aux l.length l

/-- re.sub(r']\s*\[', '],[', ...). -/
def sub3Aux : Nat → List Char → List Char
  | 0, l => l
  | _ + 1, [] => []
  | fuel + 1, c :: rest =>
    if c = ']' then
      match rest.dropWhile isWsC with
      | b :: after =>
        if b = '[' then ']' :: ',' :: '[' :: sub3Aux fuel after
        else c :: sub3Aux fuel rest
      | [] => c :: sub3Aux fuel rest
    else c :: sub3Aux fuel rest

def sub3 (l : List Char) : List Char := sub3Aux l.length l

/-- re.sub(r'"\s*"', '","', ...). -/
def sub4Aux : Nat → List Char → List Char
  | 0, l => l
  | _ + 1, [] => []
  | fuel + 1, c :: rest =>
    if c = '"' then
      match rest.dropWhile isWsC with
      | b :: after =>
        if b = '"' then '"' :: ',' :: '"' :: sub4Aux fuel after
        else c :: sub4Aux fuel rest
      | [] => c :: sub4Aux fuel rest
    else c :: sub4Aux fuel rest

def sub4 (l : List Char) : List Char := sub4Aux l.length l

/-- The alternation (null|true|false|\d+) anchored at the head: the
matched token and the remainder after it. -/
def sub5Tok (l : List Char) : Option (List Char × List Char) :=
  if isPre ("null".data) l then some ("null".data, l.drop 4)
  else if isPre ("true".data) l then some ("true".data, l.drop 4)
  else if isPre ("false".data) l then some ("false".data, l.drop 5)
  else
    match l.takeWhile Char.isDigit with
    | [] => none
    | ds => some (ds, l.drop ds.length)

/-- re.sub(r'(null|true|false|\d+)\s*"', r'\1,"', ...). -/
def sub5Aux : Nat → List Char → List Char
  | 0, l => l
  | _ + 1, [] => []
  | fuel + 1, c :: rest =>
    match sub5Tok (c :: rest) with
    | some (tok, after1) =>
      match after1.dropWhile isWsC with
      | '"' :: after2 => tok ++ ',' :: '"' :: sub5Aux fuel after2
      | _ => c :: sub5Aux fuel rest
    | none => c :: sub5Aux fuel rest

def sub5 (l : List Char) : List Char := sub5Aux l.length l

/-- The five regex substitutions of repair_json, in source order. -/
def subsAll (t : List Char) : List Char := sub5 (sub4 (sub3 (sub2 (sub1 t))))

/-- repair_json after the strip/fence preamble (lines 41-100). -/
def repairCore (text : List Char) : List Char :=
  match findStrAux ['\x7b'] text 0 with
  | none => text
  | some start =>
    match scanGo 0 false false start (text.drop start) with
    | some e =>
      if start < e then subsAll ((text.drop start).take (e + 1 - start))
      else subsAll (closeUp (text.drop start))
    | none => subsAll (closeUp (text.drop start))

def repair_json (t : List Char) : List Char :=
  repairCore (stripJ (stripFenceEnd (stripFences (stripJ t))))

/-- JSON whitespace (the parser's set: space, tab, CR, LF). -/
def skipWsJ (l : List Char) : List Char := l.dropWhile Char.isWhitespace

def escDecode (c : Char) : Option Char :=
  if c = '"' then some '"' else if c = '\\' then some '\\'
  else if c = '/' then some '/' else if c = 'n' then some '\n'
  else if c = 't' then some '\t' else if c = 'r' then some '\r'
  else if c = 'b' then some (Char.ofNat 8) else if c = 'f' then some (Char.ofNat 12)
  else none

/-- String body after the opening quote: content and remainder after the
closing quote. -/
def parseStrBody : Nat → List Char → Option (List Char × List Char)
  | 0, _ => none
  | _ + 1, [] => none
  | fuel + 1, c :: rest =>
    if c = '"' then some ([], rest)
    else if c = '\\' then
      match rest with
      | [] => none
      | e :: rest2 =>
        match escDecode e with
        | some d =>
          match parseStrBody fuel rest2 with
          | some (s, r) => some (d :: s, r)
          | none => none
        | none => none
    else
      match parseStrBody fuel rest with
      | some (s, r) => some (c :: s, r)
      | none => none

def digitsVal (ds : List Char) : Nat := ds.foldl (fun a c => a * 10 + (c.toNat - 48)) 0

/-- Maximal digit run as a number token; a leading zero ends the token
after one character, as in Python's number grammar. -/
def parseNat (l : List Char) : Option (Nat × List Char) :=
  match l.takeWhile Char.isDigit with
  | [] => none
  | d :: ds =>
    if d = '0' && !ds.isEmpty then some (0, l.drop 1)
    else some (digitsVal (d :: ds), l.drop (d :: ds).length)

mutual
/-- Recursive-descent model of json.loads' value scanner. -/
def parseVal : Nat → List Char → Option (JVal × List Char)
  | 0, _ => none
  | fuel + 1, l =>
    match skipWsJ l with
    | [] => none
    | c :: rest =>
      if c = '\x7b' then
        match skipWsJ rest with
        | '\x7d' :: r => some (.jobj [], r)
        | l2 => parseMembers fuel l2 []
      else if c = '[' then
        match skipWsJ rest with
        | ']' :: r => some (.jarr [], r)
        | l2 => parseItems fuel l2 []
      else if c = '"' then
        match parseStrBody fuel rest with
        | some (s, r) => some (.jstr s, r)
        | none => none
      else if c = '-' then
        match parseNat rest with
        | some (n, r) => some (.jnum (-(n : Int)), r)
        | none => none
      else if c.isDigit then
        match parseNat (c :: rest) with
        | some (n, r) => some (.jnum (n : Int), r)
        | none => none
      else if isPre ("null".data) (c :: rest) then some (.jnull, (c :: rest).drop 4)
      else if isPre ("true".data) (c :: rest) then some (.jbool true, (c :: rest).drop 4)
      else if isPre ("false".data) (c :: rest) then some (.jbool false, (c :: rest).drop 5)
      else none

/-- Object members: `l` is positioned at a property name (whitespace
already skipped). -/
def parseMembers : Nat → List Char → List (List Char × JVal) → Option (JVal × List Char)
  | 0, _, _ => none
  | fuel + 1, l, acc =>
    match l with
    | '"' :: rest =>
      match parseStrBody fuel rest with
      | some (k, r1) =>
        match skipWsJ r1 with
        | ':' :: r2 =>
          match parseVal fuel r2 with
          | some (v, r3) =>
            match skipWsJ r3 with
            | ',' :: r4 => parseMembers fuel (skipWsJ r4) (acc ++ [(k, v)])
            | '\x7d' :: r4 => some (.jobj (acc ++ [(k, v)]), r4)
            | _ => none
          | none => none
        | _ => none
      | none => none
    | _ => none

/-- Array items: `l` is positioned at the first item. -/
def parseItems : Nat → List Char → List JVal → Option (JVal × List Char)
  | 0, _, _ => none
  | fuel + 1, l, acc =>
    match parseVal fuel l with
    | some (v, r1) =>
      match skipWsJ r1 with
      | ',' :: r2 => parseItems fuel r2 (acc ++ [v])
      | ']' :: r2 => some (.jarr (acc ++ [v]), r2)
      | _ => none
    | none => none
end

/-- json.loads: one value, then only whitespace may remain.  (The fuel
2*length+2 dominates the recursion depth: each nesting level consumes at
least one character and at most two fuel.) -/
def loads (l : List Char) : Option JVal :=
  match parseVal (2 * l.length + 2) l with
  | some (v, rest) => if (skipWsJ rest).isEmpty then some v else none
  | none => none

def JVal.isObjB : JVal → Bool
  | .jobj _ => true
  | _ => false

def findFrom (p : List Char) (l : List Char) (i0 : Nat) : Option Nat :=
  match findStrAux p (l.drop i0) 0 with
  | some j => some (i0 + j)
  | none => none

def strat3Start (text : List Char) (fi : Nat) : Nat :=
  match findStrAux ("```json".data) text 0 with
  | some j => j + 7
  | none => fi + 3

/-- safe_json_parse strategy 3: extract from a markdown code block. -/
def strat3 (text : List Char) : Option JVal :=
  match findStrAux ("```".data) text 0 with
  | none => none
  | some fi =>
    match findFrom ("```".data) text (strat3Start text fi) with
    | none => none
    | some je =>
      if strat3Start text fi < je then
        loads (repair_json (stripJ ((text.take je).drop (strat3Start text fi))))
      else none

/-- safe_json_parse strategy 4: progressively shorter substrings from the
first brace, keeping only dict results. -/
def tryS4 (text : List Char) (start : Nat) : Nat → Option JVal
  | 0 => none
  | n + 1 =>
    match loads (repair_json ((text.take (start + n + 1)).drop start)) with
    | some v => if v.isObjB then some v else tryS4 text start n
    | none => tryS4 text start n

/-- safe_json_parse (lines 103-163); `none` models the final raise. -/
def safe_json_parse (text : List Char) : Option JVal :=
  match loads text with
  | some v => some v
  | none =>
    match loads (repair_json text) with
    | some v => some v
    | none =>
      match strat3 text with
      | some v => some v
      | none =>
        match findStrAux ['\x7b'] text 0 with
        | some start => tryS4 text start (text.length - start)
        | none => none

/-- Characters allowed inside strings of the amended claim's class:
printable ASCII, no quote/backslash (so json.dumps emits them verbatim
and json.loads reads them back), no braces/brackets (so the count-based
closer reconstruction sees only structural brackets). -/
def goodChar (c : Char) : Bool :=
  32 ≤ c.toNat && c.toNat ≤ 126 &&
  !(c = '"' || c = '\\' || c = '\x7b' || c = '\x7d' || c = '[' || c = ']')

def goodStr (s : List Char) : Bool := s.all goodChar

mutual
/-- The serialized-object class of the amended C4 claim: all strings
(keys and values) over `goodChar`, keys of each object distinct (so the
list model agrees with Python's dict). -/
def goodV : JVal → Bool
  | .jnull => true
  | .jbool _ => true
  | .jnum _ => true
  | .jstr s => goodStr s
  | .jarr items => goodItems items
  | .jobj fs => decide ((fs.map Prod.fst).Nodup) && goodFields fs

def goodItems : List JVal → Bool
  | [] => true
  | x :: xs => goodV x && goodItems xs

def goodFields : List (List Char × JVal) → Bool
  | [] => true
  | kv :: fs => goodStr kv.1 && goodV kv.2 && goodFields fs
end

def isCloser (c : Char) : Bool := c = '\x7d' || c = ']'

/-- Head character is not a digit (so a preceding number token cannot
extend into the remainder). -/
def headND : List Char → Bool
  | [] => true
  | c :: _ => !c.isDigit

/-- Membership-based induction principle for the nested inductive `JVal`. -/
def JVal.inductionOn {motive : JVal → Prop}
    (h0 : motive .jnull) (h1 : ∀ b, motive (.jbool b)) (h2 : ∀ n, motive (.jnum n))
    (h3 : ∀ s, motive (.jstr s))
    (h4 : ∀ items, (∀ x ∈ items, motive x) → motive (.jarr items))
    (h5 : ∀ fs, (∀ kv ∈ fs, motive kv.2) → motive (.jobj fs)) :
    ∀ v, motive v
  | .jnull => h0
  | .jbool b => h1 b
  | .jnum n => h2 n
  | .jstr s => h3 s
  | .jarr items => h4 items (fun x hx => JVal.inductionOn h0 h1 h2 h3 h4 h5 x)
  | .jobj fs => h5 fs (fun kv hkv => JVal.inductionOn h0 h1 h2 h3 h4 h5 kv.2)
termination_by v => sizeOf v
decreasing_by
  · have := List.sizeOf_lt_of_mem hx
    simp only [JVal.jarr.sizeOf_spec]
    omega
  · have h1' := List.sizeOf_lt_of_mem hkv
    have h2' : sizeOf kv.2 < sizeOf kv := by
      obtain ⟨a, b⟩ := kv
      simp only [Prod.mk.sizeOf_spec]
      omega
    simp only [JVal.jobj.sizeOf_spec]
    omega

theorem goodItems_mem {items : List JVal} (h : goodItems items = true) :
    ∀ x ∈ items, goodV x = true := by
  induction items with
  | nil => intro x hx; exact absurd hx (List.not_mem_nil x)
  | cons a as ih =>
    simp only [goodItems, Bool.and_eq_true] at h
    intro x hx
    cases hx with
    | head => exact h.1
    | tail _ hx => exact ih h.2 x hx

theorem goodFields_mem {fs : List (List Char × JVal)} (h : goodFields fs = true) :
    ∀ kv ∈ fs, goodStr kv.1 = true ∧ goodV kv.2 = true := by
  induction fs with
  | nil => intro kv hkv; exact absurd hkv (List.not_mem_nil kv)
  | cons a as ih =>
    simp only [goodFields, Bool.and_eq_true] at h
    intro kv hkv
    cases hkv with
    | head => exact ⟨h.1.1, h.1.2⟩
    | tail _ hkv => exact ih h.2 kv hkv

theorem goodV_arr {items : List JVal} (h : goodV (.jarr items) = true) :
    ∀ x ∈ items, goodV x = true := by
  simp only [goodV] at h
  exact goodItems_mem h

theorem goodV_obj {fs : List (List Char × JVal)} (h : goodV (.jobj fs) = true) :
    ∀ kv ∈ fs, goodStr kv.1 = true ∧ goodV kv.2 = true := by
  simp only [goodV, Bool.and_eq_true] at h
  exact goodFields_mem h.2

theorem goodStr_mem {s : List Char} (h : goodStr s = true) : ∀ c ∈ s, goodChar c = true := by
  simpa [goodStr, List.all_eq_true] using h

theorem goodChar_ne (c : Char) (h : goodChar c = true) :
    c ≠ '"' ∧ c ≠ '\\' ∧ c ≠ '\x7b' ∧ c ≠ '\x7d' ∧ c ≠ '[' ∧ c ≠ ']' := by
  simp only [goodChar, Bool.and_eq_true, Bool.not_eq_true', Bool.or_eq_false_iff,
    decide_eq_false_iff_not] at h
  tauto

theorem escChar_good (c : Char) (h : goodChar c = true) : escChar c = [c] := by
  obtain ⟨h1, h2, -⟩ := goodChar_ne c h
  simp [escChar, h1, h2]

theorem escStr_good (s : List Char) (h : goodStr s = true) : escStr s = s := by
  induction s with
  | nil => rfl
  | cons c t ih =>
    have hc : goodChar c = true := goodStr_mem h c (List.mem_cons_self c t)
    have ht : goodStr t = true := by
      simp only [goodStr, List.all_cons, Bool.and_eq_true] at h
      exact h.2
    simp [escStr, List.map_cons, escChar_good c hc]
    simpa [escStr] using ih ht

/-! ### Decimal digits -/

theorem natToCharsAux_eq : ∀ fuel n acc, n < fuel →
    natToCharsAux fuel n acc = natToChars n ++ acc := by
  intro fuel
  induction fuel using Nat.strong_induction_on with
  | _ fuel ih =>
    intro n acc h
    match fuel, h with
    | fuel + 1, h =>
      by_cases h10 : n < 10
      · simp [natToCharsAux, natToChars, h10]
      · have hdiv : n / 10 < n := Nat.div_lt_self (by omega) (by omega)
        have e1 : natToCharsAux (fuel + 1) n acc
            = natToCharsAux fuel (n / 10) (Char.ofNat (48 + n % 10) :: acc) := by
          simp [natToCharsAux, h10]
        have e2 : natToChars n
            = natToChars (n / 10) ++ [Char.ofNat (48 + n % 10)] := by
          have e3 : natToCharsAux (n + 1) n []
              = natToCharsAux n (n / 10) [Char.ofNat (48 + n % 10)] := by
            simp [natToCharsAux, h10]
          rw [natToChars, e3, ih n (by omega) (n / 10) _ (by omega)]
        rw [e1, ih fuel (by omega) (n / 10) _ (by omega), e2]
        simp

theorem natToChars_unfold (n : Nat) :
    natToChars n = if n < 10 then [Char.ofNat (48 + n)]
      else natToChars (n / 10) ++ [Char.ofNat (48 + n % 10)] := by
  by_cases h10 : n < 10
  · simp [natToChars, natToCharsAux, h10]
  · have hdiv : n / 10 < n := Nat.div_lt_self (by omega) (by omega)
    simp only [natToChars, natToCharsAux, if_neg h10, h10, if_false]
    exact natToCharsAux_eq n (n / 10) _ (by omega)

theorem digitChar_props : ∀ k, k < 10 →
    (Char.ofNat (48 + k)).isDigit = true ∧ (Char.ofNat (48 + k)).isWhitespace = false ∧
    isWsC (Char.ofNat (48 + k)) = false ∧ (Char.ofNat (48 + k)).toNat = 48 + k := by
  intro k hk
  interval_cases k <;> exact ⟨by decide, by decide, by decide, by decide⟩

theorem natToChars_all_digits (n : Nat) : ∀ c ∈ natToChars n, c.isDigit = true := by
  induction n using Nat.strong_induction_on with
  | _ n ih =>
    rw [natToChars_unfold]
    by_cases h10 : n < 10
    · simp only [if_pos h10, List.mem_singleton]
      rintro c rfl
      exact (digitChar_props n h10).1
    · simp only [if_neg h10, List.mem_append, List.mem_singleton]
      intro c hc
      rcases hc with hc | rfl
      · exact ih (n / 10) (Nat.div_lt_self (by omega) (by omega)) c hc
      · exact (digitChar_props (n % 10) (Nat.mod_lt _ (by omega))).1

theorem natToChars_ne_nil (n : Nat) : natToChars n ≠ [] := by
  rw [natToChars_unfold]
  by_cases h10 : n < 10 <;> simp [h10]

theorem natToChars_head_ne_zero (n : Nat) (hn : n ≠ 0) :
    ∀ c t, natToChars n = c :: t → c ≠ '0' := by
  induction n using Nat.strong_induction_on with
  | _ n ih =>
    rw [natToChars_unfold]
    by_cases h10 : n < 10
    · simp only [if_pos h10, List.cons.injEq]
      rintro c t ⟨rfl, -⟩
      have : (Char.ofNat (48 + n)).toNat = 48 + n := (digitChar_props n h10).2.2.2
      intro h0
      rw [h0] at this
      simp at this
      omega
    · simp only [if_neg h10]
      intro c t heq
      have hne := natToChars_ne_nil (n / 10)
      obtain ⟨d, t', hd⟩ : ∃ d t', natToChars (n / 10) = d :: t' := by
        cases h : natToChars (n / 10) with
        | nil => exact absurd h hne
        | cons d t' => exact ⟨d, t', rfl⟩
      rw [hd] at heq
      simp only [List.cons_append, List.cons.injEq] at heq
      obtain ⟨rfl, -⟩ := heq
      exact ih (n / 10) (Nat.div_lt_self (by omega) (by omega)) (by omega) _ _ hd

theorem digitsVal_append_digit (a : List Char) (d : Char) :
    digitsVal (a ++ [d]) = 10 * digitsVal a + (d.toNat - 48) := by
  simp [digitsVal, List.foldl_append]
  omega

theorem takeWhile_append_all {p : Char → Bool} (a b : List Char)
    (ha : ∀ c ∈ a, p c = true) (hb : b.takeWhile p = []) :
    (a ++ b).takeWhile p = a := by
  induction a with
  | nil => simpa using hb
  | cons c t ih =>
    have hc : p c = true := ha c (List.mem_cons_self c t)
    simp only [List.cons_append, List.takeWhile_cons, hc, if_true]
    rw [ih (fun x hx => ha x (List.mem_cons_of_mem c hx))]

theorem headND_takeWhile {b : List Char} (h : headND b = true) :
    b.takeWhile Char.isDigit = [] := by
  cases b with
  | nil => rfl
  | cons c t =>
    simp only [headND, Bool.not_eq_true'] at h
    simp [List.takeWhile_cons, h]

theorem ws_char_cases (c : Char) (h : c.isWhitespace = true) :
    c = ' ' ∨ c = '\t' ∨ c = '\r' ∨ c = '\n' := by
  simp only [Char.isWhitespace, Bool.or_eq_true, beq_iff_eq, decide_eq_true_eq] at h
  tauto

theorem wsC_char_cases (c : Char) (h : isWsC c = true) :
    c = ' ' ∨ c = '\t' ∨ c = '\n' ∨ c = '\r' ∨ c = '\x0b' ∨ c = '\x0c' := by
  simp only [isWsC, Bool.or_eq_true, decide_eq_true_eq] at h
  tauto

theorem digit_not_ws (c : Char) (h : c.isDigit = true) :
    c.isWhitespace = false ∧ isWsC c = false := by
  constructor
  · by_contra hw
    rw [Bool.not_eq_false] at hw
    rcases ws_char_cases c hw with rfl | rfl | rfl | rfl <;> exact absurd h (by decide)
  · by_contra hw
    rw [Bool.not_eq_false] at hw
    rcases wsC_char_cases c hw with rfl | rfl | rfl | rfl | rfl | rfl <;>
      exact absurd h (by decide)

theorem digit_not_special (c : Char) (h : c.isDigit = true) :
    c ≠ '\x7b' ∧ c ≠ '\x7d' ∧ c ≠ '[' ∧ c ≠ ']' ∧ c ≠ '"' ∧ c ≠ '\\' ∧ c ≠ ',' ∧
    c ≠ ':' ∧ c ≠ '`' ∧ c ≠ '-' := by
  refine ⟨?_, ?_, ?_, ?_, ?_, ?_, ?_, ?_, ?_, ?_⟩ <;>
    (intro hc; rw [hc] at h; exact absurd h (by decide))

theorem digitsVal_natToChars (n : Nat) : digitsVal (natToChars n) = n := by
  induction n using Nat.strong_induction_on with
  | _ n ih =>
    rw [natToChars_unfold]
    by_cases h10 : n < 10
    · simp only [if_pos h10]
      have := (digitChar_props n h10).2.2.2
      simp [digitsVal, this]
    · simp only [if_neg h10]
      rw [digitsVal_append_digit, ih (n / 10) (Nat.div_lt_self (by omega) (by omega))]
      have := (digitChar_props (n % 10) (Nat.mod_lt _ (by omega))).2.2.2
      rw [this]
      omega

theorem parseNat_natToChars (n : Nat) (rest : List Char) (h : headND rest = true) :
    parseNat (natToChars n ++ rest) = some (n, rest) := by
  have ht : (natToChars n ++ rest).takeWhile Char.isDigit = natToChars n :=
    takeWhile_append_all _ _ (natToChars_all_digits n) (headND_takeWhile h)
  obtain ⟨d, ds, hshape⟩ : ∃ d ds, natToChars n = d :: ds := by
    cases hh : natToChars n with
    | nil => exact absurd hh (natToChars_ne_nil n)
    | cons d ds => exact ⟨d, ds, rfl⟩
  have hcond : (decide (d = '0') && !ds.isEmpty) = false := by
    by_cases hn : n = 0
    · subst hn
      have : natToChars 0 = ['0'] := rfl
      rw [this] at hshape
      obtain ⟨rfl, rfl⟩ : d = '0' ∧ ds = ([] : List Char) := by
        simpa using hshape.symm
      rfl
    · have hd0 : d ≠ '0' := natToChars_head_ne_zero n hn d ds hshape
      simp [hd0]
  rw [parseNat, ht, hshape]
  simp only [hcond, Bool.false_eq_true, if_false]
  rw [← hshape, digitsVal_natToChars, List.drop_left]

theorem parseStrBody_rt (s : List Char) (hs : ∀ c ∈ s, c ≠ '"' ∧ c ≠ '\\') :
    ∀ fuel rest, s.length < fuel → parseStrBody fuel (s ++ '"' :: rest) = some (s, rest) := by
  induction s with
  | nil =>
    intro fuel rest hf
    match fuel, hf with
    | fuel + 1, _ => simp [parseStrBody]
  | cons c t ih =>
    intro fuel rest hf
    match fuel, hf with
    | fuel + 1, hf =>
      have hc := hs c (List.mem_cons_self c t)
      simp only [List.cons_append, parseStrBody, if_neg hc.1, if_neg hc.2, List.append_eq]
      rw [ih (fun x hx => hs x (List.mem_cons_of_mem c hx)) fuel rest (by simp at hf; omega)]

/-! ### Whitespace skipping and value head shapes -/

theorem skipWsJ_nil : skipWsJ [] = [] := rfl

theorem skipWsJ_cons_nws {c : Char} (l : List Char) (h : c.isWhitespace = false) :
    skipWsJ (c :: l) = c :: l := by
  simp [skipWsJ, List.dropWhile_cons, h]

theorem skipWsJ_cons_ws {c : Char} (l : List Char) (h : c.isWhitespace = true) :
    skipWsJ (c :: l) = skipWsJ l := by
  simp [skipWsJ, List.dropWhile_cons, h]

/-- Characters that can start a serialized JSON value. -/
def isStart (c : Char) : Bool :=
  c = '\x7b' || c = '[' || c = '"' || c = '-' || c.isDigit || c = 'n' || c = 't' || c = 'f'

theorem isStart_props (c : Char) (h : isStart c = true) :
    c.isWhitespace = false ∧ isWsC c = false ∧ c ≠ ']' ∧ c ≠ '\x7d' ∧ c ≠ ',' ∧
    c ≠ ':' ∧ c ≠ '`' := by
  simp only [isStart, Bool.or_eq_true, decide_eq_true_eq] at h
  rcases h with ((((((rfl | rfl) | rfl) | rfl) | hd) | rfl) | rfl) | rfl
  · exact ⟨by decide, by decide, by decide, by decide, by decide, by decide, by decide⟩
  · exact ⟨by decide, by decide, by decide, by decide, by decide, by decide, by decide⟩
  · exact ⟨by decide, by decide, by decide, by decide, by decide, by decide, by decide⟩
  · exact ⟨by decide, by decide, by decide, by decide, by decide, by decide, by decide⟩
  · obtain ⟨h1, h2⟩ := digit_not_ws c hd
    obtain ⟨-, h4, -, h5, -, -, h6, h7, h8, -⟩ := digit_not_special c hd
    exact ⟨h1, h2, h5, h4, h6, h7, h8⟩
  · exact ⟨by decide, by decide, by decide, by decide, by decide, by decide, by decide⟩
  · exact ⟨by decide, by decide, by decide, by decide, by decide, by decide, by decide⟩
  · exact ⟨by decide, by decide, by decide, by decide, by decide, by decide, by decide⟩

theorem intToChars_shape (n : Int) : ∃ c t, intToChars n = c :: t ∧ isStart c = true := by
  cases n with
  | ofNat m =>
    obtain ⟨d, ds, hshape⟩ : ∃ d ds, natToChars m = d :: ds := by
      cases hh : natToChars m with
      | nil => exact absurd hh (natToChars_ne_nil m)
      | cons d ds => exact ⟨d, ds, rfl⟩
    have hd : d.isDigit = true := natToChars_all_digits m d (hshape ▸ List.mem_cons_self d ds)
    exact ⟨d, ds, hshape, by simp [isStart, hd]⟩
  | negSucc m => exact ⟨'-', natToChars (m + 1), rfl, by decide⟩

theorem dumps_shape (v : JVal) : ∃ c t, dumps v = c :: t ∧ isStart c = true := by
  cases v with
  | jnull => exact ⟨'n', ['u', 'l', 'l'], rfl, by decide⟩
  | jbool b => cases b with
    | true => exact ⟨'t', ['r', 'u', 'e'], rfl, by decide⟩
    | false => exact ⟨'f', ['a', 'l', 's', 'e'], rfl, by decide⟩
  | jnum n => exact intToChars_shape n
  | jstr s => exact ⟨'"', escStr s ++ ['"'], rfl, by decide⟩
  | jarr items => exact ⟨'[', dumpsItems items ++ [']'], rfl, by decide⟩
  | jobj fs => exact ⟨'\x7b', dumpsFields fs ++ ['\x7d'], rfl, by decide⟩

theorem dumps_ne_nil (v : JVal) : dumps v ≠ [] := by
  obtain ⟨c, t, heq, -⟩ := dumps_shape v
  simp [heq]

theorem skipWsJ_dumps (v : JVal) (rest : List Char) :
    skipWsJ (dumps v ++ rest) = dumps v ++ rest := by
  obtain ⟨c, t, heq, hst⟩ := dumps_shape v
  rw [heq, List.cons_append, skipWsJ_cons_nws _ (isStart_props c hst).1]

theorem dumpsFields_single (k : List Char) (v : JVal) :
    dumpsFields [(k, v)] = '"' :: (escStr k ++ '"' :: ':' :: ' ' :: dumps v) := by
  rfl

theorem dumpsFields_cons_cons (k : List Char) (v : JVal) (f : List Char × JVal)
    (rest : List (List Char × JVal)) :
    dumpsFields ((k, v) :: f :: rest)
      = ('"' :: (escStr k ++ '"' :: ':' :: ' ' :: dumps v)) ++ ',' :: ' ' :: dumpsFields (f :: rest) := by
  rfl

theorem dumpsItems_single (x : JVal) : dumpsItems [x] = dumps x := by
  rfl

theorem dumpsItems_cons_cons (x y : JVal) (rest : List JVal) :
    dumpsItems (x :: y :: rest) = dumps x ++ ',' :: ' ' :: dumpsItems (y :: rest) := by
  rfl

theorem dumps_obj (fs : List (List Char × JVal)) :
    dumps (.jobj fs) = '\x7b' :: (dumpsFields fs ++ ['\x7d']) := by
  rfl

theorem dumps_arr (items : List JVal) :
    dumps (.jarr items) = '[' :: (dumpsItems items ++ [']']) := by
  rfl

theorem dumps_str (s : List Char) : dumps (.jstr s) = '"' :: (escStr s ++ ['"']) := by
  rfl

theorem parseVal_cons_ws (fuel : Nat) {c : Char} (l : List Char) (h : c.isWhitespace = true) :
    parseVal fuel (c :: l) = parseVal fuel l := by
  cases fuel with
  | zero => rfl
  | succ f => simp only [parseVal, skipWsJ_cons_ws l h]

theorem dumpsFields_head (fs : List (List Char × JVal)) (hfs : fs ≠ []) :
    ∃ t, dumpsFields fs = '"' :: t := by
  match fs with
  | [(k, v)] => exact ⟨escStr k ++ '"' :: ':' :: ' ' :: dumps v, rfl⟩
  | (k, v) :: f :: rest =>
    exact ⟨(escStr k ++ '"' :: ':' :: ' ' :: dumps v) ++ ',' :: ' ' :: dumpsFields (f :: rest),
      by rw [dumpsFields_cons_cons]; rfl⟩

theorem dumpsItems_head (items : List JVal) (hi : items ≠ []) :
    ∃ c t, dumpsItems items = c :: t ∧ isStart c = true := by
  match items with
  | [x] => rw [dumpsItems_single]; exact dumps_shape x
  | x :: y :: rest =>
    rw [dumpsItems_cons_cons]
    obtain ⟨c, t, heq, hst⟩ := dumps_shape x
    exact ⟨c, t ++ ',' :: ' ' :: dumpsItems (y :: rest), by rw [heq]; rfl, hst⟩

/-! ### Round trip: the parser reads a serialized value back -/

/-- Round-trip property of a value: parsing its serialization (with any
non-digit-headed remainder appended) yields it back. -/
def RTp (v : JVal) : Prop :=
  ∀ rest fuel, headND rest = true → 2 * ((dumps v).length + rest.length) < fuel →
    parseVal fuel (dumps v ++ rest) = some (v, rest)

theorem parseItems_cons_ws (fuel : Nat) {c : Char} (l : List Char) (acc : List JVal)
    (h : c.isWhitespace = true) :
    parseItems fuel (c :: l) acc = parseItems fuel l acc := by
  cases fuel with
  | zero => rfl
  | succ f => simp only [parseItems, parseVal_cons_ws _ _ h]

theorem skipWsJ_colon (l : List Char) : skipWsJ (':' :: l) = ':' :: l :=
  skipWsJ_cons_nws l (by decide)

theorem skipWsJ_comma (l : List Char) : skipWsJ (',' :: l) = ',' :: l :=
  skipWsJ_cons_nws l (by decide)

theorem skipWsJ_rbrace (l : List Char) : skipWsJ ('\x7d' :: l) = '\x7d' :: l :=
  skipWsJ_cons_nws l (by decide)

theorem skipWsJ_rbrack (l : List Char) : skipWsJ (']' :: l) = ']' :: l :=
  skipWsJ_cons_nws l (by decide)

theorem skipWsJ_quote (l : List Char) : skipWsJ ('"' :: l) = '"' :: l :=
  skipWsJ_cons_nws l (by decide)

theorem skipWsJ_space (l : List Char) : skipWsJ (' ' :: l) = skipWsJ l :=
  skipWsJ_cons_ws l (by decide)

theorem parseVal_space (fuel : Nat) (l : List Char) :
    parseVal fuel (' ' :: l) = parseVal fuel l :=
  parseVal_cons_ws fuel l (by decide)

theorem parseItems_space (fuel : Nat) (l : List Char) (acc : List JVal) :
    parseItems fuel (' ' :: l) acc = parseItems fuel l acc :=
  parseItems_cons_ws fuel l acc (by decide)

theorem parseMembers_rt (fs : List (List Char × JVal)) :
    fs ≠ [] →
    (∀ kv ∈ fs, goodStr kv.1 = true ∧ goodV kv.2 = true) →
    (∀ kv ∈ fs, RTp kv.2) →
    ∀ acc rest fuel, 2 * ((dumpsFields fs).length + 1 + rest.length) + 1 < fuel →
      parseMembers fuel (dumpsFields fs ++ '\x7d' :: rest) acc
        = some (.jobj (acc ++ fs), rest) := by
  induction fs with
  | nil => intro h; exact absurd rfl h
  | cons kv fs' ih =>
    intro _ hgood hIH acc rest fuel hf
    obtain ⟨k, v⟩ := kv
    have hk : goodStr k = true := (hgood (k, v) (List.mem_cons_self _ _)).1
    have hv : goodV v = true := (hgood (k, v) (List.mem_cons_self _ _)).2
    have hrt : RTp v := hIH (k, v) (List.mem_cons_self _ _)
    have hesc : escStr k = k := escStr_good k hk
    have hkchars : ∀ c ∈ k, c ≠ '"' ∧ c ≠ '\\' := by
      intro c hc
      obtain ⟨h1, h2, -⟩ := goodChar_ne c (goodStr_mem hk c hc)
      exact ⟨h1, h2⟩
    cases fs' with
    | nil =>
      have hlen : (dumpsFields [(k, v)]).length = k.length + 4 + (dumps v).length := by
        rw [dumpsFields_single, hesc]
        simp
        omega
      match fuel, hf with
      | fuel + 1, hf =>
        rw [hlen] at hf
        have e : dumpsFields [(k, v)] ++ '\x7d' :: rest
            = '"' :: (k ++ '"' :: (':' :: ' ' :: (dumps v ++ '\x7d' :: rest))) := by
          rw [dumpsFields_single, hesc]
          simp
        rw [e]
        simp only [parseMembers]
        rw [parseStrBody_rt k hkchars fuel _ (by omega)]
        simp only [skipWsJ_colon, parseVal_space]
        rw [hrt ('\x7d' :: rest) fuel rfl (by simp; omega)]
        simp only [skipWsJ_rbrace]
    | cons f2 fs'' =>
      have hlen : (dumpsFields ((k, v) :: f2 :: fs'')).length
          = k.length + 4 + (dumps v).length + 2 + (dumpsFields (f2 :: fs'')).length := by
        rw [dumpsFields_cons_cons, hesc]
        simp
        omega
      match fuel, hf with
      | fuel + 1, hf =>
        rw [hlen] at hf
        have e : dumpsFields ((k, v) :: f2 :: fs'') ++ '\x7d' :: rest
            = '"' :: (k ++ '"' :: (':' :: ' ' ::
                (dumps v ++ ',' :: ' ' :: (dumpsFields (f2 :: fs'') ++ '\x7d' :: rest)))) := by
          rw [dumpsFields_cons_cons, hesc]
          simp
        rw [e]
        simp only [parseMembers]
        rw [parseStrBody_rt k hkchars fuel _ (by omega)]
        simp only [skipWsJ_colon, parseVal_space]
        rw [hrt (',' :: ' ' :: (dumpsFields (f2 :: fs'') ++ '\x7d' :: rest)) fuel rfl
          (by simp; omega)]
        simp only [skipWsJ_comma, skipWsJ_space]
        obtain ⟨t, ht⟩ := dumpsFields_head (f2 :: fs'') (by simp)
        rw [ht, List.cons_append, skipWsJ_quote, ← List.cons_append, ← ht]
        rw [ih (by simp) (fun x hx => hgood x (List.mem_cons_of_mem _ hx))
          (fun x hx => hIH x (List.mem_cons_of_mem _ hx)) (acc ++ [(k, v)]) rest fuel (by omega)]
        simp

theorem parseItems_rt (items : List JVal) :
    items ≠ [] →
    (∀ x ∈ items, goodV x = true) →
    (∀ x ∈ items, RTp x) →
    ∀ acc rest fuel, 2 * ((dumpsItems items).length + 1 + rest.length) + 1 < fuel →
      parseItems fuel (dumpsItems items ++ ']' :: rest) acc = some (.jarr (acc ++ items), rest) := by
  induction items with
  | nil => intro h; exact absurd rfl h
  | cons x xs ih =>
    intro _ hgood hIH acc rest fuel hf
    have hrt : RTp x := hIH x (List.mem_cons_self _ _)
    cases xs with
    | nil =>
      match fuel, hf with
      | fuel + 1, hf =>
        rw [dumpsItems_single] at hf ⊢
        simp only [parseItems]
        rw [hrt (']' :: rest) fuel rfl (by simp at hf ⊢; omega)]
        simp only [skipWsJ_rbrack]
    | cons y ys =>
      match fuel, hf with
      | fuel + 1, hf =>
        rw [dumpsItems_cons_cons] at hf ⊢
        have e : (dumps x ++ ',' :: ' ' :: dumpsItems (y :: ys)) ++ ']' :: rest
            = dumps x ++ ',' :: ' ' :: (dumpsItems (y :: ys) ++ ']' :: rest) := by
          simp
        rw [e]
        simp only [parseItems]
        rw [hrt (',' :: ' ' :: (dumpsItems (y :: ys) ++ ']' :: rest)) fuel rfl
          (by simp at hf ⊢; omega)]
        simp only [skipWsJ_comma, parseItems_space]
        have hxpos : 0 < (dumps x).length := List.length_pos.mpr (dumps_ne_nil x)
        rw [ih (by simp) (fun z hz => hgood z (List.mem_cons_of_mem _ hz))
          (fun z hz => hIH z (List.mem_cons_of_mem _ hz)) (acc ++ [x]) rest fuel
          (by simp at hf ⊢; omega)]
        simp

/-- Round trip: `parseVal` reads back any serialization of a value in the
good class, leaving the appended remainder untouched. -/
theorem parseVal_rt : ∀ v, goodV v = true → RTp v := by
  intro v
  induction v using JVal.inductionOn with
  | h0 =>
    intro _ rest fuel hnd hf
    cases fuel with
    | zero => exact absurd hf (Nat.not_lt_zero _)
    | succ f =>
      rw [show dumps JVal.jnull ++ rest = 'n' :: ('u' :: 'l' :: 'l' :: rest) from rfl]
      simp only [parseVal]
      rfl
  | h1 b =>
    intro _ rest fuel hnd hf
    cases fuel with
    | zero => exact absurd hf (Nat.not_lt_zero _)
    | succ f =>
      cases b with
      | true =>
        rw [show dumps (JVal.jbool true) ++ rest = 't' :: ('r' :: 'u' :: 'e' :: rest) from rfl]
        simp only [parseVal]
        rfl
      | false =>
        rw [show dumps (JVal.jbool false) ++ rest
          = 'f' :: ('a' :: 'l' :: 's' :: 'e' :: rest) from rfl]
        simp only [parseVal]
        rfl
  | h2 n =>
    intro _ rest fuel hnd hf
    cases fuel with
    | zero => exact absurd hf (Nat.not_lt_zero _)
    | succ f =>
      cases n with
      | ofNat m =>
        obtain ⟨d, ds, hshape⟩ : ∃ d ds, natToChars m = d :: ds := by
          cases hh : natToChars m with
          | nil => exact absurd hh (natToChars_ne_nil m)
          | cons d ds => exact ⟨d, ds, rfl⟩
        have hd : d.isDigit = true :=
          natToChars_all_digits m d (hshape ▸ List.mem_cons_self d ds)
        obtain ⟨hb1, -, hb3, -, hq, -, -, -, -, hm⟩ := digit_not_special d hd
        have e : dumps (JVal.jnum (Int.ofNat m)) ++ rest = d :: (ds ++ rest) := by
          show intToChars (Int.ofNat m) ++ rest = _
          rw [intToChars, hshape]
          rfl
        rw [e]
        simp only [parseVal]
        rw [skipWsJ_cons_nws _ (digit_not_ws d hd).1]
        simp only [hb1, hb3, hq, hm, hd, if_false, if_true, ite_false, ite_true]
        rw [show d :: (ds ++ rest) = natToChars m ++ rest by rw [hshape]; rfl]
        rw [parseNat_natToChars m rest hnd]
        rfl
      | negSucc m =>
        have e : dumps (JVal.jnum (Int.negSucc m)) ++ rest
            = '-' :: (natToChars (m + 1) ++ rest) := by
          show intToChars (Int.negSucc m) ++ rest = _
          rw [intToChars]
          rfl
        rw [e]
        simp only [parseVal]
        rw [skipWsJ_cons_nws _ (by decide)]
        simp only [show (('-' : Char) = '\x7b') = False from by simp,
          show (('-' : Char) = '[') = False from by simp,
          show (('-' : Char) = '"') = False from by simp,
          show (('-' : Char) = '-') = True from by simp, if_false, if_true]
        rw [parseNat_natToChars (m + 1) rest hnd]
        show some (JVal.jnum (-((m + 1 : Nat) : Int)), rest) = some (JVal.jnum (Int.negSucc m), rest)
        rw [show (-((m + 1 : Nat) : Int)) = Int.negSucc m from by simp [Int.negSucc_eq]]
  | h3 s =>
    intro hg rest fuel hnd hf
    have hesc : escStr s = s := escStr_good s (by simpa [goodV] using hg)
    have hchars : ∀ c ∈ s, c ≠ '"' ∧ c ≠ '\\' := by
      intro c hc
      obtain ⟨h1, h2, -⟩ := goodChar_ne c (goodStr_mem (by simpa [goodV] using hg) c hc)
      exact ⟨h1, h2⟩
    cases fuel with
    | zero => exact absurd hf (Nat.not_lt_zero _)
    | succ f =>
      rw [dumps_str, hesc] at hf
      simp only [List.length_cons, List.length_append, List.length_singleton] at hf
      have e : dumps (JVal.jstr s) ++ rest = '"' :: (s ++ '"' :: rest) := by
        rw [dumps_str, hesc]
        simp
      rw [e]
      simp only [parseVal, skipWsJ_quote,
        show (('"' : Char) = '\x7b') = False from by simp,
        show (('"' : Char) = '[') = False from by simp,
        eq_self_iff_true, if_true, if_false]
      rw [parseStrBody_rt s hchars f rest (by omega)]
  | h4 items ihm =>
    intro hg rest fuel hnd hf
    have hgi : ∀ x ∈ items, goodV x = true := goodV_arr hg
    cases fuel with
    | zero => exact absurd hf (Nat.not_lt_zero _)
    | succ f =>
      rw [dumps_arr] at hf
      simp only [List.length_cons, List.length_append, List.length_singleton] at hf
      have e : dumps (JVal.jarr items) ++ rest = '[' :: (dumpsItems items ++ ']' :: rest) := by
        rw [dumps_arr]
        simp
      rw [e]
      simp only [parseVal,
        skipWsJ_cons_nws (dumpsItems items ++ ']' :: rest)
          (show ('[' : Char).isWhitespace = false from by decide),
        show (('[' : Char) = '\x7b') = False from by simp,
        eq_self_iff_true, if_true, if_false]
      cases items with
      | nil =>
        rw [show dumpsItems [] ++ ']' :: rest = ']' :: rest from rfl, skipWsJ_rbrack]
        rfl
      | cons x xs =>
        obtain ⟨c, t, hct, hst⟩ := dumpsItems_head (x :: xs) (by simp)
        have hskip : skipWsJ (dumpsItems (x :: xs) ++ ']' :: rest)
            = dumpsItems (x :: xs) ++ ']' :: rest := by
          rw [hct, List.cons_append]
          exact skipWsJ_cons_nws _ (isStart_props c hst).1
        rw [hskip]
        split
        next r heq =>
          rw [hct, List.cons_append] at heq
          have : c = ']' := by
            have := List.head_eq_of_cons_eq heq
            exact this
          exact absurd this (isStart_props c hst).2.2.1
        next =>
          rw [parseItems_rt (x :: xs) (by simp) hgi
            (fun z hz => ihm z hz (hgi z hz)) [] rest f (by simp at hf ⊢; omega)]
          simp
  | h5 fs ihm =>
    intro hg rest fuel hnd hf
    have hgf : ∀ kv ∈ fs, goodStr kv.1 = true ∧ goodV kv.2 = true := goodV_obj hg
    cases fuel with
    | zero => exact absurd hf (Nat.not_lt_zero _)
    | succ f =>
      rw [dumps_obj] at hf
      simp only [List.length_cons, List.length_append, List.length_singleton] at hf
      have e : dumps (JVal.jobj fs) ++ rest = '\x7b' :: (dumpsFields fs ++ '\x7d' :: rest) := by
        rw [dumps_obj]
        simp
      rw [e]
      simp only [parseVal,
        skipWsJ_cons_nws (dumpsFields fs ++ '\x7d' :: rest)
          (show ('\x7b' : Char).isWhitespace = false from by decide),
        eq_self_iff_true, if_true]
      cases fs with
      | nil =>
        rw [show dumpsFields [] ++ '\x7d' :: rest = '\x7d' :: rest from rfl, skipWsJ_rbrace]
        rfl
      | cons kv fs' =>
        obtain ⟨t, hct⟩ := dumpsFields_head (kv :: fs') (by simp)
        have hskip : skipWsJ (dumpsFields (kv :: fs') ++ '\x7d' :: rest)
            = dumpsFields (kv :: fs') ++ '\x7d' :: rest := by
          rw [hct, List.cons_append]
          exact skipWsJ_quote _
        rw [hskip]
        split
        next r heq =>
          rw [hct, List.cons_append] at heq
          have hcq : ('"' : Char) = '\x7d' := List.head_eq_of_cons_eq heq
          exact absurd hcq (by decide)
        next =>
          rw [parseMembers_rt (kv :: fs') (by simp) hgf
            (fun z hz => ihm z hz (hgf z hz).2) [] rest f (by simp at hf ⊢; omega)]
          simp

/-- json.loads reads back the serialization of any value in the class. -/
theorem loads_dumps (v : JVal) (hg : goodV v = true) : loads (dumps v) = some v := by
  have h := parseVal_rt v hg [] (2 * (dumps v).length + 2) rfl (by simp)
  rw [List.append_nil] at h
  simp only [loads, h]
  rfl

/-! ### The parser rejects serializations with a trailing closer removed -/

theorem parseVal_nil_none (fuel : Nat) : parseVal fuel [] = none := by
  cases fuel with
  | zero => rfl
  | succ f =>
    simp only [parseVal]
    rfl

theorem parseMembers_nil_none (fuel : Nat) (acc : List (List Char × JVal)) :
    parseMembers fuel [] acc = none := by
  cases fuel with
  | zero => rfl
  | succ f =>
    simp only [parseMembers]

theorem parseItems_nil_none (fuel : Nat) (acc : List JVal) :
    parseItems fuel [] acc = none := by
  cases fuel with
  | zero => rfl
  | succ f =>
    simp only [parseItems, parseVal_nil_none]

/-- Object members with the closing brace missing entirely: the parser
hits end of input after the last member and fails. -/
theorem parseMembers_eof (fs : List (List Char × JVal)) :
    fs ≠ [] →
    (∀ kv ∈ fs, goodStr kv.1 = true ∧ goodV kv.2 = true) →
    ∀ acc fuel, 2 * (dumpsFields fs).length + 1 < fuel →
      parseMembers fuel (dumpsFields fs) acc = none := by
  induction fs with
  | nil => intro h; exact absurd rfl h
  | cons kv fs' ih =>
    intro _ hgood acc fuel hf
    obtain ⟨k, v⟩ := kv
    have hk : goodStr k = true := (hgood (k, v) (List.mem_cons_self _ _)).1
    have hv : goodV v = true := (hgood (k, v) (List.mem_cons_self _ _)).2
    have hesc : escStr k = k := escStr_good k hk
    have hkchars : ∀ c ∈ k, c ≠ '"' ∧ c ≠ '\\' := by
      intro c hc
      obtain ⟨h1, h2, -⟩ := goodChar_ne c (goodStr_mem hk c hc)
      exact ⟨h1, h2⟩
    have hvpos : 0 < (dumps v).length := List.length_pos.mpr (dumps_ne_nil v)
    cases fs' with
    | nil =>
      have hlen : (dumpsFields [(k, v)]).length = k.length + 4 + (dumps v).length := by
        rw [dumpsFields_single, hesc]
        simp
        omega
      match fuel, hf with
      | fuel + 1, hf =>
        rw [hlen] at hf
        have e : dumpsFields [(k, v)] = '"' :: (k ++ '"' :: (':' :: ' ' :: dumps v)) := by
          rw [dumpsFields_single, hesc]
        rw [e]
        simp only [parseMembers]
        rw [parseStrBody_rt k hkchars fuel _ (by omega)]
        simp only [skipWsJ_colon, parseVal_space]
        rw [show dumps v = dumps v ++ ([] : List Char) from (List.append_nil _).symm]
        rw [parseVal_rt v hv [] fuel rfl (by simp; omega)]
        rfl
    | cons f2 fs'' =>
      have hlen : (dumpsFields ((k, v) :: f2 :: fs'')).length
          = k.length + 4 + (dumps v).length + 2 + (dumpsFields (f2 :: fs'')).length := by
        rw [dumpsFields_cons_cons, hesc]
        simp
        omega
      match fuel, hf with
      | fuel + 1, hf =>
        rw [hlen] at hf
        have e : dumpsFields ((k, v) :: f2 :: fs'')
            = '"' :: (k ++ '"' :: (':' :: ' ' ::
                (dumps v ++ ',' :: ' ' :: dumpsFields (f2 :: fs'')))) := by
          rw [dumpsFields_cons_cons, hesc]
          simp
        rw [e]
        simp only [parseMembers]
        rw [parseStrBody_rt k hkchars fuel _ (by omega)]
        simp only [skipWsJ_colon, parseVal_space]
        rw [parseVal_rt v hv (',' :: ' ' :: dumpsFields (f2 :: fs'')) fuel rfl (by simp; omega)]
        simp only [skipWsJ_comma, skipWsJ_space]
        obtain ⟨t, ht⟩ := dumpsFields_head (f2 :: fs'') (by simp)
        rw [ht, skipWsJ_quote, ← ht]
        exact ih (by simp) (fun x hx => hgood x (List.mem_cons_of_mem _ hx))
          (acc ++ [(k, v)]) fuel (by omega)

/-- Array items with the closing bracket missing entirely. -/
theorem parseItems_eof (items : List JVal) :
    items ≠ [] →
    (∀ x ∈ items, goodV x = true) →
    ∀ acc fuel, 2 * (dumpsItems items).length + 2 < fuel →
      parseItems fuel (dumpsItems items) acc = none := by
  induction items with
  | nil => intro h; exact absurd rfl h
  | cons x xs ih =>
    intro _ hgood acc fuel hf
    have hx : goodV x = true := hgood x (List.mem_cons_self _ _)
    cases xs with
    | nil =>
      match fuel, hf with
      | fuel + 1, hf =>
        rw [dumpsItems_single] at hf ⊢
        simp only [parseItems]
        rw [show dumps x = dumps x ++ ([] : List Char) from (List.append_nil _).symm]
        rw [parseVal_rt x hx [] fuel rfl (by simp; omega)]
        rfl
    | cons y ys =>
      match fuel, hf with
      | fuel + 1, hf =>
        rw [dumpsItems_cons_cons] at hf ⊢
        simp only [parseItems]
        rw [parseVal_rt x hx (',' :: ' ' :: dumpsItems (y :: ys)) fuel rfl
          (by simp at hf ⊢; omega)]
        simp only [skipWsJ_comma, parseItems_space]
        exact ih (by simp) (fun z hz => hgood z (List.mem_cons_of_mem _ hz))
          (acc ++ [x]) fuel (by simp at hf ⊢; omega)

/-- A container value with its final closer removed does not parse. -/
theorem parseVal_trunc_cont (v : JVal) (hg : goodV v = true)
    (hcont : (∃ its, v = .jarr its) ∨ (∃ gs, v = .jobj gs)) :
    ∀ fuel, 2 * (dumps v).length ≤ fuel → parseVal fuel ((dumps v).dropLast) = none := by
  rcases hcont with ⟨its, rfl⟩ | ⟨gs, rfl⟩
  · intro fuel hf
    have e : (dumps (JVal.jarr its)).dropLast = '[' :: dumpsItems its := by
      rw [dumps_arr,
        show '[' :: (dumpsItems its ++ [']']) = ('[' :: dumpsItems its) ++ [']'] from by simp,
        List.dropLast_concat]
    rw [e]
    rw [dumps_arr] at hf
    simp only [List.length_cons, List.length_append, List.length_singleton] at hf
    match fuel, hf with
    | fuel + 1, hf =>
      simp only [parseVal,
        skipWsJ_cons_nws (dumpsItems its) (show ('[' : Char).isWhitespace = false from by decide),
        show (('[' : Char) = '\x7b') = False from by simp,
        eq_self_iff_true, if_true, if_false]
      cases its with
      | nil =>
        rw [show dumpsItems ([] : List JVal) = [] from rfl, skipWsJ_nil]
        show parseItems fuel [] [] = none
        exact parseItems_nil_none fuel []
      | cons x xs =>
        obtain ⟨c, t, hct, hst⟩ := dumpsItems_head (x :: xs) (by simp)
        have hskip : skipWsJ (dumpsItems (x :: xs)) = dumpsItems (x :: xs) := by
          rw [hct]
          exact skipWsJ_cons_nws _ (isStart_props c hst).1
        rw [hskip]
        split
        next r heq =>
          rw [hct] at heq
          exact absurd (List.head_eq_of_cons_eq heq) (isStart_props c hst).2.2.1
        next =>
          exact parseItems_eof (x :: xs) (by simp) (goodV_arr hg) [] fuel (by omega)
  · intro fuel hf
    have e : (dumps (JVal.jobj gs)).dropLast = '\x7b' :: dumpsFields gs := by
      rw [dumps_obj,
        show '\x7b' :: (dumpsFields gs ++ ['\x7d'])
          = ('\x7b' :: dumpsFields gs) ++ ['\x7d'] from by simp,
        List.dropLast_concat]
    rw [e]
    rw [dumps_obj] at hf
    simp only [List.length_cons, List.length_append, List.length_singleton] at hf
    match fuel, hf with
    | fuel + 1, hf =>
      simp only [parseVal,
        skipWsJ_cons_nws (dumpsFields gs) (show ('\x7b' : Char).isWhitespace = false from by decide),
        eq_self_iff_true, if_true]
      cases gs with
      | nil =>
        rw [show dumpsFields ([] : List (List Char × JVal)) = [] from rfl, skipWsJ_nil]
        show parseMembers fuel [] [] = none
        exact parseMembers_nil_none fuel []
      | cons kv fs' =>
        obtain ⟨t, hct⟩ := dumpsFields_head (kv :: fs') (by simp)
        have hskip : skipWsJ (dumpsFields (kv :: fs')) = dumpsFields (kv :: fs') := by
          rw [hct]
          exact skipWsJ_quote _
        rw [hskip]
        split
        next r heq =>
          rw [hct] at heq
          have : ('"' : Char) = '\x7d' := List.head_eq_of_cons_eq heq
          exact absurd this (by decide)
        next =>
          exact parseMembers_eof (kv :: fs') (by simp) (goodV_obj hg) [] fuel (by omega)

theorem dumpsFields_length_ge5 (fs : List (List Char × JVal)) (hfs : fs ≠ []) :
    5 ≤ (dumpsFields fs).length := by
  match fs with
  | [(k, v)] =>
    have := List.length_pos.mpr (dumps_ne_nil v)
    rw [dumpsFields_single]
    simp
    omega
  | (k, v) :: f2 :: rest =>
    have := List.length_pos.mpr (dumps_ne_nil v)
    rw [dumpsFields_cons_cons]
    simp
    omega

/-- Object members where the last member's value is a container missing
its final closer: the member walk fails at that value. -/
theorem parseMembers_trunc (fs : List (List Char × JVal)) :
    fs ≠ [] →
    (∀ kv ∈ fs, goodStr kv.1 = true ∧ goodV kv.2 = true) →
    (∀ kv, fs.getLast? = some kv →
      (∃ its, kv.2 = .jarr its) ∨ (∃ gs, kv.2 = .jobj gs)) →
    ∀ acc fuel, 2 * ((dumpsFields fs).dropLast).length + 1 < fuel →
      parseMembers fuel ((dumpsFields fs).dropLast) acc = none := by
  induction fs with
  | nil => intro h; exact absurd rfl h
  | cons kv fs' ih =>
    intro _ hgood hlast acc fuel hf
    obtain ⟨k, v⟩ := kv
    have hk : goodStr k = true := (hgood (k, v) (List.mem_cons_self _ _)).1
    have hv : goodV v = true := (hgood (k, v) (List.mem_cons_self _ _)).2
    have hesc : escStr k = k := escStr_good k hk
    have hkchars : ∀ c ∈ k, c ≠ '"' ∧ c ≠ '\\' := by
      intro c hc
      obtain ⟨h1, h2, -⟩ := goodChar_ne c (goodStr_mem hk c hc)
      exact ⟨h1, h2⟩
    have hvpos : 0 < (dumps v).length := List.length_pos.mpr (dumps_ne_nil v)
    have hdl : ((dumps v).dropLast).length = (dumps v).length - 1 := by
      simp [List.length_dropLast]
    cases fs' with
    | nil =>
      have hcont := hlast (k, v) rfl
      have e : (dumpsFields [(k, v)]).dropLast
          = '"' :: (k ++ '"' :: (':' :: ' ' :: (dumps v).dropLast)) := by
        rw [dumpsFields_single, hesc]
        rw [show ('"' :: (k ++ '"' :: ':' :: ' ' :: dumps v))
          = (('"' :: k) ++ ['"', ':', ' ']) ++ dumps v from by simp]
        rw [List.dropLast_append_of_ne_nil _ (dumps_ne_nil v)]
        simp
      rw [e] at hf ⊢
      match fuel, hf with
      | fuel + 1, hf =>
        simp only [parseMembers]
        rw [parseStrBody_rt k hkchars fuel _ (by simp at hf; omega)]
        simp only [skipWsJ_colon, parseVal_space]
        rw [parseVal_trunc_cont v hv hcont fuel (by simp [hdl] at hf ⊢; omega)]
    | cons f2 fs'' =>
      have hne' : dumpsFields (f2 :: fs'') ≠ [] := by
        obtain ⟨t, ht⟩ := dumpsFields_head (f2 :: fs'') (by simp)
        simp [ht]
      have hlast' : ∀ kv2, (f2 :: fs'').getLast? = some kv2 →
          (∃ its, kv2.2 = .jarr its) ∨ (∃ gs, kv2.2 = .jobj gs) := by
        intro kv2 h2
        exact hlast kv2 (by rw [List.getLast?_cons_cons]; exact h2)
      have e : (dumpsFields ((k, v) :: f2 :: fs'')).dropLast
          = '"' :: (k ++ '"' :: (':' :: ' ' ::
              (dumps v ++ ',' :: ' ' :: (dumpsFields (f2 :: fs'')).dropLast))) := by
        rw [dumpsFields_cons_cons, hesc]
        rw [show ('"' :: (k ++ '"' :: ':' :: ' ' :: dumps v)) ++ ',' :: ' ' :: dumpsFields (f2 :: fs'')
          = (('"' :: (k ++ '"' :: ':' :: ' ' :: dumps v)) ++ [',', ' ']) ++ dumpsFields (f2 :: fs'')
          from by simp]
        rw [List.dropLast_append_of_ne_nil _ hne']
        simp
      rw [e] at hf ⊢
      match fuel, hf with
      | fuel + 1, hf =>
        simp only [parseMembers]
        rw [parseStrBody_rt k hkchars fuel _ (by simp at hf; omega)]
        simp only [skipWsJ_colon, parseVal_space]
        rw [parseVal_rt v hv (',' :: ' ' :: (dumpsFields (f2 :: fs'')).dropLast) fuel rfl
          (by simp at hf ⊢; omega)]
        simp only [skipWsJ_comma, skipWsJ_space]
        obtain ⟨t, ht⟩ := dumpsFields_head (f2 :: fs'') (by simp)
        have htne : t ≠ [] := by
          have h5 := dumpsFields_length_ge5 (f2 :: fs'') (by simp)
          rw [ht] at h5
          intro h0
          rw [h0] at h5
          simp at h5
        rw [ht, List.dropLast_cons_of_ne_nil htne, skipWsJ_quote,
          ← List.dropLast_cons_of_ne_nil htne, ← ht]
        exact ih (by simp) (fun x hx => hgood x (List.mem_cons_of_mem _ hx)) hlast'
          (acc ++ [(k, v)]) fuel (by simp at hf ⊢; omega)

/-! ### The last character of a serialization -/

theorem dumps_getLast_props (v : JVal) :
    ∀ c, (dumps v).getLast? = some c →
      isWsC c = false ∧ c ≠ '`' ∧
        ((c = '\x7d' ∨ c = ']') → (∃ its, v = .jarr its) ∨ (∃ gs, v = .jobj gs)) := by
  cases v with
  | jnull =>
    intro c hc
    rw [show (dumps JVal.jnull).getLast? = some 'l' from rfl] at hc
    obtain rfl : 'l' = c := by simpa using hc
    exact ⟨by decide, by decide, by rintro (h | h) <;> exact absurd h (by decide)⟩
  | jbool b =>
    intro c hc
    cases b with
    | true =>
      rw [show (dumps (JVal.jbool true)).getLast? = some 'e' from rfl] at hc
      obtain rfl : 'e' = c := by simpa using hc
      exact ⟨by decide, by decide, by rintro (h | h) <;> exact absurd h (by decide)⟩
    | false =>
      rw [show (dumps (JVal.jbool false)).getLast? = some 'e' from rfl] at hc
      obtain rfl : 'e' = c := by simpa using hc
      exact ⟨by decide, by decide, by rintro (h | h) <;> exact absurd h (by decide)⟩
  | jnum n =>
    intro c hc
    have hd : c.isDigit = true := by
      cases n with
      | ofNat m =>
        rw [show dumps (JVal.jnum (Int.ofNat m)) = natToChars m from rfl] at hc
        exact natToChars_all_digits m c (List.mem_of_mem_getLast? hc)
      | negSucc m =>
        rw [show dumps (JVal.jnum (Int.negSucc m)) = ['-'] ++ natToChars (m + 1) from rfl,
          List.getLast?_append_of_ne_nil _ (natToChars_ne_nil (m + 1))] at hc
        exact natToChars_all_digits (m + 1) c (List.mem_of_mem_getLast? hc)
    obtain ⟨-, h2⟩ := digit_not_ws c hd
    obtain ⟨-, hb2, -, hb4, -, -, -, -, hbt, -⟩ := digit_not_special c hd
    refine ⟨h2, hbt, ?_⟩
    rintro (rfl | rfl)
    · exact absurd rfl hb2
    · exact absurd rfl hb4
  | jstr s =>
    intro c hc
    rw [dumps_str,
      show '"' :: (escStr s ++ ['"']) = ('"' :: escStr s) ++ ['"'] from by simp,
      List.getLast?_append_of_ne_nil _ (by simp)] at hc
    obtain rfl : '"' = c := by simpa using hc
    exact ⟨by decide, by decide, by rintro (h | h) <;> exact absurd h (by decide)⟩
  | jarr its =>
    intro c hc
    rw [dumps_arr,
      show '[' :: (dumpsItems its ++ [']']) = ('[' :: dumpsItems its) ++ [']'] from by simp,
      List.getLast?_append_of_ne_nil _ (by simp)] at hc
    obtain rfl : ']' = c := by simpa using hc
    exact ⟨by decide, by decide, fun _ => Or.inl ⟨its, rfl⟩⟩
  | jobj gs =>
    intro c hc
    rw [dumps_obj,
      show '\x7b' :: (dumpsFields gs ++ ['\x7d']) = ('\x7b' :: dumpsFields gs) ++ ['\x7d']
        from by simp,
      List.getLast?_append_of_ne_nil _ (by simp)] at hc
    obtain rfl : '\x7d' = c := by simpa using hc
    exact ⟨by decide, by decide, fun _ => Or.inr ⟨gs, rfl⟩⟩

theorem dumpsFields_getLast (fs : List (List Char × JVal)) : fs ≠ [] →
    ∃ kv, fs.getLast? = some kv ∧ (dumpsFields fs).getLast? = (dumps kv.2).getLast? := by
  induction fs with
  | nil => intro h; exact absurd rfl h
  | cons kv fs' ih =>
    intro _
    obtain ⟨k, v⟩ := kv
    cases fs' with
    | nil =>
      refine ⟨(k, v), rfl, ?_⟩
      rw [dumpsFields_single]
      rw [show '"' :: (escStr k ++ '"' :: ':' :: ' ' :: dumps v)
        = ('"' :: (escStr k ++ ['"', ':', ' '])) ++ dumps v from by simp]
      exact List.getLast?_append_of_ne_nil _ (dumps_ne_nil v)
    | cons f2 fs'' =>
      obtain ⟨kv2, h1, h2⟩ := ih (by simp)
      have hne' : dumpsFields (f2 :: fs'') ≠ [] := by
        obtain ⟨t, ht⟩ := dumpsFields_head (f2 :: fs'') (by simp)
        simp [ht]
      refine ⟨kv2, by rw [List.getLast?_cons_cons]; exact h1, ?_⟩
      rw [dumpsFields_cons_cons]
      rw [show ('"' :: (escStr k ++ '"' :: ':' :: ' ' :: dumps v)) ++ ',' :: ' ' :: dumpsFields (f2 :: fs'')
        = (('"' :: (escStr k ++ '"' :: ':' :: ' ' :: dumps v)) ++ [',', ' ']) ++ dumpsFields (f2 :: fs'')
        from by simp]
      rw [List.getLast?_append_of_ne_nil _ hne']
      exact h2

theorem dumpsItems_getLast (items : List JVal) : items ≠ [] →
    ∃ x, items.getLast? = some x ∧ (dumpsItems items).getLast? = (dumps x).getLast? := by
  induction items with
  | nil => intro h; exact absurd rfl h
  | cons x xs ih =>
    intro _
    cases xs with
    | nil => exact ⟨x, rfl, by rw [dumpsItems_single]⟩
    | cons y ys =>
      obtain ⟨x2, h1, h2⟩ := ih (by simp)
      have hne' : dumpsItems (y :: ys) ≠ [] := by
        obtain ⟨c, t, ht, -⟩ := dumpsItems_head (y :: ys) (by simp)
        simp [ht]
      refine ⟨x2, by rw [List.getLast?_cons_cons]; exact h1, ?_⟩
      rw [dumpsItems_cons_cons]
      rw [show dumps x ++ ',' :: ' ' :: dumpsItems (y :: ys)
        = (dumps x ++ [',', ' ']) ++ dumpsItems (y :: ys) from by simp]
      rw [List.getLast?_append_of_ne_nil _ hne']
      exact h2

/-! ### json.loads fails on the truncations -/

/-- One trailing closer removed from a serialized object: loads fails. -/
theorem loads_trunc1 (fs : List (List Char × JVal)) (hg : goodV (.jobj fs) = true) :
    loads ((dumps (.jobj fs)).dropLast) = none := by
  have hnone := parseVal_trunc_cont (.jobj fs) hg (Or.inr ⟨fs, rfl⟩)
    (2 * ((dumps (.jobj fs)).dropLast).length + 2)
    (by simp [List.length_dropLast]; omega)
  simp only [loads, hnone]

/-- Two trailing closers removed, the inner one being the closer of the
last member's container value: loads fails. -/
theorem loads_trunc2 (fs : List (List Char × JVal)) (hg : goodV (.jobj fs) = true)
    (hfs : fs ≠ [])
    (hlast : ∀ kv, fs.getLast? = some kv →
      (∃ its, kv.2 = .jarr its) ∨ (∃ gs, kv.2 = .jobj gs)) :
    loads (((dumps (.jobj fs)).dropLast).dropLast) = none := by
  obtain ⟨t, ht⟩ := dumpsFields_head fs hfs
  have hFne : dumpsFields fs ≠ [] := by simp [ht]
  have htne : t ≠ [] := by
    have h5 := dumpsFields_length_ge5 fs hfs
    rw [ht] at h5
    intro h0
    rw [h0] at h5
    simp at h5
  have e : ((dumps (.jobj fs)).dropLast).dropLast = '\x7b' :: (dumpsFields fs).dropLast := by
    rw [dumps_obj,
      show '\x7b' :: (dumpsFields fs ++ ['\x7d']) = ('\x7b' :: dumpsFields fs) ++ ['\x7d']
        from by simp,
      List.dropLast_concat]
    exact List.dropLast_cons_of_ne_nil hFne
  have hdshape : (dumpsFields fs).dropLast = '"' :: t.dropLast := by
    rw [ht, List.dropLast_cons_of_ne_nil htne]
  have hpv : parseVal (2 * ('\x7b' :: (dumpsFields fs).dropLast).length + 2)
      ('\x7b' :: (dumpsFields fs).dropLast) = none := by
    rw [show 2 * ('\x7b' :: (dumpsFields fs).dropLast).length + 2
      = (2 * ('\x7b' :: (dumpsFields fs).dropLast).length + 1) + 1 from rfl]
    simp only [parseVal,
      skipWsJ_cons_nws ((dumpsFields fs).dropLast)
        (show ('\x7b' : Char).isWhitespace = false from by decide),
      eq_self_iff_true, if_true]
    rw [hdshape, skipWsJ_quote, ← hdshape]
    split
    next r heq =>
      rw [hdshape] at heq
      have : ('"' : Char) = '\x7d' := List.head_eq_of_cons_eq heq
      exact absurd this (by decide)
    next =>
      rw [parseMembers_trunc fs hfs (goodV_obj hg) hlast []
        (2 * ('\x7b' :: (dumpsFields fs).dropLast).length + 1) (by simp)]
  rw [e]
  simp only [loads, hpv]

/-! ### The bracket-balance scan on serialized objects -/

/-- Characters the scan passes over without changing its state. -/
def plainChar (c : Char) : Bool := !(c = '\\' || c = '"' || c = '\x7b' || c = '\x7d')

theorem plainChar_ne (c : Char) (h : plainChar c = true) :
    ¬c = '\\' ∧ ¬c = '"' ∧ ¬c = '\x7b' ∧ ¬c = '\x7d' := by
  simp only [plainChar, Bool.not_eq_true', Bool.or_eq_false_iff, decide_eq_false_iff_not] at h
  tauto

theorem digit_plain (c : Char) (h : c.isDigit = true) : plainChar c = true := by
  obtain ⟨h1, h2, -, -, h5, h6, -⟩ := digit_not_special c h
  simp [plainChar, h1, h2, h5, h6]

theorem scanGo_plain1 (c : Char) (hc : plainChar c = true) (cnt : Int) (i : Nat)
    (rest : List Char) :
    scanGo cnt false false i (c :: rest) = scanGo cnt false false (i + 1) rest := by
  obtain ⟨h1, h2, h3, h4⟩ := plainChar_ne c hc
  simp only [scanGo, Bool.false_eq_true, if_false, h1, h2, h3, h4, if_true]

theorem scanGo_strchar (c : Char) (h1 : c ≠ '\\') (h2 : c ≠ '"') (cnt : Int) (i : Nat)
    (rest : List Char) :
    scanGo cnt true false i (c :: rest) = scanGo cnt true false (i + 1) rest := by
  simp only [scanGo, Bool.false_eq_true, if_false, h1, h2, if_true]

theorem scanGo_quote (cnt : Int) (instr : Bool) (i : Nat) (rest : List Char) :
    scanGo cnt instr false i ('"' :: rest) = scanGo cnt (!instr) false (i + 1) rest := by
  simp only [scanGo, Bool.false_eq_true, if_false,
    show (('"' : Char) = '\\') = False from by simp, eq_self_iff_true, if_true]

theorem scanGo_open (cnt : Int) (i : Nat) (rest : List Char) :
    scanGo cnt false false i ('\x7b' :: rest) = scanGo (cnt + 1) false false (i + 1) rest := by
  simp only [scanGo, Bool.false_eq_true, if_false,
    show (('\x7b' : Char) = '\\') = False from by simp,
    show (('\x7b' : Char) = '"') = False from by simp,
    eq_self_iff_true, if_true]

theorem scanGo_close (cnt : Int) (i : Nat) (rest : List Char) :
    scanGo cnt false false i ('\x7d' :: rest)
      = if cnt - 1 = 0 then some i else scanGo (cnt - 1) false false (i + 1) rest := by
  simp only [scanGo, Bool.false_eq_true, if_false,
    show (('\x7d' : Char) = '\\') = False from by simp,
    show (('\x7d' : Char) = '"') = False from by simp,
    show (('\x7d' : Char) = '\x7b') = False from by simp,
    eq_self_iff_true, if_true]

theorem scanGo_plain (s : List Char) (hs : ∀ c ∈ s, plainChar c = true) :
    ∀ cnt i rest, scanGo cnt false false i (s ++ rest)
      = scanGo cnt false false (i + s.length) rest := by
  induction s with
  | nil => intro cnt i rest; simp
  | cons c t ih =>
    intro cnt i rest
    rw [List.cons_append, scanGo_plain1 c (hs c (List.mem_cons_self c t))]
    rw [ih (fun x hx => hs x (List.mem_cons_of_mem c hx)) cnt (i + 1) rest]
    congr 1
    simp
    omega

theorem scanGo_str (s : List Char) (hs : ∀ c ∈ s, c ≠ '\\' ∧ c ≠ '"') :
    ∀ cnt i rest, scanGo cnt true false i (s ++ rest)
      = scanGo cnt true false (i + s.length) rest := by
  induction s with
  | nil => intro cnt i rest; simp
  | cons c t ih =>
    intro cnt i rest
    obtain ⟨h1, h2⟩ := hs c (List.mem_cons_self c t)
    rw [List.cons_append, scanGo_strchar c h1 h2]
    rw [ih (fun x hx => hs x (List.mem_cons_of_mem c hx)) cnt (i + 1) rest]
    congr 1
    simp
    omega

theorem intToChars_plain (n : Int) : ∀ c ∈ intToChars n, plainChar c = true := by
  cases n with
  | ofNat m =>
    intro c hc
    exact digit_plain c (natToChars_all_digits m c hc)
  | negSucc m =>
    intro c hc
    rw [show intToChars (Int.negSucc m) = '-' :: natToChars (m + 1) from rfl] at hc
    cases hc with
    | head => decide
    | tail _ hc => exact digit_plain c (natToChars_all_digits (m + 1) c hc)

theorem goodStr_scan_chars (s : List Char) (hg : goodStr s = true) :
    ∀ c ∈ s, c ≠ '\\' ∧ c ≠ '"' := by
  intro c hc
  obtain ⟨h1, h2, -⟩ := goodChar_ne c (goodStr_mem hg c hc)
  exact ⟨h2, h1⟩

/-- Traversal property of a value: the scan passes its serialization with
any count at least 1 without breaking, preserving state. -/
def ScanThru (v : JVal) : Prop :=
  ∀ cnt : Int, 1 ≤ cnt → ∀ i rest, scanGo cnt false false i (dumps v ++ rest)
    = scanGo cnt false false (i + (dumps v).length) rest

theorem scanGo_str_part (k : List Char) (hk : goodStr k = true) (v : JVal)
    (hv : ScanThru v) :
    ∀ cnt : Int, 1 ≤ cnt → ∀ i rest2, scanGo cnt false false i
      (('"' :: (escStr k ++ '"' :: ':' :: ' ' :: dumps v)) ++ rest2)
        = scanGo cnt false false (i + (k.length + 4 + (dumps v).length)) rest2 := by
  intro cnt hcnt i rest2
  have hesc : escStr k = k := escStr_good k hk
  rw [hesc]
  rw [show ('"' :: (k ++ '"' :: ':' :: ' ' :: dumps v)) ++ rest2
    = '"' :: (k ++ ('"' :: ':' :: ' ' :: (dumps v ++ rest2))) from by simp]
  rw [scanGo_quote]
  rw [show (!false) = true from rfl]
  rw [scanGo_str k (goodStr_scan_chars k hk) cnt (i + 1) _]
  rw [scanGo_quote]
  rw [show (!true) = false from rfl]
  rw [scanGo_plain1 ':' (by decide), scanGo_plain1 ' ' (by decide)]
  rw [hv cnt hcnt _ rest2]
  congr 1
  omega

theorem scanGo_items_aux (items : List JVal) (hIH : ∀ x ∈ items, ScanThru x) :
    ∀ cnt : Int, 1 ≤ cnt → ∀ i rest, scanGo cnt false false i (dumpsItems items ++ rest)
      = scanGo cnt false false (i + (dumpsItems items).length) rest := by
  induction items with
  | nil =>
    intro cnt _ i rest
    rw [show dumpsItems ([] : List JVal) = [] from rfl]
    simp
  | cons x xs ihl =>
    intro cnt hcnt i rest
    have hx : ScanThru x := hIH x (List.mem_cons_self _ _)
    cases xs with
    | nil =>
      rw [dumpsItems_single]
      exact hx cnt hcnt i rest
    | cons y ys =>
      rw [dumpsItems_cons_cons]
      rw [show (dumps x ++ ',' :: ' ' :: dumpsItems (y :: ys)) ++ rest
        = dumps x ++ (',' :: ' ' :: (dumpsItems (y :: ys) ++ rest)) from by simp]
      rw [hx cnt hcnt i _]
      rw [scanGo_plain1 ',' (by decide), scanGo_plain1 ' ' (by decide)]
      rw [ihl (fun z hz => hIH z (List.mem_cons_of_mem _ hz)) cnt hcnt _ rest]
      congr 1
      simp
      omega

theorem scanGo_fields_aux (fs : List (List Char × JVal))
    (hgk : ∀ kv ∈ fs, goodStr kv.1 = true) (hIH : ∀ kv ∈ fs, ScanThru kv.2) :
    ∀ cnt : Int, 1 ≤ cnt → ∀ i rest, scanGo cnt false false i (dumpsFields fs ++ rest)
      = scanGo cnt false false (i + (dumpsFields fs).length) rest := by
  induction fs with
  | nil =>
    intro cnt _ i rest
    rw [show dumpsFields ([] : List (List Char × JVal)) = [] from rfl]
    simp
  | cons kv fs' ihl =>
    intro cnt hcnt i rest
    obtain ⟨k, v⟩ := kv
    have hk : goodStr k = true := hgk (k, v) (List.mem_cons_self _ _)
    have hv : ScanThru v := hIH (k, v) (List.mem_cons_self _ _)
    have hesc : escStr k = k := escStr_good k hk
    cases fs' with
    | nil =>
      rw [dumpsFields_single]
      rw [scanGo_str_part k hk v hv cnt hcnt i rest]
      congr 1
      rw [hesc]
      simp
      omega
    | cons f2 fs'' =>
      rw [dumpsFields_cons_cons]
      rw [show (('"' :: (escStr k ++ '"' :: ':' :: ' ' :: dumps v)) ++ ',' :: ' ' :: dumpsFields (f2 :: fs'')) ++ rest
        = ('"' :: (escStr k ++ '"' :: ':' :: ' ' :: dumps v))
          ++ (',' :: ' ' :: (dumpsFields (f2 :: fs'') ++ rest)) from by simp]
      rw [scanGo_str_part k hk v hv cnt hcnt i _]
      rw [scanGo_plain1 ',' (by decide), scanGo_plain1 ' ' (by decide)]
      rw [ihl (fun z hz => hgk z (List.mem_cons_of_mem _ hz))
        (fun z hz => hIH z (List.mem_cons_of_mem _ hz)) cnt hcnt _ rest]
      congr 1
      rw [hesc]
      simp
      omega

/-- The scan passes through a serialized value with count at least 1
without breaking, leaving the state unchanged. -/
theorem scanGo_thru (v : JVal) (hg : goodV v = true) : ScanThru v := by
  induction v using JVal.inductionOn with
  | h0 =>
    intro cnt _ i rest
    exact scanGo_plain ("null".data) (by decide) cnt i rest
  | h1 b =>
    intro cnt _ i rest
    cases b with
    | true => exact scanGo_plain ("true".data) (by decide) cnt i rest
    | false => exact scanGo_plain ("false".data) (by decide) cnt i rest
  | h2 n =>
    intro cnt _ i rest
    exact scanGo_plain (intToChars n) (intToChars_plain n) cnt i rest
  | h3 s =>
    intro cnt _ i rest
    have hgs : goodStr s = true := by simpa [goodV] using hg
    have hesc : escStr s = s := escStr_good s hgs
    have e : dumps (JVal.jstr s) ++ rest = '"' :: (s ++ ('"' :: rest)) := by
      rw [dumps_str, hesc]
      simp
    rw [e, scanGo_quote]
    rw [show (!false) = true from rfl]
    rw [scanGo_str s (goodStr_scan_chars s hgs) cnt (i + 1) _]
    rw [scanGo_quote]
    rw [show (!true) = false from rfl]
    congr 1
    rw [dumps_str, hesc]
    simp
    omega
  | h4 items ihm =>
    intro cnt hcnt i rest
    have hgi : ∀ x ∈ items, goodV x = true := goodV_arr hg
    have e : dumps (JVal.jarr items) ++ rest = '[' :: (dumpsItems items ++ (']' :: rest)) := by
      rw [dumps_arr]
      simp
    rw [e, scanGo_plain1 '[' (by decide)]
    rw [scanGo_items_aux items (fun x hx => ihm x hx (hgi x hx)) cnt hcnt (i + 1) _]
    rw [scanGo_plain1 ']' (by decide)]
    congr 1
    rw [dumps_arr]
    simp
    omega
  | h5 fs ihm =>
    intro cnt hcnt i rest
    have hgf : ∀ kv ∈ fs, goodStr kv.1 = true ∧ goodV kv.2 = true := goodV_obj hg
    have e : dumps (JVal.jobj fs) ++ rest = '\x7b' :: (dumpsFields fs ++ ('\x7d' :: rest)) := by
      rw [dumps_obj]
      simp
    rw [e, scanGo_open]
    rw [scanGo_fields_aux fs (fun z hz => (hgf z hz).1)
      (fun z hz => ihm z hz (hgf z hz).2) (cnt + 1) (by omega) (i + 1) _]
    rw [scanGo_close]
    rw [if_neg (show ¬(cnt + 1 - 1 = 0) from by omega)]
    rw [show cnt + 1 - 1 = cnt from by omega]
    congr 1
    rw [dumps_obj]
    simp
    omega

/-- The scan of a full serialized object breaks exactly at its last
character. -/
theorem scanGo_top (fs : List (List Char × JVal)) (hg : goodV (.jobj fs) = true) (i : Nat) :
    scanGo 0 false false i (dumps (.jobj fs))
      = some (i + (dumps (.jobj fs)).length - 1) := by
  have hgf := goodV_obj hg
  rw [show dumps (JVal.jobj fs) = '\x7b' :: (dumpsFields fs ++ ['\x7d']) from dumps_obj fs]
  rw [scanGo_open]
  rw [scanGo_fields_aux fs (fun z hz => (hgf z hz).1)
    (fun z hz => scanGo_thru z.2 (hgf z hz).2) (0 + 1) (by omega) (i + 1) ['\x7d']]
  rw [scanGo_close]
  rw [if_pos (show (0 : Int) + 1 - 1 = 0 from by omega)]
  congr 1
  simp
  omega


theorem scanGo_some_ge (l : List Char) : ∀ cnt instr esc i j,
    scanGo cnt instr esc i l = some j → i ≤ j := by
  induction l with
  | nil =>
    intro cnt instr esc i j h
    exact absurd h (by simp [scanGo])
  | cons c t ih =>
    intro cnt instr esc i j h
    simp only [scanGo] at h
    split_ifs at h
    all_goals first
      | (have hle := ih _ _ _ _ _ h; omega)
      | (simp at h; omega)

theorem scanGo_take_none (l : List Char) : ∀ cnt instr esc i j m,
    scanGo cnt instr esc i l = some j → i + m ≤ j →
      scanGo cnt instr esc i (l.take m) = none := by
  induction l with
  | nil =>
    intro cnt instr esc i j m h _
    exact absurd h (by simp [scanGo])
  | cons c t ih =>
    intro cnt instr esc i j m h hm
    cases m with
    | zero =>
      rw [List.take_zero]
      rfl
    | succ m2 =>
      rw [List.take_succ_cons]
      simp only [scanGo] at h ⊢
      split_ifs at h ⊢
      all_goals first
        | (exact ih _ _ _ _ j m2 h (by omega))
        | (exfalso; simp at h; omega)

/-- The scan of a serialized object with at least one trailing character
removed finds no end index. -/
theorem scanGo_trunc_take (fs : List (List Char × JVal)) (hg : goodV (.jobj fs) = true)
    (k : Nat) (hk1 : 1 ≤ k) :
    scanGo 0 false false 0
      ((dumps (.jobj fs)).take ((dumps (.jobj fs)).length - k)) = none := by
  have hpos : 1 ≤ (dumps (.jobj fs)).length :=
    List.length_pos.mpr (dumps_ne_nil (.jobj fs))
  exact scanGo_take_none _ 0 false false 0 _ _ (scanGo_top fs hg 0) (by omega)


/-! ### Bracket counts of serializations are balanced -/

theorem count_eq_zero_of_chars {l : List Char} {a : Char} (h : ∀ c ∈ l, c ≠ a) :
    l.count a = 0 :=
  List.count_eq_zero.mpr (fun hm => (h a hm) rfl)

/-- No structural bracket occurs in a number's serialization. -/
theorem intToChars_no_brackets (n : Int) :
    ∀ c ∈ intToChars n, c ≠ '\x7b' ∧ c ≠ '\x7d' ∧ c ≠ '[' ∧ c ≠ ']' := by
  cases n with
  | ofNat m =>
    intro c hc
    obtain ⟨h1, h2, h3, h4, -⟩ := digit_not_special c (natToChars_all_digits m c hc)
    exact ⟨h1, h2, h3, h4⟩
  | negSucc m =>
    intro c hc
    rw [show intToChars (Int.negSucc m) = '-' :: natToChars (m + 1) from rfl] at hc
    cases hc with
    | head => exact ⟨by decide, by decide, by decide, by decide⟩
    | tail _ hc =>
      obtain ⟨h1, h2, h3, h4, -⟩ := digit_not_special c (natToChars_all_digits (m + 1) c hc)
      exact ⟨h1, h2, h3, h4⟩

theorem goodStr_no_brackets (s : List Char) (hg : goodStr s = true) :
    ∀ c ∈ s, c ≠ '\x7b' ∧ c ≠ '\x7d' ∧ c ≠ '[' ∧ c ≠ ']' := by
  intro c hc
  obtain ⟨-, -, h3, h4, h5, h6⟩ := goodChar_ne c (goodStr_mem hg c hc)
  exact ⟨h3, h4, h5, h6⟩

/-- Balance of both bracket kinds in a serialized value. -/
def CountBal (v : JVal) : Prop :=
  (dumps v).count '\x7b' = (dumps v).count '\x7d'
    ∧ (dumps v).count '[' = (dumps v).count ']'

theorem countBal_items (items : List JVal) (hIH : ∀ x ∈ items, CountBal x) :
    (dumpsItems items).count '\x7b' = (dumpsItems items).count '\x7d'
      ∧ (dumpsItems items).count '[' = (dumpsItems items).count ']' := by
  induction items with
  | nil => exact ⟨rfl, rfl⟩
  | cons x xs ihl =>
    have hx := hIH x (List.mem_cons_self _ _)
    obtain ⟨hx1, hx2⟩ := hx
    cases xs with
    | nil =>
      rw [dumpsItems_single]
      exact ⟨hx1, hx2⟩
    | cons y ys =>
      obtain ⟨hi1, hi2⟩ := ihl (fun z hz => hIH z (List.mem_cons_of_mem _ hz))
      rw [dumpsItems_cons_cons]
      rw [show dumps x ++ ',' :: ' ' :: dumpsItems (y :: ys)
        = dumps x ++ ([',', ' '] ++ dumpsItems (y :: ys)) from by simp]
      simp only [List.count_append]
      have c1 : ([',', ' '] : List Char).count '\x7b' = 0 := by decide
      have c2 : ([',', ' '] : List Char).count '\x7d' = 0 := by decide
      have c3 : ([',', ' '] : List Char).count '[' = 0 := by decide
      have c4 : ([',', ' '] : List Char).count ']' = 0 := by decide
      exact ⟨by omega, by omega⟩

theorem countBal_fields (fs : List (List Char × JVal))
    (hgk : ∀ kv ∈ fs, goodStr kv.1 = true) (hIH : ∀ kv ∈ fs, CountBal kv.2) :
    (dumpsFields fs).count '\x7b' = (dumpsFields fs).count '\x7d'
      ∧ (dumpsFields fs).count '[' = (dumpsFields fs).count ']' := by
  induction fs with
  | nil => exact ⟨rfl, rfl⟩
  | cons kv fs' ihl =>
    obtain ⟨k, v⟩ := kv
    have hk : goodStr k = true := hgk (k, v) (List.mem_cons_self _ _)
    obtain ⟨hv1x, hv2x⟩ := hIH (k, v) (List.mem_cons_self _ _)
    have hv1 : (dumps v).count '\x7b' = (dumps v).count '\x7d' := hv1x
    have hv2 : (dumps v).count '[' = (dumps v).count ']' := hv2x
    have hesc : escStr k = k := escStr_good k hk
    have hk1 : k.count '\x7b' = 0 :=
      count_eq_zero_of_chars (fun c hc => (goodStr_no_brackets k hk c hc).1)
    have hk2 : k.count '\x7d' = 0 :=
      count_eq_zero_of_chars (fun c hc => (goodStr_no_brackets k hk c hc).2.1)
    have hk3 : k.count '[' = 0 :=
      count_eq_zero_of_chars (fun c hc => (goodStr_no_brackets k hk c hc).2.2.1)
    have hk4 : k.count ']' = 0 :=
      count_eq_zero_of_chars (fun c hc => (goodStr_no_brackets k hk c hc).2.2.2)
    have cq1 : (['"'] : List Char).count '\x7b' = 0 := by decide
    have cq2 : (['"'] : List Char).count '\x7d' = 0 := by decide
    have cq3 : (['"'] : List Char).count '[' = 0 := by decide
    have cq4 : (['"'] : List Char).count ']' = 0 := by decide
    have cm1 : (['"', ':', ' '] : List Char).count '\x7b' = 0 := by decide
    have cm2 : (['"', ':', ' '] : List Char).count '\x7d' = 0 := by decide
    have cm3 : (['"', ':', ' '] : List Char).count '[' = 0 := by decide
    have cm4 : (['"', ':', ' '] : List Char).count ']' = 0 := by decide
    cases fs' with
    | nil =>
      rw [dumpsFields_single, hesc]
      rw [show ('"' :: (k ++ '"' :: ':' :: ' ' :: dumps v))
        = ['"'] ++ k ++ ['"', ':', ' '] ++ dumps v from by simp]
      simp only [List.count_append]
      exact ⟨by omega, by omega⟩
    | cons f2 fs'' =>
      obtain ⟨hi1, hi2⟩ := ihl (fun z hz => hgk z (List.mem_cons_of_mem _ hz))
        (fun z hz => hIH z (List.mem_cons_of_mem _ hz))
      rw [dumpsFields_cons_cons, hesc]
      rw [show ('"' :: (k ++ '"' :: ':' :: ' ' :: dumps v)) ++ ',' :: ' ' :: dumpsFields (f2 :: fs'')
        = ['"'] ++ k ++ ['"', ':', ' '] ++ dumps v ++ ([',', ' '] ++ dumpsFields (f2 :: fs''))
        from by simp]
      simp only [List.count_append]
      have c1 : ([',', ' '] : List Char).count '\x7b' = 0 := by decide
      have c2 : ([',', ' '] : List Char).count '\x7d' = 0 := by decide
      have c3 : ([',', ' '] : List Char).count '[' = 0 := by decide
      have c4 : ([',', ' '] : List Char).count ']' = 0 := by decide
      exact ⟨by omega, by omega⟩

theorem dumps_countBal (v : JVal) (hg : goodV v = true) : CountBal v := by
  induction v using JVal.inductionOn with
  | h0 => exact ⟨by decide, by decide⟩
  | h1 b => cases b <;> exact ⟨by decide, by decide⟩
  | h2 n =>
    have h1 : (intToChars n).count '\x7b' = 0 :=
      count_eq_zero_of_chars (fun c hc => (intToChars_no_brackets n c hc).1)
    have h2 : (intToChars n).count '\x7d' = 0 :=
      count_eq_zero_of_chars (fun c hc => (intToChars_no_brackets n c hc).2.1)
    have h3 : (intToChars n).count '[' = 0 :=
      count_eq_zero_of_chars (fun c hc => (intToChars_no_brackets n c hc).2.2.1)
    have h4 : (intToChars n).count ']' = 0 :=
      count_eq_zero_of_chars (fun c hc => (intToChars_no_brackets n c hc).2.2.2)
    exact ⟨by rw [show dumps (JVal.jnum n) = intToChars n from rfl, h1, h2],
      by rw [show dumps (JVal.jnum n) = intToChars n from rfl, h3, h4]⟩
  | h3 s =>
    have hgs : goodStr s = true := by simpa [goodV] using hg
    have hesc : escStr s = s := escStr_good s hgs
    have h1 : s.count '\x7b' = 0 :=
      count_eq_zero_of_chars (fun c hc => (goodStr_no_brackets s hgs c hc).1)
    have h2 : s.count '\x7d' = 0 :=
      count_eq_zero_of_chars (fun c hc => (goodStr_no_brackets s hgs c hc).2.1)
    have h3 : s.count '[' = 0 :=
      count_eq_zero_of_chars (fun c hc => (goodStr_no_brackets s hgs c hc).2.2.1)
    have h4 : s.count ']' = 0 :=
      count_eq_zero_of_chars (fun c hc => (goodStr_no_brackets s hgs c hc).2.2.2)
    have cq1 : (['"'] : List Char).count '\x7b' = 0 := by decide
    have cq2 : (['"'] : List Char).count '\x7d' = 0 := by decide
    have cq3 : (['"'] : List Char).count '[' = 0 := by decide
    have cq4 : (['"'] : List Char).count ']' = 0 := by decide
    have e : dumps (JVal.jstr s) = ['"'] ++ s ++ ['"'] := by
      rw [dumps_str, hesc]
      simp
    constructor <;> (rw [e]; simp only [List.count_append]; omega)
  | h4 items ihm =>
    have hgi := goodV_arr hg
    obtain ⟨hi1, hi2⟩ := countBal_items items (fun x hx => ihm x hx (hgi x hx))
    have e : dumps (JVal.jarr items) = ['['] ++ dumpsItems items ++ [']'] := by
      rw [dumps_arr]
      simp
    have ca1 : (['['] : List Char).count '\x7b' = 0 := by decide
    have ca2 : (['['] : List Char).count '\x7d' = 0 := by decide
    have ca3 : (['['] : List Char).count '[' = 1 := by decide
    have ca4 : (['['] : List Char).count ']' = 0 := by decide
    have cb1 : ([']'] : List Char).count '\x7b' = 0 := by decide
    have cb2 : ([']'] : List Char).count '\x7d' = 0 := by decide
    have cb3 : ([']'] : List Char).count '[' = 0 := by decide
    have cb4 : ([']'] : List Char).count ']' = 1 := by decide
    constructor <;> (rw [e]; simp only [List.count_append]; omega)
  | h5 fs ihm =>
    have hgf := goodV_obj hg
    obtain ⟨hf1, hf2⟩ := countBal_fields fs (fun z hz => (hgf z hz).1)
      (fun z hz => ihm z hz (hgf z hz).2)
    have e : dumps (JVal.jobj fs) = ['\x7b'] ++ dumpsFields fs ++ ['\x7d'] := by
      rw [dumps_obj]
      simp
    have ca1 : (['\x7b'] : List Char).count '\x7b' = 1 := by decide
    have ca2 : (['\x7b'] : List Char).count '\x7d' = 0 := by decide
    have ca3 : (['\x7b'] : List Char).count '[' = 0 := by decide
    have ca4 : (['\x7b'] : List Char).count ']' = 0 := by decide
    have cb1 : (['\x7d'] : List Char).count '\x7b' = 0 := by decide
    have cb2 : (['\x7d'] : List Char).count '\x7d' = 1 := by decide
    have cb3 : (['\x7d'] : List Char).count '[' = 0 := by decide
    have cb4 : (['\x7d'] : List Char).count ']' = 0 := by decide
    constructor <;> (rw [e]; simp only [List.count_append]; omega)


/-! ### The strip and fence preamble is the identity on truncated objects -/

theorem stripJ_id (l : List Char) (hh : ∀ c, l.head? = some c → isWsC c = false)
    (hl : ∀ c, l.getLast? = some c → isWsC c = false) : stripJ l = l := by
  cases l with
  | nil => rfl
  | cons c t =>
    have hc : isWsC c = false := hh c rfl
    have h1 : (c :: t).dropWhile isWsC = c :: t := by
      simp [List.dropWhile_cons, hc]
    cases hrev : (c :: t).reverse with
    | nil => exact absurd hrev (by simp)
    | cons d rest =>
      have hd : (c :: t).getLast? = some d := by
        rw [← List.head?_reverse, hrev]
        rfl
      have hdw : isWsC d = false := hl d hd
      simp only [stripJ, h1, hrev]
      rw [List.dropWhile_cons, hdw]
      simp only [Bool.false_eq_true, if_false]
      rw [← hrev, List.reverse_reverse]

theorem stripFences_id (t : List Char) (t2 : List Char) (hh : t = '\x7b' :: t2) :
    stripFences t = t := by
  subst hh
  simp [stripFences, isPre]

theorem stripFenceEnd_id (t : List Char) (hl : ∀ c, t.getLast? = some c → c ≠ '`') :
    stripFenceEnd t = t := by
  have hsuf : isSuf ("```".data) t = false := by
    cases hrev : t.reverse with
    | nil => simp [isSuf, hrev, isPre]
    | cons d rest =>
      have hd : t.getLast? = some d := by
        rw [← List.head?_reverse, hrev]
        rfl
      have hdb : d ≠ '`' := hl d hd
      have hne2 : ('`' = d) = False := eq_false (fun h => hdb h.symm)
      simp [isSuf, hrev, isPre, hne2]
  simp [stripFenceEnd, hsuf]

theorem findStr_brace (t2 : List Char) : findStrAux ['\x7b'] ('\x7b' :: t2) 0 = some 0 := by
  simp [findStrAux, isPre]

/-- The last member's value serialization is a suffix of the fields
serialization. -/
theorem dumpsFields_decomp (fs : List (List Char × JVal)) : fs ≠ [] →
    ∃ kv pre, fs.getLast? = some kv ∧ dumpsFields fs = pre ++ dumps kv.2 := by
  induction fs with
  | nil => intro h; exact absurd rfl h
  | cons kv fs' ih =>
    intro _
    obtain ⟨k, v⟩ := kv
    cases fs' with
    | nil =>
      refine ⟨(k, v), '"' :: (escStr k ++ ['"', ':', ' ']), rfl, ?_⟩
      rw [dumpsFields_single]
      simp
    | cons f2 fs'' =>
      obtain ⟨kv2, pre, h1, h2⟩ := ih (by simp)
      refine ⟨kv2, ('"' :: (escStr k ++ '"' :: ':' :: ' ' :: dumps v)) ++ ',' :: ' ' :: pre,
        by rw [List.getLast?_cons_cons]; exact h1, ?_⟩
      rw [dumpsFields_cons_cons, h2]
      simp

/-- A container's serialization has length at least 2. -/
theorem dumps_cont_len (v : JVal)
    (hcont : (∃ its, v = .jarr its) ∨ (∃ gs, v = .jobj gs)) :
    2 ≤ (dumps v).length := by
  rcases hcont with ⟨its, rfl⟩ | ⟨gs, rfl⟩
  · rw [dumps_arr]
    simp
  · rw [dumps_obj]
    simp

/-- The last character of a container's serialization with its closer
removed is neither whitespace nor a backtick. -/
theorem cont_trunc_getLast (v : JVal) (hg : goodV v = true)
    (hcont : (∃ its, v = .jarr its) ∨ (∃ gs, v = .jobj gs)) :
    ∀ c, ((dumps v).dropLast).getLast? = some c → isWsC c = false ∧ c ≠ '`' := by
  rcases hcont with ⟨its, rfl⟩ | ⟨gs, rfl⟩
  · intro c hc
    have e : (dumps (JVal.jarr its)).dropLast = '[' :: dumpsItems its := by
      rw [dumps_arr,
        show '[' :: (dumpsItems its ++ [']']) = ('[' :: dumpsItems its) ++ [']'] from by simp,
        List.dropLast_concat]
    rw [e] at hc
    cases its with
    | nil =>
      rw [show dumpsItems ([] : List JVal) = [] from rfl] at hc
      obtain rfl : '[' = c := by simpa using hc
      exact ⟨by decide, by decide⟩
    | cons x xs =>
      obtain ⟨x2, -, h2⟩ := dumpsItems_getLast (x :: xs) (by simp)
      have hne : dumpsItems (x :: xs) ≠ [] := by
        obtain ⟨c0, t0, ht0, -⟩ := dumpsItems_head (x :: xs) (by simp)
        simp [ht0]
      rw [show '[' :: dumpsItems (x :: xs) = ['['] ++ dumpsItems (x :: xs) from rfl,
        List.getLast?_append_of_ne_nil _ hne, h2] at hc
      obtain ⟨h1, h2', -⟩ := dumps_getLast_props _ c hc
      exact ⟨h1, h2'⟩
  · intro c hc
    have e : (dumps (JVal.jobj gs)).dropLast = '\x7b' :: dumpsFields gs := by
      rw [dumps_obj,
        show '\x7b' :: (dumpsFields gs ++ ['\x7d'])
          = ('\x7b' :: dumpsFields gs) ++ ['\x7d'] from by simp,
        List.dropLast_concat]
    rw [e] at hc
    cases gs with
    | nil =>
      rw [show dumpsFields ([] : List (List Char × JVal)) = [] from rfl] at hc
      obtain rfl : '\x7b' = c := by simpa using hc
      exact ⟨by decide, by decide⟩
    | cons kv fs' =>
      obtain ⟨kv2, -, h2⟩ := dumpsFields_getLast (kv :: fs') (by simp)
      have hne : dumpsFields (kv :: fs') ≠ [] := by
        obtain ⟨t0, ht0⟩ := dumpsFields_head (kv :: fs') (by simp)
        simp [ht0]
      rw [show '\x7b' :: dumpsFields (kv :: fs') = ['\x7b'] ++ dumpsFields (kv :: fs') from rfl,
        List.getLast?_append_of_ne_nil _ hne, h2] at hc
      obtain ⟨h1, h2', -⟩ := dumps_getLast_props _ c hc
      exact ⟨h1, h2'⟩


/-! ### Assembly: repair_json and safe_json_parse on truncated objects -/

theorem repairCore_trunc (fs : List (List Char × JVal)) (hg : goodV (.jobj fs) = true)
    (k : Nat) (hk1 : 1 ≤ k) (t2 : List Char)
    (ht2 : (dumps (.jobj fs)).take ((dumps (.jobj fs)).length - k) = '\x7b' :: t2)
    (hclose : closeUp ((dumps (.jobj fs)).take ((dumps (.jobj fs)).length - k))
      = dumps (.jobj fs)) :
    repairCore ((dumps (.jobj fs)).take ((dumps (.jobj fs)).length - k))
      = subsAll (dumps (.jobj fs)) := by
  have hscan := scanGo_trunc_take fs hg k hk1
  simp only [repairCore, ht2, findStr_brace]
  rw [List.drop_zero, ← ht2]
  simp only [hscan]
  rw [hclose]

theorem stripAll_id (t1 : List Char) (t2 : List Char) (hh : t1 = '\x7b' :: t2)
    (hl : ∀ c, t1.getLast? = some c → isWsC c = false ∧ c ≠ '`') :
    stripJ (stripFenceEnd (stripFences (stripJ t1))) = t1 := by
  have hhd : ∀ c, t1.head? = some c → isWsC c = false := by
    intro c hc
    rw [hh] at hc
    obtain rfl : '\x7b' = c := by simpa using hc
    decide
  have hs : stripJ t1 = t1 := stripJ_id t1 hhd (fun c hc => (hl c hc).1)
  rw [hs, stripFences_id t1 t2 hh, stripFenceEnd_id t1 (fun c hc => (hl c hc).2), hs]

/-- The amended C4 statement, packaged: on the serialized object with its
last k closers removed, the repair appends exactly the removed closers
(inferred from the count delta), and strategy 2 of safe_json_parse
returns the original object. -/
theorem repair_restores (fs : List (List Char × JVal))
    (hg : goodV (.jobj fs) = true)
    (hfix : subsAll (dumps (.jobj fs)) = dumps (.jobj fs))
    (k : Nat) (hk : k = 1 ∨ k = 2)
    (hcl : ((dumps (.jobj fs)).drop ((dumps (.jobj fs)).length - k)).all isCloser = true) :
    closeUp ((dumps (.jobj fs)).take ((dumps (.jobj fs)).length - k)) = dumps (.jobj fs)
    ∧ repair_json ((dumps (.jobj fs)).take ((dumps (.jobj fs)).length - k)) = dumps (.jobj fs)
    ∧ loads (dumps (.jobj fs)) = some (.jobj fs)
    ∧ safe_json_parse ((dumps (.jobj fs)).take ((dumps (.jobj fs)).length - k))
        = some (.jobj fs) := by
  have hlenD : (dumps (.jobj fs)).length = (dumpsFields fs).length + 2 := by
    rw [dumps_obj]
    simp
  obtain ⟨hbal1, hbal2⟩ := dumps_countBal (.jobj fs) hg
  have hsplit := List.take_append_drop ((dumps (.jobj fs)).length - k) (dumps (.jobj fs))
  have hcount : ∀ a : Char, (dumps (.jobj fs)).count a
      = ((dumps (.jobj fs)).take ((dumps (.jobj fs)).length - k)).count a
        + ((dumps (.jobj fs)).drop ((dumps (.jobj fs)).length - k)).count a := by
    intro a
    conv_lhs => rw [← hsplit]
    rw [List.count_append]
  rcases hk with rfl | rfl
  · -- k = 1
    have ht1 : (dumps (.jobj fs)).take ((dumps (.jobj fs)).length - 1)
        = '\x7b' :: dumpsFields fs := by
      rw [← List.dropLast_eq_take, dumps_obj,
        show '\x7b' :: (dumpsFields fs ++ ['\x7d'])
          = ('\x7b' :: dumpsFields fs) ++ ['\x7d'] from by simp,
        List.dropLast_concat]
    have hrem : (dumps (.jobj fs)).drop ((dumps (.jobj fs)).length - 1) = ['\x7d'] := by
      rw [show (dumps (.jobj fs)).length - 1 = ('\x7b' :: dumpsFields fs).length
          from by rw [hlenD]; simp]
      conv_lhs =>
        rw [dumps_obj,
          show '\x7b' :: (dumpsFields fs ++ ['\x7d'])
            = ('\x7b' :: dumpsFields fs) ++ ['\x7d'] from by simp]
      exact List.drop_left _ _
    have hc1 := hcount '\x7b'
    have hc2 := hcount '\x7d'
    have hc3 := hcount '['
    have hc4 := hcount ']'
    rw [hrem] at hc1 hc2 hc3 hc4
    have hr1 : (['\x7d'] : List Char).count '\x7b' = 0 := by decide
    have hr2 : (['\x7d'] : List Char).count '\x7d' = 1 := by decide
    have hr3 : (['\x7d'] : List Char).count '[' = 0 := by decide
    have hr4 : (['\x7d'] : List Char).count ']' = 0 := by decide
    have hdB : ((dumps (.jobj fs)).take ((dumps (.jobj fs)).length - 1)).count '['
        - ((dumps (.jobj fs)).take ((dumps (.jobj fs)).length - 1)).count ']' = 0 := by omega
    have hdC : ((dumps (.jobj fs)).take ((dumps (.jobj fs)).length - 1)).count '\x7b'
        - ((dumps (.jobj fs)).take ((dumps (.jobj fs)).length - 1)).count '\x7d' = 1 := by omega
    have hclose : closeUp ((dumps (.jobj fs)).take ((dumps (.jobj fs)).length - 1))
        = dumps (.jobj fs) := by
      rw [closeUp, hdB, hdC]
      rw [List.replicate_zero, List.replicate_one]
      rw [List.append_nil]
      rw [← hrem]
      exact hsplit
    have hlast : ∀ c, ((dumps (.jobj fs)).take ((dumps (.jobj fs)).length - 1)).getLast? = some c
        → isWsC c = false ∧ c ≠ '`' := by
      intro c hc
      rw [ht1] at hc
      cases hfs0 : fs with
      | nil =>
        subst hfs0
        rw [show dumpsFields ([] : List (List Char × JVal)) = [] from rfl] at hc
        obtain rfl : '\x7b' = c := by simpa using hc
        exact ⟨by decide, by decide⟩
      | cons kv0 fs0 =>
        subst hfs0
        obtain ⟨kvL, -, hglast⟩ := dumpsFields_getLast (kv0 :: fs0) (by simp)
        have hne : dumpsFields (kv0 :: fs0) ≠ [] := by
          obtain ⟨t0, ht0⟩ := dumpsFields_head (kv0 :: fs0) (by simp)
          simp [ht0]
        rw [show '\x7b' :: dumpsFields (kv0 :: fs0)
            = ['\x7b'] ++ dumpsFields (kv0 :: fs0) from rfl,
          List.getLast?_append_of_ne_nil _ hne, hglast] at hc
        obtain ⟨p1, p2, -⟩ := dumps_getLast_props _ c hc
        exact ⟨p1, p2⟩
    have hrepair : repair_json ((dumps (.jobj fs)).take ((dumps (.jobj fs)).length - 1))
        = dumps (.jobj fs) := by
      rw [repair_json, stripAll_id _ (dumpsFields fs) ht1 hlast]
      rw [repairCore_trunc fs hg 1 (by omega) (dumpsFields fs) ht1 hclose, hfix]
    have hload1 : loads ((dumps (.jobj fs)).take ((dumps (.jobj fs)).length - 1)) = none := by
      rw [← List.dropLast_eq_take]
      exact loads_trunc1 fs hg
    have hloadD : loads (dumps (.jobj fs)) = some (.jobj fs) := loads_dumps _ hg
    refine ⟨hclose, hrepair, hloadD, ?_⟩
    simp only [safe_json_parse, hload1, hrepair, hloadD]
  · -- k = 2
    have hfs : fs ≠ [] := by
      intro h0
      subst h0
      exact absurd hcl (by decide)
    have hFne : dumpsFields fs ≠ [] := by
      obtain ⟨t0, ht0⟩ := dumpsFields_head fs hfs
      simp [ht0]
    have hF5 := dumpsFields_length_ge5 fs hfs
    obtain ⟨c2, hc2⟩ : ∃ c2, (dumpsFields fs).getLast? = some c2 := by
      cases h : (dumpsFields fs).getLast? with
      | none => exact absurd (List.getLast?_eq_none_iff.mp h) hFne
      | some c2 => exact ⟨c2, rfl⟩
    have hFdec : (dumpsFields fs).dropLast ++ [c2] = dumpsFields fs :=
      List.dropLast_append_getLast? c2 hc2
    have hDdec : dumps (.jobj fs)
        = ('\x7b' :: (dumpsFields fs).dropLast) ++ [c2, '\x7d'] := by
      rw [dumps_obj]
      conv_lhs => rw [← hFdec]
      simp
    have hlen2 : ('\x7b' :: (dumpsFields fs).dropLast).length
        = (dumps (.jobj fs)).length - 2 := by
      rw [hlenD]
      simp [List.length_dropLast]
      omega
    have ht1 : (dumps (.jobj fs)).take ((dumps (.jobj fs)).length - 2)
        = '\x7b' :: (dumpsFields fs).dropLast := by
      rw [← hlen2]
      conv_lhs => rw [hDdec]
      exact List.take_left _ _
    have hrem : (dumps (.jobj fs)).drop ((dumps (.jobj fs)).length - 2) = [c2, '\x7d'] := by
      rw [← hlen2]
      conv_lhs => rw [hDdec]
      exact List.drop_left _ _
    have hclc2 : isCloser c2 = true := by
      rw [hrem] at hcl
      simp only [List.all_cons, List.all_nil, Bool.and_eq_true] at hcl
      exact hcl.1
    obtain ⟨kvL, hkvL, hglast⟩ := dumpsFields_getLast fs hfs
    have hc2v : (dumps kvL.2).getLast? = some c2 := by rw [← hglast]; exact hc2
    have hcloser_or : c2 = '\x7d' ∨ c2 = ']' := by
      simp only [isCloser, Bool.or_eq_true, decide_eq_true_eq] at hclc2
      tauto
    have hcont : (∃ its, kvL.2 = .jarr its) ∨ (∃ gs, kvL.2 = .jobj gs) :=
      (dumps_getLast_props kvL.2 c2 hc2v).2.2 hcloser_or
    have hkvmem : kvL ∈ fs := List.mem_of_mem_getLast? hkvL
    have hgoodL := (goodV_obj hg) kvL hkvmem
    have hlastP : ∀ kv, fs.getLast? = some kv →
        (∃ its, kv.2 = .jarr its) ∨ (∃ gs, kv.2 = .jobj gs) := by
      intro kv h
      rw [hkvL] at h
      cases h
      exact hcont
    have hdd : ((dumps (.jobj fs)).dropLast).dropLast
        = '\x7b' :: (dumpsFields fs).dropLast := by
      rw [dumps_obj,
        show '\x7b' :: (dumpsFields fs ++ ['\x7d'])
          = ('\x7b' :: dumpsFields fs) ++ ['\x7d'] from by simp,
        List.dropLast_concat]
      exact List.dropLast_cons_of_ne_nil hFne
    have hload1 : loads ((dumps (.jobj fs)).take ((dumps (.jobj fs)).length - 2)) = none := by
      rw [ht1, ← hdd]
      exact loads_trunc2 fs hg hfs hlastP
    -- last character of the truncation
    obtain ⟨kvD, preD, hkvD, hpreD⟩ := dumpsFields_decomp fs hfs
    have hkvDL : kvD = kvL := by
      rw [hkvL] at hkvD
      cases hkvD
      rfl
    subst hkvDL
    have hdropF : (dumpsFields fs).dropLast = preD ++ (dumps kvD.2).dropLast := by
      rw [hpreD]
      exact List.dropLast_append_of_ne_nil _ (dumps_ne_nil kvD.2)
    have htrne : (dumps kvD.2).dropLast ≠ [] := by
      have h2 := dumps_cont_len kvD.2 hcont
      have : ((dumps kvD.2).dropLast).length = (dumps kvD.2).length - 1 := by
        simp [List.length_dropLast]
      intro h0
      rw [h0] at this
      simp at this
      omega
    have hlast : ∀ c, ((dumps (.jobj fs)).take ((dumps (.jobj fs)).length - 2)).getLast? = some c
        → isWsC c = false ∧ c ≠ '`' := by
      intro c hc
      rw [ht1, hdropF] at hc
      have hne2 : preD ++ (dumps kvD.2).dropLast ≠ [] := by
        simp [htrne]
      rw [show '\x7b' :: (preD ++ (dumps kvD.2).dropLast)
          = ['\x7b'] ++ (preD ++ (dumps kvD.2).dropLast) from rfl,
        List.getLast?_append_of_ne_nil _ hne2,
        List.getLast?_append_of_ne_nil _ htrne] at hc
      exact cont_trunc_getLast kvD.2 hgoodL.2 hcont c hc
    -- counts
    have hc1 := hcount '\x7b'
    have hc2c := hcount '\x7d'
    have hc3 := hcount '['
    have hc4 := hcount ']'
    rw [hrem] at hc1 hc2c hc3 hc4
    have hclose : closeUp ((dumps (.jobj fs)).take ((dumps (.jobj fs)).length - 2))
        = dumps (.jobj fs) := by
      rcases hcloser_or with rfl | rfl
      · have hr1 : ([('\x7d' : Char), '\x7d'] : List Char).count '\x7b' = 0 := by decide
        have hr2 : ([('\x7d' : Char), '\x7d'] : List Char).count '\x7d' = 2 := by decide
        have hr3 : ([('\x7d' : Char), '\x7d'] : List Char).count '[' = 0 := by decide
        have hr4 : ([('\x7d' : Char), '\x7d'] : List Char).count ']' = 0 := by decide
        rw [hr1] at hc1
        rw [hr2] at hc2c
        rw [hr3] at hc3
        rw [hr4] at hc4
        have hdB : ((dumps (.jobj fs)).take ((dumps (.jobj fs)).length - 2)).count '['
            - ((dumps (.jobj fs)).take ((dumps (.jobj fs)).length - 2)).count ']' = 0 := by omega
        have hdC : ((dumps (.jobj fs)).take ((dumps (.jobj fs)).length - 2)).count '\x7b'
            - ((dumps (.jobj fs)).take ((dumps (.jobj fs)).length - 2)).count '\x7d' = 2 := by
          omega
        rw [closeUp, hdB, hdC, List.replicate_zero, List.append_nil]
        rw [show List.replicate 2 ('\x7d' : Char) = ['\x7d', '\x7d'] from rfl]
        rw [← hrem]
        exact hsplit
      · have hr1 : ([(']' : Char), '\x7d'] : List Char).count '\x7b' = 0 := by decide
        have hr2 : ([(']' : Char), '\x7d'] : List Char).count '\x7d' = 1 := by decide
        have hr3 : ([(']' : Char), '\x7d'] : List Char).count '[' = 0 := by decide
        have hr4 : ([(']' : Char), '\x7d'] : List Char).count ']' = 1 := by decide
        rw [hr1] at hc1
        rw [hr2] at hc2c
        rw [hr3] at hc3
        rw [hr4] at hc4
        have hdB : ((dumps (.jobj fs)).take ((dumps (.jobj fs)).length - 2)).count '['
            - ((dumps (.jobj fs)).take ((dumps (.jobj fs)).length - 2)).count ']' = 1 := by omega
        have hdC : ((dumps (.jobj fs)).take ((dumps (.jobj fs)).length - 2)).count '\x7b'
            - ((dumps (.jobj fs)).take ((dumps (.jobj fs)).length - 2)).count '\x7d' = 1 := by
          omega
        rw [closeUp, hdB, hdC, List.replicate_one, List.replicate_one]
        rw [show ((dumps (.jobj fs)).take ((dumps (.jobj fs)).length - 2)) ++ [']'] ++ ['\x7d']
          = ((dumps (.jobj fs)).take ((dumps (.jobj fs)).length - 2)) ++ [']', '\x7d']
          from by simp]
        rw [← hrem]
        exact hsplit
    have hrepair : repair_json ((dumps (.jobj fs)).take ((dumps (.jobj fs)).length - 2))
        = dumps (.jobj fs) := by
      rw [repair_json, stripAll_id _ ((dumpsFields fs).dropLast) ht1 hlast]
      rw [repairCore_trunc fs hg 2 (by omega) ((dumpsFields fs).dropLast) ht1 hclose, hfix]
    have hloadD : loads (dumps (.jobj fs)) = some (.jobj fs) := loads_dumps _ hg
    refine ⟨hclose, hrepair, hloadD, ?_⟩
    simp only [safe_json_parse, hload1, hrepair, hloadD]


/-- C4 (amended): for every serialized JSON object in the modelled class
(string contents printable ASCII without quote, backslash, braces or
brackets; keys distinct; integer numbers) whose last k characters
(k = 1 or 2) are closing brackets/braces, if the five comma-fixing regex
substitutions of repair_json leave the full serialization unchanged, then
on the serialization with those k closers removed: the count-delta append
reconstructs exactly the removed closers, repair_json returns the full
serialization, json.loads parses it back to the original object, and
safe_json_parse returns the original object (strategy 1 fails on the
truncation, strategy 2 succeeds).  The regex-identity hypothesis is the
minimal carve-out forced by the counterexample below: the substitutions
can corrupt certain serializations (for example a string value ending in
a digit), in which case the repaired text parses to a different object. -/
theorem safe_json_parse_restores_truncated_object (fs : List (List Char × JVal))
    (hg : goodV (.jobj fs) = true)
    (hfix : subsAll (dumps (.jobj fs)) = dumps (.jobj fs))
    (k : Nat) (hk : k = 1 ∨ k = 2)
    (hcl : ((dumps (.jobj fs)).drop ((dumps (.jobj fs)).length - k)).all isCloser = true) :
    closeUp ((dumps (.jobj fs)).take ((dumps (.jobj fs)).length - k)) = dumps (.jobj fs)
    ∧ repair_json ((dumps (.jobj fs)).take ((dumps (.jobj fs)).length - k)) = dumps (.jobj fs)
    ∧ loads (dumps (.jobj fs)) = some (.jobj fs)
    ∧ safe_json_parse ((dumps (.jobj fs)).take ((dumps (.jobj fs)).length - k))
        = some (.jobj fs) :=
  repair_restores fs hg hfix k hk hcl

/-- Witness for C4 (amended) at the object \x7b"a": [1]\x7d with both
trailing closers removed, discharging every hypothesis by computation. -/
theorem safe_json_parse_restores_truncated_object_witness :
    goodV (.jobj [("a".data, JVal.jarr [JVal.jnum 1])]) = true
    ∧ subsAll (dumps (.jobj [("a".data, JVal.jarr [JVal.jnum 1])]))
        = dumps (.jobj [("a".data, JVal.jarr [JVal.jnum 1])])
    ∧ ((dumps (.jobj [("a".data, JVal.jarr [JVal.jnum 1])])).drop
        ((dumps (.jobj [("a".data, JVal.jarr [JVal.jnum 1])])).length - 2)).all isCloser = true
    ∧ safe_json_parse ((dumps (.jobj [("a".data, JVal.jarr [JVal.jnum 1])])).take
        ((dumps (.jobj [("a".data, JVal.jarr [JVal.jnum 1])])).length - 2))
          = some (.jobj [("a".data, JVal.jarr [JVal.jnum 1])]) :=
  ⟨by decide, rfl, by decide,
    (safe_json_parse_restores_truncated_object [("a".data, JVal.jarr [JVal.jnum 1])]
      (by decide) rfl 2 (Or.inr rfl) (by decide)).2.2.2⟩

/-- C4, counterexample to the claim as stated: the serialized object
\x7b"a": "x1"\x7d with its single trailing brace removed is "repaired" by
safe_json_parse into a DIFFERENT object — the count-delta append restores
the brace, but the substitution (null|true|false|\d+)\s*" → \1," then
inserts a comma inside the string value, yielding \x7b"a": "x1,"\x7d. -/
theorem safe_json_parse_corrupts_string_value :
    dumps (.jobj [("a".data, JVal.jstr "x1".data)]) = "\x7b\"a\": \"x1\"\x7d".data
    ∧ safe_json_parse (("\x7b\"a\": \"x1\"\x7d".data).take 10)
        = some (.jobj [("a".data, JVal.jstr "x1,".data)])
    ∧ safe_json_parse (("\x7b\"a\": \"x1\"\x7d".data).take 10)
        ≠ some (.jobj [("a".data, JVal.jstr "x1".data)]) := by
  refine ⟨rfl, rfl, ?_⟩
  intro h
  rw [show safe_json_parse (("\x7b\"a\": \"x1\"\x7d".data).take 10)
    = some (JVal.jobj [("a".data, JVal.jstr "x1,".data)]) from rfl] at h
  simp at h

end Thesis
